import Mathlib

/-!
# Verification of the Sarathi Gemini service layer
  (`backend/app/services/gemini_service.py`)

This file gives a shallow embedding, in Lean 4, of the response-extraction
logic of `GeminiService`: the Python string preprocessing
(`str.strip`, `str.replace` of code-fence markers), the JSON parsing done by
`json.loads`, the greedy brace-block fallback of `extract_trip_info`, the
numeric-field normalization, the per-use-case error wrapping, and the PIL
image preprocessing in `analyze_vehicle_images`.

Strings are modelled as `List Char`.  JSON values are modelled by the mutual
inductive `Json` / `JsonList` / `JsonFields`; numbers are modelled exactly as
scaled decimals `m / 10^k` (an integer mantissa and a power-of-ten
denominator), with an `isFloat` tag distinguishing Python `int` from `float`.
This replaces IEEE-754 doubles by exact decimal arithmetic; the abstraction is
faithful for every operation performed by the service (parsing, re-printing
and the `float(...)` coercions), which never rounds.  Non-finite literals
(`NaN`, `Infinity`) are outside the model and noted where relevant.

All recursive functions are structurally recursive (on an explicit fuel
parameter where needed) so that every definition evaluates by `decide`/`rfl`.
-/

namespace Sarathi

/-- Python strings, modelled as lists of unicode characters. -/
abbrev Str := List Char

/-- Coerce a Lean string literal to the `Str` model. -/
def toL (s : String) : Str := s.data

/-- The whitespace characters recognized by the JSON scanner
(`json.decoder.WHITESPACE_STR = ' \t\n\r'`). -/
def isJsonWs (c : Char) : Bool :=
  c = ' ' || c = '\t' || c = '\n' || c = '\r'

/-- The characters stripped by Python `str.strip()` with no arguments:
every character `c` with `c.isspace() = True` (Unicode whitespace), compared
by code point. -/
def isPyWs (c : Char) : Bool :=
  c.toNat = 0x20 || c.toNat = 0x09 || c.toNat = 0x0a || c.toNat = 0x0d ||
  c.toNat = 0x0b || c.toNat = 0x0c ||
  c.toNat = 0x1c || c.toNat = 0x1d || c.toNat = 0x1e || c.toNat = 0x1f ||
  c.toNat = 0x85 || c.toNat = 0xa0 || c.toNat = 0x1680 ||
  (0x2000 ≤ c.toNat && c.toNat ≤ 0x200a) ||
  c.toNat = 0x2028 || c.toNat = 0x2029 ||
  c.toNat = 0x202f || c.toNat = 0x205f || c.toNat = 0x3000

/-- Drop the characters satisfying `p` from the end of a list. -/
def dropEnd (p : Char → Bool) (s : Str) : Str :=
  (s.reverse.dropWhile p).reverse

/-- Python `str.strip()`: remove leading and trailing Unicode whitespace. -/
def pyStrip (s : Str) : Str := dropEnd isPyWs (s.dropWhile isPyWs)

/-- Remove leading and trailing JSON whitespace, as the `json.loads` scanner
does around the single top-level value. -/
def jsonTrim (s : Str) : Str := dropEnd isJsonWs (s.dropWhile isJsonWs)

/-- Fueled worker for `pyReplace`.  Scans left to right; at each position, if
the pattern occurs there it is replaced (by the empty replacement used in the
service) and scanning resumes after the occurrence; otherwise one character is
copied.  The fuel bounds the number of scanning steps; `s.length` steps always
suffice for a nonempty pattern. -/
def pyRepAux (pat rep : Str) : Nat → Str → Str
  | _, [] => []
  | 0, s => s
  | fuel + 1, c :: cs =>
    if pat.isPrefixOf (c :: cs) then rep ++ pyRepAux pat rep fuel ((c :: cs).drop pat.length)
    else c :: pyRepAux pat rep fuel cs

/-- Python `str.replace(pat, rep)` for a nonempty pattern: replace every
occurrence, scanning left to right over the original string without
re-scanning replaced text. -/
def pyReplace (pat rep s : Str) : Str := pyRepAux pat rep s.length s

/-- The fence-marker cleaning applied before every strict parse in the
service: `text.replace('```json', '').replace('```', '')`. -/
def cleanFences (s : Str) : Str :=
  pyReplace (toL "```") [] (pyReplace (toL "```json") [] s)

/-- Python `pat in s` for strings: substring containment. -/
def hasSubstr (pat : Str) : Str → Bool
  | [] => pat.isEmpty
  | c :: cs => pat.isPrefixOf (c :: cs) || hasSubstr pat cs

/-- Index of the first character satisfying `p`. -/
def findIdxA (p : Char → Bool) : Str → Option Nat
  | [] => none
  | c :: cs => if p c then some 0 else (findIdxA p cs).map (· + 1)

/-- The opening brace. -/
def isOpenB (c : Char) : Bool := c = Char.ofNat 0x7b

/-- The closing brace. -/
def isCloseB (c : Char) : Bool := c = Char.ofNat 0x7d

/-- The match of the greedy regex `\{[\s\S]*\}` used by the fallback of
`extract_trip_info`: the substring from the first opening brace to the last
closing brace, provided the latter comes strictly after the former. -/
def braceSub (s : Str) : Option Str :=
  match findIdxA isOpenB s, findIdxA isCloseB s.reverse with
  | some i, some jr =>
    let j := s.length - 1 - jr
    if i < j then some ((s.drop i).take (j - i + 1)) else none
  | _, _ => none

mutual
/-- Python values produced by `json.loads`.  Numbers are exact scaled
decimals: `num m k f` denotes `m / 10^k`, and `f` records whether the Python
value is a `float` (a literal with a fraction or exponent, or the result of a
`float(...)` coercion) as opposed to an `int`.  The non-finite literals
`NaN`/`Infinity`/`-Infinity` accepted by `json.loads` are outside the model. -/
inductive Json where
  | null
  | bool (b : Bool)
  | num (m : Int) (k : Nat) (isFloat : Bool)
  | str (s : Str)
  | arr (xs : JsonList)
  | obj (fs : JsonFields)

/-- Python lists of JSON values. -/
inductive JsonList where
  | nil
  | cons (x : Json) (xs : JsonList)

/-- Python dicts with string keys, in insertion order. -/
inductive JsonFields where
  | nil
  | cons (k : Str) (v : Json) (fs : JsonFields)
end

deriving instance DecidableEq for Json

deriving instance DecidableEq for Except

/-- Dict lookup (`result[k]` / `k in result` for dicts). -/
def lookupF (key : Str) : JsonFields → Option Json
  | .nil => none
  | .cons k v fs => if k = key then some v else lookupF key fs

/-- Python `k in d` for dicts. -/
def hasKeyF (key : Str) (fs : JsonFields) : Bool := (lookupF key fs).isSome

/-- Python `d[k] = v` for a key already present: the value is updated at the
key's existing position. -/
def setF (key : Str) (v : Json) : JsonFields → JsonFields
  | .nil => .nil
  | .cons k w fs => if k = key then .cons k v fs else .cons k w (setF key v fs)

/-- Remove the binding for `key`, if present. -/
def eraseF (key : Str) : JsonFields → JsonFields
  | .nil => .nil
  | .cons k w fs => if k = key then fs else .cons k w (eraseF key fs)

/-- Building a dict from a head pair followed by the dict of the remaining
pairs, with Python `dict(pairs)` semantics: on a duplicate key the first
occurrence fixes the position and the last occurrence fixes the value. -/
def consPy (key : Str) (v : Json) (fs : JsonFields) : JsonFields :=
  match lookupF key fs with
  | some w => .cons key w (eraseF key fs)
  | none => .cons key v fs

/-- Python `name in xs` for lists, for a string `name`: some element compares
equal to `name` (under Python `==`, only a string can equal a string). -/
def hasStrElem (name : Str) : JsonList → Bool
  | .nil => false
  | .cons x xs =>
    (match x with
     | .str s => s = name
     | _ => false) || hasStrElem name xs

/-- One-level key distinctness of a dict (holds for every dict built by
`json.loads`). -/
def keysNodup : JsonFields → Bool
  | .nil => true
  | .cons k _ fs => !hasKeyF k fs && keysNodup fs

mutual
/-- Well-formedness of a value as produced by the parser: numbers are in
canonical scaled-decimal form, and every dict has distinct keys. -/
def wfJ : Json → Bool
  | .null => true
  | .bool _ => true
  | .num m k f =>
    decide (m = 0 → k = 0) && decide (k ≠ 0 → ¬ (10 : Int) ∣ m) &&
      decide (f = false → k = 0)
  | .str _ => true
  | .arr xs => wfL xs
  | .obj fs => keysNodup fs && wfF fs

/-- All elements well-formed. -/
def wfL : JsonList → Bool
  | .nil => true
  | .cons x xs => wfJ x && wfL xs

/-- All values well-formed. -/
def wfF : JsonFields → Bool
  | .nil => true
  | .cons _ v fs => wfJ v && wfF fs
end

/-! ## Decimal digits and canonical numbers -/

/-- ASCII decimal digit. -/
def isDigit (c : Char) : Bool := 48 ≤ c.toNat && c.toNat ≤ 57

/-- Value of an ASCII digit. -/
def digVal (c : Char) : Nat := c.toNat - 48

/-- The ASCII digit for `n < 10`. -/
def digChar (n : Nat) : Char := Char.ofNat (48 + n)

/-- Longest prefix of ASCII digits. -/
def takeDigits : Str → (List Char × Str)
  | [] => ([], [])
  | c :: cs =>
    if isDigit c then
      let (ds, r) := takeDigits cs
      (c :: ds, r)
    else ([], c :: cs)

/-- Numeric value of a digit string, most significant first. -/
def digsToNat (acc : Nat) : List Char → Nat
  | [] => acc
  | c :: cs => digsToNat (acc * 10 + digVal c) cs

/-- Reduce `m / 10^k` to canonical form: strip factors of ten (and collapse
`0 / 10^k` to `0`), so that `k = 0` or `10 ∤ m`. -/
def canonAux : Nat → Int → Int × Nat
  | 0, m => (m, 0)
  | k + 1, m =>
    if m = 0 then (0, 0)
    else if m % 10 = 0 then canonAux k (m / 10)
    else (m, k + 1)

/-- Canonical form of the scaled decimal `m / 10^k`. -/
def canonNum (m : Int) (k : Nat) : Int × Nat := canonAux k m

/-- Assemble the JSON number with the given sign, integer digits, fraction
digits and decimal exponent, exactly as the parsed literal denotes, in
canonical form.  `isF` is the Python `float`/`int` distinction. -/
def mkNum (neg : Bool) (intDs fracDs : List Char) (e : Int) (isF : Bool) : Json :=
  let mag : Nat := digsToNat (digsToNat 0 intDs) fracDs
  let k : Nat := fracDs.length
  let m0 : Int := if neg then -(mag : Int) else (mag : Int)
  if (k : Int) ≤ e then
    Json.num (m0 * (10 : Int) ^ (e - (k : Int)).toNat) 0 isF
  else
    let p := canonNum m0 ((k : Int) - e).toNat
    Json.num p.1 p.2 isF

/-! ## The JSON parser (`json.loads`) -/

/-- Skip JSON whitespace. -/
def skipWs : Str → Str
  | [] => []
  | c :: cs => if isJsonWs c then skipWs cs else c :: cs

/-- ASCII hexadecimal digit. -/
def isHexDig (c : Char) : Bool :=
  (48 ≤ c.toNat && c.toNat ≤ 57) || (97 ≤ c.toNat && c.toNat ≤ 102) ||
    (65 ≤ c.toNat && c.toNat ≤ 70)

/-- Value of an ASCII hexadecimal digit. -/
def hexVal (c : Char) : Nat :=
  if c.toNat ≤ 57 then c.toNat - 48
  else if 97 ≤ c.toNat then c.toNat - 87
  else c.toNat - 55

/-- Parse the optional fraction group `\.\d+` of a JSON number; the decimal
point is consumed only when at least one digit follows it. -/
def parseFrac : Str → Option (List Char × Str)
  | '.' :: r =>
    match takeDigits r with
    | ([], _) => none
    | (ds, r2) => some (ds, r2)
  | _ => none

/-- Parse the optional exponent group `[eE][-+]?\d+` of a JSON number; the
marker is consumed only when the digits are present. -/
def parseExp (s : Str) : Option (Int × Str) :=
  match s with
  | c :: r =>
    if c = 'e' || c = 'E' then
      let (sgn, r1) : Int × Str :=
        match r with
        | '+' :: rr => (1, rr)
        | '-' :: rr => (-1, rr)
        | _ => (1, r)
      match takeDigits r1 with
      | ([], _) => none
      | (ds, r2) => some (sgn * (digsToNat 0 ds : Nat), r2)
    else none
  | [] => none

/-- Parse a JSON number literal at the head of the input, following the
scanner's regex `(-?(?:0|[1-9]\d*))(\.\d+)?([eE][-+]?\d+)?`: a leading zero is
not followed by further integer digits, and the fraction and exponent groups
are taken only when complete. -/
def parseNumber (s : Str) : Option (Json × Str) :=
  let (neg, s1) : Bool × Str :=
    match s with
    | '-' :: r => (true, r)
    | _ => (false, s)
  match s1 with
  | c :: r =>
    if ¬ isDigit c then none
    else
      let (intDs, rest) : List Char × Str :=
        if c = '0' then ([c], r)
        else
          let p := takeDigits r
          (c :: p.1, p.2)
      match parseFrac rest with
      | some (fds, r2) =>
        match parseExp r2 with
        | some (e, r3) => some (mkNum neg intDs fds e true, r3)
        | none => some (mkNum neg intDs fds 0 true, r2)
      | none =>
        match parseExp rest with
        | some (e, r3) => some (mkNum neg intDs [] e true, r3)
        | none => some (mkNum neg intDs [] 0 false, rest)
  | [] => none

/-- The body of `parseNumber` after the sign has been split off: the same
term with the sign flag and the unsigned input as parameters (a proof-side
restatement, shown equal to `parseNumber` below). -/
def parseNumBody (neg : Bool) (s1 : Str) : Option (Json × Str) :=
  match s1 with
  | c :: r =>
    if ¬ isDigit c then none
    else
      let (intDs, rest) : List Char × Str :=
        if c = '0' then ([c], r)
        else
          let p := takeDigits r
          (c :: p.1, p.2)
      match parseFrac rest with
      | some (fds, r2) =>
        match parseExp r2 with
        | some (e, r3) => some (mkNum neg intDs fds e true, r3)
        | none => some (mkNum neg intDs fds 0 true, r2)
      | none =>
        match parseExp rest with
        | some (e, r3) => some (mkNum neg intDs [] e true, r3)
        | none => some (mkNum neg intDs [] 0 false, rest)
  | [] => none

/-- Parse the body of a JSON string literal (after the opening quote), in
strict mode: raw control characters below `0x20` are rejected; escape
sequences are `\" \\ \/ \b \f \n \r \t \uXXXX`, and a high/low surrogate
escape pair is combined into one character.  (A lone surrogate escape, which
Python keeps as a lone surrogate code unit, has no counterpart among Lean's
unicode scalar values and is degraded by `Char.ofNat`; no operation of the
service produces one.) -/
def parseStr : Nat → Str → Option (Str × Str)
  | _, [] => none
  | 0, _ => none
  | fuel + 1, c :: cs =>
    if c = '"' then some ([], cs)
    else if c = '\\' then
      match cs with
      | e :: cs' =>
        if e = '"' ∨ e = '\\' ∨ e = '/' then
          (parseStr fuel cs').map (fun p => (e :: p.1, p.2))
        else if e = 'b' then
          (parseStr fuel cs').map (fun p => (Char.ofNat 8 :: p.1, p.2))
        else if e = 'f' then
          (parseStr fuel cs').map (fun p => (Char.ofNat 12 :: p.1, p.2))
        else if e = 'n' then
          (parseStr fuel cs').map (fun p => ('\n' :: p.1, p.2))
        else if e = 'r' then
          (parseStr fuel cs').map (fun p => ('\r' :: p.1, p.2))
        else if e = 't' then
          (parseStr fuel cs').map (fun p => ('\t' :: p.1, p.2))
        else if e = 'u' then
          match cs' with
          | h1 :: h2 :: h3 :: h4 :: cs'' =>
            if isHexDig h1 && isHexDig h2 && isHexDig h3 && isHexDig h4 then
              let code := ((hexVal h1 * 16 + hexVal h2) * 16 + hexVal h3) * 16 + hexVal h4
              if 0xd800 ≤ code ∧ code ≤ 0xdbff then
                match cs'' with
                | '\\' :: 'u' :: g1 :: g2 :: g3 :: g4 :: cs3 =>
                  if isHexDig g1 && isHexDig g2 && isHexDig g3 && isHexDig g4 then
                    let code2 := ((hexVal g1 * 16 + hexVal g2) * 16 + hexVal g3) * 16 + hexVal g4
                    if 0xdc00 ≤ code2 ∧ code2 ≤ 0xdfff then
                      let comb := 0x10000 + (code - 0xd800) * 0x400 + (code2 - 0xdc00)
                      (parseStr fuel cs3).map (fun p => (Char.ofNat comb :: p.1, p.2))
                    else (parseStr fuel cs'').map (fun p => (Char.ofNat code :: p.1, p.2))
                  else (parseStr fuel cs'').map (fun p => (Char.ofNat code :: p.1, p.2))
                | _ => (parseStr fuel cs'').map (fun p => (Char.ofNat code :: p.1, p.2))
              else (parseStr fuel cs'').map (fun p => (Char.ofNat code :: p.1, p.2))
            else none
          | _ => none
        else none
      | [] => none
    else if c.toNat < 0x20 then none
    else (parseStr fuel cs).map (fun p => (c :: p.1, p.2))

mutual
/-- Parse a single JSON value at the head of the input (no leading
whitespace), as the `json` scanner's `scan_once` does.  Returns the value and
the unconsumed rest. -/
def parseVal : Nat → Str → Option (Json × Str)
  | _, [] => none
  | 0, _ => none
  | fuel + 1, c :: s =>
    if c = '{' then
      match skipWs s with
      | '}' :: r => some (Json.obj .nil, r)
      | s1 => (parseMembers fuel s1).map (fun p => (Json.obj p.1, p.2))
    else if c = '[' then
      match skipWs s with
      | ']' :: r => some (Json.arr .nil, r)
      | s1 => (parseElems fuel s1).map (fun p => (Json.arr p.1, p.2))
    else if c = '"' then
      (parseStr fuel s).map (fun p => (Json.str p.1, p.2))
    else if (toL "true").isPrefixOf (c :: s) then some (Json.bool true, (c :: s).drop 4)
    else if (toL "false").isPrefixOf (c :: s) then some (Json.bool false, (c :: s).drop 5)
    else if (toL "null").isPrefixOf (c :: s) then some (Json.null, (c :: s).drop 4)
    else parseNumber (c :: s)

/-- Parse the elements of a nonempty JSON array (input starts at the first
element, leading whitespace already skipped), up to and including the closing
bracket. -/
def parseElems : Nat → Str → Option (JsonList × Str)
  | _, [] => none
  | 0, _ => none
  | fuel + 1, s =>
    match parseVal fuel s with
    | some (v, rest) =>
      match skipWs rest with
      | ']' :: r => some (.cons v .nil, r)
      | ',' :: r =>
        (parseElems fuel (skipWs r)).map (fun p => (JsonList.cons v p.1, p.2))
      | _ => none
    | none => none

/-- Parse the members of a nonempty JSON object (input starts at the opening
quote of the first key), up to and including the closing brace.  Duplicate
keys follow Python `dict` semantics: first occurrence fixes the position,
last occurrence fixes the value. -/
def parseMembers : Nat → Str → Option (JsonFields × Str)
  | _, [] => none
  | 0, _ => none
  | fuel + 1, c :: s =>
    if c = '"' then
      match parseStr fuel s with
      | some (key, r1) =>
        match skipWs r1 with
        | ':' :: r2 =>
          match parseVal fuel (skipWs r2) with
          | some (v, r3) =>
            match skipWs r3 with
            | '}' :: r4 => some (.cons key v .nil, r4)
            | ',' :: r4 =>
              (parseMembers fuel (skipWs r4)).map (fun p => (consPy key v p.1, p.2))
            | _ => none
          | none => none
        | _ => none
      | none => none
    else none
end

/-- The fuel with which the service's parses are run; two steps per input
character always suffice. -/
def parseFuel (s : Str) : Nat := 2 * s.length + 4

/-- `json.loads`: strip the whitespace around the single top-level value and
parse it, requiring that nothing else remains.  (The scanner skips leading
whitespace, parses one value and then requires only whitespace to follow; as
a JSON value never ends in a whitespace character, trimming both ends first
and requiring an empty rest is the same function.) -/
def jsonLoads (s : Str) : Option Json :=
  let t := jsonTrim s
  match parseVal (parseFuel t) t with
  | some (v, []) => some v
  | _ => none

/-! ## Numeric coercion (`float(...)`) and trip-info normalization -/

/-- Longest run of ASCII digits possibly separated by single underscores (as
Python numeric-literal parsing allows: an underscore must sit between two
digits). -/
def takeDigitsU : Nat → Str → (List Char × Str)
  | 0, s => ([], s)
  | _, [] => ([], [])
  | fuel + 1, c :: cs =>
    if isDigit c then
      match cs with
      | '_' :: rest =>
        (match rest with
         | d :: _ =>
           if isDigit d then
             let p := takeDigitsU fuel rest
             (c :: p.1, p.2)
           else ([c], cs)
         | [] => ([c], cs))
      | _ =>
        let p := takeDigitsU fuel cs
        (c :: p.1, p.2)
    else ([], c :: cs)

/-- The exponent of a Python float literal: `[eE][+-]?digits`. -/
def pyFloatExp (s : Str) : Option (Int × Str) :=
  match s with
  | c :: r =>
    if c = 'e' || c = 'E' then
      let (sgn, r1) : Int × Str :=
        match r with
        | '+' :: rr => (1, rr)
        | '-' :: rr => (-1, rr)
        | _ => (1, r)
      match takeDigitsU r1.length r1 with
      | ([], _) => none
      | (ds, r2) => some (sgn * (digsToNat 0 ds : Nat), r2)
    else none
  | [] => none

/-- Python `float(s)` on a string, for finite decimal literals: surrounding
whitespace is stripped, then `[+-]? (digits [. digits?] | . digits)
([eE][+-]? digits)?` with single underscores allowed inside digit runs.  The
result is the exact decimal value in canonical scaled form.  (Non-finite
literals `inf`/`infinity`/`nan` and non-ASCII digits are outside the model,
and the exact value replaces the nearest IEEE double.) -/
def pyFloatOfStr (s : Str) : Option (Int × Nat) :=
  let t := pyStrip s
  let (neg, t1) : Bool × Str :=
    match t with
    | '-' :: r => (true, r)
    | '+' :: r => (false, r)
    | _ => (false, t)
  let (intDs, r1) := takeDigitsU t1.length t1
  let (fracDs, r2, _ok) : List Char × Str × Bool :=
    match r1 with
    | '.' :: rr =>
      let p := takeDigitsU rr.length rr
      (p.1, p.2, true)
    | _ => ([], r1, true)
  if intDs.isEmpty && fracDs.isEmpty then none
  else
    let finish : Int → Str → Option (Int × Nat) := fun e rest =>
      match rest with
      | [] =>
        let mag : Nat := digsToNat (digsToNat 0 intDs) fracDs
        let k : Nat := fracDs.length
        let m0 : Int := if neg then -(mag : Int) else (mag : Int)
        if (k : Int) ≤ e then some (m0 * (10 : Int) ^ (e - (k : Int)).toNat, 0)
        else some (canonNum m0 ((k : Int) - e).toNat)
      | _ => none
    match pyFloatExp r2 with
    | some (e, r3) => finish e r3
    | none => finish 0 r2

/-- The coercion applied to each declared numeric field of the trip-info
result: `float(result[f]) if result[f] is not None else 0.0`, with any
exception from `float` replaced by `0.0` by the surrounding handler.
`float` of a number is its value, of a bool is `1.0`/`0.0`, of a string is
the parsed literal, and of a list or dict raises (hence `0.0`). -/
def tripCoerce (v : Json) : Json :=
  match v with
  | .null => Json.num 0 0 true
  | .num m k _ => Json.num m k true
  | .bool b => Json.num (if b then 1 else 0) 0 true
  | .str s =>
    match pyFloatOfStr s with
    | some (m, k) => Json.num m k true
    | none => Json.num 0 0 true
  | _ => Json.num 0 0 true

/-- The four field names the trip-info extractor coerces, in program order. -/
def numFieldNames : List Str :=
  [toL "earnings", toL "fuel_cost", toL "toll_cost", toL "other_expenses"]

/-- One step of the normalization loop, for a dict result:
`if num_field in result: result[num_field] = float(...) ...`. -/
def normNumField (name : Str) (fs : JsonFields) : JsonFields :=
  match lookupF name fs with
  | some v => setF name (tripCoerce v) fs
  | none => fs

/-- The whole normalization loop on a dict result. -/
def normTripObj (fs : JsonFields) : JsonFields :=
  normNumField (toL "other_expenses")
    (normNumField (toL "toll_cost")
      (normNumField (toL "fuel_cost")
        (normNumField (toL "earnings") fs)))

/-- The normalization loop on an arbitrary parsed result.  `none` models an
exception escaping the loop: for a list or a string, `name in result` is
element/substring containment and, when it holds, the subsequent indexing
raises `TypeError`; for a number, bool or `None` result, `name in result`
itself raises `TypeError` at once. -/
def normTrip (v : Json) : Option Json :=
  match v with
  | .obj fs => some (.obj (normTripObj fs))
  | .arr xs =>
    if numFieldNames.any (fun n => hasStrElem n xs) then none else some v
  | .str s =>
    if numFieldNames.any (fun n => hasSubstr n s) then none else some v
  | _ => none

/-! ## The service operations

Each operation is modelled as a function of the outcome of its single
upstream `generate_content` call: `.error e` stands for an exception (with
text `e`) raised by the external call itself, `.ok text` for a successful
call returning `response.text`.  The operation returns `.ok result` for a
normal return and `.error msg` for a raised `Exception(msg)` — the service
wraps every failure into the one generic `Exception` type, so a single
string-carrying error alternative is the faithful error model. -/

/-- Stand-in for `str(e)` of the `json.JSONDecodeError` raised by a failed
parse; the exact diagnostic text (position information) is abstracted. -/
def jsonDecodeErrMsg : Str := toL "Expecting value"

/-- The fixed default record returned by `extract_trip_info` when no parse
succeeds. -/
def defaultTrip : Json :=
  .obj (.cons (toL "start_location") .null
    (.cons (toL "end_location") .null
      (.cons (toL "earnings") (.num 0 0 true)
        (.cons (toL "fuel_cost") (.num 0 0 true)
          (.cons (toL "toll_cost") (.num 0 0 true)
            (.cons (toL "other_expenses") (.num 0 0 true)
              (.cons (toL "platform") .null
                (.cons (toL "trip_type") (.str (toL "ride_hailing"))
                  (.cons (toL "notes") (.str []) .nil)))))))))

/-- The fallback branch of `extract_trip_info`: search `response_text` (the
stripped raw text, fences intact) for the greedy regex `\{[\s\S]*\}` — the
substring from the first `{` to the last `}` — and try to parse and
normalize it; on any failure return the default record. -/
def tripFallback (responseText : Str) : Json :=
  match braceSub responseText with
  | some sub =>
    match jsonLoads sub with
    | some v =>
      match normTrip v with
      | some r => r
      | none => defaultTrip
    | none => defaultTrip
  | none => defaultTrip

/-- `extract_trip_info` on a successfully returned `response.text`: strip,
remove fence markers, strict-parse and normalize; any exception in that
attempt (parse failure, or a normalization `TypeError`) falls through to the
brace-block fallback. -/
def extractTripInfoText (raw : Str) : Json :=
  let responseText := pyStrip raw
  match jsonLoads (cleanFences responseText) with
  | some v =>
    match normTrip v with
    | some r => r
    | none => tripFallback responseText
  | none => tripFallback responseText

/-- `extract_trip_info`, including the outer handler that wraps an upstream
failure into `Exception("Trip info extraction failed: " + str(e))`. -/
def extract_trip_info (upstream : Except Str Str) : Except Str Json :=
  match upstream with
  | .error e => .error (toL "Trip info extraction failed: " ++ e)
  | .ok text => .ok (extractTripInfoText text)

/-- The common shape of the four non-trip extraction operations:
`json.loads(response.text.strip().replace('```json', '').replace('```', ''))`
with every exception wrapped into `Exception(prefix + str(e))`. -/
def simpleParse (raw : Str) : Option Json := jsonLoads (cleanFences (pyStrip raw))

/-- A use case without fallback: parse strictly or fail with the use case's
message prefix. -/
def simpleAnalyze (failPrefix : Str) (upstream : Except Str Str) : Except Str Json :=
  match upstream with
  | .error e => .error (failPrefix ++ e)
  | .ok text =>
    match simpleParse text with
    | some v => .ok v
    | none => .error (failPrefix ++ jsonDecodeErrMsg)

/-- `analyze_vehicle_images` after image preprocessing, as a function of the
upstream outcome. -/
def analyze_vehicle_images : Except Str Str → Except Str Json :=
  simpleAnalyze (toL "Vehicle image analysis failed: ")

/-- `analyze_earnings_pattern` as a function of the upstream outcome. -/
def analyze_earnings_pattern : Except Str Str → Except Str Json :=
  simpleAnalyze (toL "Earnings pattern analysis failed: ")

/-- `detect_fatigue` as a function of the upstream outcome. -/
def detect_fatigue : Except Str Str → Except Str Json :=
  simpleAnalyze (toL "Fatigue detection failed: ")

/-- `generate_financial_plan` as a function of the upstream outcome. -/
def generate_financial_plan : Except Str Str → Except Str Json :=
  simpleAnalyze (toL "Financial plan generation failed: ")

/-- `transcribe_audio`: returns `response.text` unchanged, or wraps the
upstream failure. -/
def transcribe_audio (upstream : Except Str Str) : Except Str Str :=
  match upstream with
  | .error e => .error (toL "Audio transcription failed: " ++ e)
  | .ok t => .ok t

/-! ## Serialization of a result record -/

/-- Decimal digit string of a natural number, most significant digit first. -/
def natStrAux : Nat → Nat → Str
  | 0, _ => []
  | fuel + 1, n =>
    if n < 10 then [digChar n]
    else natStrAux fuel (n / 10) ++ [digChar (n % 10)]

/-- Decimal digit string of a natural number. -/
def natStr (n : Nat) : Str := natStrAux (n + 1) n

/-- Decimal string of an integer. -/
def intStr (m : Int) : Str :=
  if m < 0 then '-' :: natStr m.natAbs else natStr m.natAbs

/-- Print the canonical scaled decimal `m / 10^k` with Python number
formatting: an `int` as its digits, a `float` with a decimal point (`.0`
appended to an integral float). -/
def dumpNum (m : Int) (k : Nat) (isF : Bool) : Str :=
  if k = 0 then intStr m ++ (if isF then toL ".0" else [])
  else
    let ds := natStr m.natAbs
    let sign : Str := if m < 0 then ['-'] else []
    if ds.length ≤ k then
      sign ++ ('0' :: '.' :: List.replicate (k - ds.length) '0' ++ ds)
    else
      sign ++ (ds.take (ds.length - k) ++ '.' :: ds.drop (ds.length - k))

/-- Lowercase hexadecimal digit for `n < 16`. -/
def digChar16 (n : Nat) : Char :=
  if n < 10 then Char.ofNat (48 + n) else Char.ofNat (87 + n)

/-- String-content escaping of the serializer: the quote, the backslash and
the common control characters get their short escapes, other control
characters a `\u00XX` escape, and every other character is emitted raw. -/
def escString : Str → Str
  | [] => []
  | c :: cs =>
    if c = '"' then '\\' :: '"' :: escString cs
    else if c = '\\' then '\\' :: '\\' :: escString cs
    else if c = '\n' then '\\' :: 'n' :: escString cs
    else if c = '\t' then '\\' :: 't' :: escString cs
    else if c = '\r' then '\\' :: 'r' :: escString cs
    else if c.toNat < 0x20 then
      '\\' :: 'u' :: '0' :: '0' :: digChar16 (c.toNat / 16) :: digChar16 (c.toNat % 16) :: escString cs
    else c :: escString cs

mutual
/-- Modelled from the spec: the re-serialization of a parsed result record
back to structured text (the repository defines no serializer of its own);
standard JSON printing with `", "` and `": "` separators, matching what
`json.dumps` produces for the values this service handles. -/
def dumps : Json → Str
  | .null => toL "null"
  | .bool true => toL "true"
  | .bool false => toL "false"
  | .num m k f => dumpNum m k f
  | .str s => '"' :: (escString s ++ ['"'])
  | .arr .nil => toL "[]"
  | .arr (.cons x xs) => '[' :: (dumps x ++ dumpsArrTail xs ++ [']'])
  | .obj .nil => Char.ofNat 0x7b :: [Char.ofNat 0x7d]
  | .obj (.cons k v fs) =>
    Char.ofNat 0x7b :: (('"' :: (escString k ++ '"' :: ':' :: ' ' :: dumps v)) ++
      dumpsObjTail fs ++ [Char.ofNat 0x7d])

/-- Remaining array elements, each preceded by `", "`. -/
def dumpsArrTail : JsonList → Str
  | .nil => []
  | .cons x xs => ',' :: ' ' :: (dumps x ++ dumpsArrTail xs)

/-- Remaining object members, each preceded by `", "`. -/
def dumpsObjTail : JsonFields → Str
  | .nil => []
  | .cons k v fs =>
    ',' :: ' ' :: (('"' :: (escString k ++ '"' :: ':' :: ' ' :: dumps v)) ++ dumpsObjTail fs)
end

/-- One `"key": value` member. -/
def dumpPair (k : Str) (v : Json) : Str :=
  '"' :: (escString k ++ '"' :: ':' :: ' ' :: dumps v)

/-- The input directly after a serialized number does not extend the number
literal: it is empty or starts with a character that is neither a digit nor a
decimal point nor an exponent marker. -/
def numStop : Str → Bool
  | [] => true
  | c :: _ => !(isDigit c) && !(c = '.') && !(c = 'e') && !(c = 'E')

/-! ## Image preprocessing (`analyze_vehicle_images`, lines 93–113) -/

/-- The observable state of an input `PIL.Image` relevant to the service:
its pixel dimensions and color mode. -/
structure PILImage where
  width : Nat
  height : Nat
  mode : Str
deriving DecidableEq

/-- An image part as sent to the model: dimensions, mode and the encoding
chosen by `img.save(..., format='JPEG')`. -/
structure SentImage where
  width : Nat
  height : Nat
  mode : Str
  format : Str
deriving DecidableEq

/-- Pillow's `round_aspect` helper inside `Image.thumbnail`:
`max(min(floor(x), ceil(x), key=key), 1)`, where Python `min` keeps the
first argument (the floor) on a tie. -/
def roundAspect (x : ℚ) (key : ℤ → ℚ) : ℤ :=
  max (if key ⌊x⌋ ≤ key ⌈x⌉ then ⌊x⌋ else ⌈x⌉) 1

/-- Pillow's `Image.thumbnail((1024, 1024))` size computation, with exact
rational arithmetic in place of the floating-point quotients (the choice
between floor and ceiling agrees except when rounding errors of order
`2^-50` could flip a near-tie, which no integer pixel sizes produce):
if the box already contains the image nothing changes, otherwise the longer
side is set to 1024 and the other side to the proportional value rounded by
`round_aspect`. -/
def thumbnailSize (w h : Nat) : Nat × Nat :=
  if w ≤ 1024 ∧ h ≤ 1024 then (w, h)
  else
    let aspect : ℚ := (w : ℚ) / (h : ℚ)
    if aspect ≤ 1 then
      let newW := roundAspect (1024 * aspect) (fun n => |aspect - (n : ℚ) / 1024|)
      (newW.toNat, 1024)
    else
      let newH := roundAspect (1024 / aspect)
        (fun n => if n = 0 then 0 else |aspect - 1024 / (n : ℚ)|)
      (1024, newH.toNat)

/-- The per-image preprocessing of `analyze_vehicle_images`: convert to RGB
when not already RGB, downscale with `thumbnail` only when the larger
dimension exceeds 1024, and re-encode as JPEG unconditionally. -/
def preprocessImage (img : PILImage) : SentImage :=
  let mode := if img.mode = toL "RGB" then img.mode else toL "RGB"
  let size :=
    if 1024 < max img.width img.height then thumbnailSize img.width img.height
    else (img.width, img.height)
  ⟨size.1, size.2, mode, toL "JPEG"⟩

/-- Whether a value is a Python `float`. -/
def isFloatNum : Json → Bool
  | .num _ _ f => f
  | _ => false

/-- Whether `extract_trip_info` obtains its result from a successful parse
(strict or fallback), as opposed to the hardcoded default record. -/
def fallbackOk (rt : Str) : Bool :=
  match braceSub rt with
  | some sub =>
    match jsonLoads sub with
    | some v => (normTrip v).isSome
    | none => false
  | none => false

/-- Successful-parse predicate for the whole of `extract_trip_info`. -/
def tripParsedOk (raw : Str) : Bool :=
  match jsonLoads (cleanFences (pyStrip raw)) with
  | some v =>
    match normTrip v with
    | some _ => true
    | none => fallbackOk (pyStrip raw)
  | none => fallbackOk (pyStrip raw)

/-- The code-fence wrapping considered by the spec: the marker and language
tag before the text, the closing marker after it. -/
def fenceWrap (t : Str) : Str := toL "```json" ++ '\n' :: (t ++ '\n' :: toL "```")

/-- The behavior of the image preprocessing step, as established by C6
(amended): the output is RGB and JPEG-encoded; dimensions within the
1024-box are unchanged; an oversized image gets longer side exactly 1024 and
the shorter side equal to the exact proportional value rounded to a
neighboring integer (floor or ceiling, clamped to at least 1). -/
def preprocessSpec (w h : Nat) (mode : Str) : Prop :=
  (preprocessImage ⟨w, h, mode⟩).mode = toL "RGB" ∧
  (preprocessImage ⟨w, h, mode⟩).format = toL "JPEG" ∧
  (max w h ≤ 1024 →
    (preprocessImage ⟨w, h, mode⟩).width = w ∧ (preprocessImage ⟨w, h, mode⟩).height = h) ∧
  (1024 < max w h →
    (w ≤ h →
      (preprocessImage ⟨w, h, mode⟩).height = 1024 ∧
      ((preprocessImage ⟨w, h, mode⟩).width = (max ⌊(1024 * w : ℚ) / h⌋ 1).toNat ∨
        (preprocessImage ⟨w, h, mode⟩).width = (max ⌈(1024 * w : ℚ) / h⌉ 1).toNat)) ∧
    (h < w →
      (preprocessImage ⟨w, h, mode⟩).width = 1024 ∧
      ((preprocessImage ⟨w, h, mode⟩).height = (max ⌊(1024 * h : ℚ) / w⌋ 1).toNat ∨
        (preprocessImage ⟨w, h, mode⟩).height = (max ⌈(1024 * h : ℚ) / w⌉ 1).toNat)))

/-! ## Basic lemmas: lookups and trip-info normalization -/

theorem lookupF_setF_self (key : Str) (v : Json) :
    ∀ fs : JsonFields, lookupF key (setF key v fs) = (lookupF key fs).map (fun _ => v)
  | .nil => rfl
  | .cons k w fs => by
    by_cases h : k = key
    · simp [setF, lookupF, h]
    · simp [setF, lookupF, h, lookupF_setF_self key v fs]

theorem lookupF_setF_ne (key key' : Str) (v : Json) (h : key ≠ key') :
    ∀ fs : JsonFields, lookupF key' (setF key v fs) = lookupF key' fs
  | .nil => rfl
  | .cons k w fs => by
    by_cases hk : k = key
    · simp [setF, lookupF, hk, fun hh : key = key' => h hh, lookupF_setF_ne key key' v h fs]
    · simp [setF, lookupF, hk, lookupF_setF_ne key key' v h fs]

theorem lookupF_normNumField_self (name : Str) (fs : JsonFields) :
    lookupF name (normNumField name fs) = (lookupF name fs).map tripCoerce := by
  unfold normNumField
  cases h : lookupF name fs with
  | none => simp [h]
  | some v => simp [lookupF_setF_self, h]

theorem lookupF_normNumField_ne (name name' : Str) (fs : JsonFields)
    (h : name ≠ name') :
    lookupF name' (normNumField name fs) = lookupF name' fs := by
  unfold normNumField
  cases hl : lookupF name fs with
  | none => rfl
  | some v => exact lookupF_setF_ne name name' _ h fs

theorem lookupF_normTripObj_mem (name : Str) (fs : JsonFields)
    (h : name ∈ numFieldNames) :
    lookupF name (normTripObj fs) = (lookupF name fs).map tripCoerce := by
  simp only [numFieldNames, List.mem_cons, List.not_mem_nil, or_false] at h
  unfold normTripObj
  rcases h with h | h | h | h <;> subst h
  · rw [lookupF_normNumField_ne _ _ _ (by decide), lookupF_normNumField_ne _ _ _ (by decide),
      lookupF_normNumField_ne _ _ _ (by decide), lookupF_normNumField_self]
  · rw [lookupF_normNumField_ne _ _ _ (by decide), lookupF_normNumField_ne _ _ _ (by decide),
      lookupF_normNumField_self, lookupF_normNumField_ne _ _ _ (by decide)]
  · rw [lookupF_normNumField_ne _ _ _ (by decide), lookupF_normNumField_self,
      lookupF_normNumField_ne _ _ _ (by decide), lookupF_normNumField_ne _ _ _ (by decide)]
  · rw [lookupF_normNumField_self, lookupF_normNumField_ne _ _ _ (by decide),
      lookupF_normNumField_ne _ _ _ (by decide), lookupF_normNumField_ne _ _ _ (by decide)]

theorem lookupF_normTripObj_not_mem (name : Str) (fs : JsonFields)
    (h : name ∉ numFieldNames) :
    lookupF name (normTripObj fs) = lookupF name fs := by
  simp only [numFieldNames, List.mem_cons, List.not_mem_nil, or_false, not_or] at h
  obtain ⟨h1, h2, h3, h4⟩ := h
  unfold normTripObj
  rw [lookupF_normNumField_ne _ _ _ (fun hh => h4 hh.symm),
    lookupF_normNumField_ne _ _ _ (fun hh => h3 hh.symm),
    lookupF_normNumField_ne _ _ _ (fun hh => h2 hh.symm),
    lookupF_normNumField_ne _ _ _ (fun hh => h1 hh.symm)]

theorem tripCoerce_isFloat (v : Json) : isFloatNum (tripCoerce v) = true := by
  cases v <;> simp [tripCoerce, isFloatNum]
  case str s => cases pyFloatOfStr s <;> simp [isFloatNum]

theorem extractTripInfoText_strict (raw : Str) (v r : Json)
    (h1 : jsonLoads (cleanFences (pyStrip raw)) = some v)
    (h2 : normTrip v = some r) : extractTripInfoText raw = r := by
  unfold extractTripInfoText
  simp only [h1, h2]

theorem extractTripInfoText_fallback (raw : Str)
    (h1 : jsonLoads (cleanFences (pyStrip raw)) = none) :
    extractTripInfoText raw = tripFallback (pyStrip raw) := by
  unfold extractTripInfoText
  simp only [h1]

/-! ## String-rewriting lemmas: `pyReplace`, stripping, trimming, brace search -/

theorem pyRepAux_congr (pat rep : Str) (hpat : pat ≠ []) :
    ∀ n f g s, s.length ≤ n → s.length ≤ f → s.length ≤ g →
      pyRepAux pat rep f s = pyRepAux pat rep g s := by
  intro n
  induction n with
  | zero =>
    intro f g s hn _ _
    have : s = [] := List.eq_nil_of_length_eq_zero (Nat.le_zero.mp hn)
    subst this
    cases f <;> cases g <;> rfl
  | succ n ih =>
    intro f g s hn hf hg
    cases s with
    | nil => cases f <;> cases g <;> rfl
    | cons c cs =>
      have hpl : 1 ≤ pat.length := by
        cases pat with
        | nil => exact absurd rfl hpat
        | cons p ps => simp
      cases f with
      | zero => simp at hf
      | succ f' =>
        cases g with
        | zero => simp at hg
        | succ g' =>
          simp only [pyRepAux]
          by_cases hp : pat.isPrefixOf (c :: cs)
          · rw [if_pos hp, if_pos hp]
            have hlen : ((c :: cs).drop pat.length).length ≤ n := by
              rw [List.length_drop]
              simp only [List.length_cons] at hn ⊢
              omega
            rw [ih f' g' _ hlen (by rw [List.length_drop]; simp only [List.length_cons] at hf ⊢; omega)
              (by rw [List.length_drop]; simp only [List.length_cons] at hg ⊢; omega)]
          · rw [if_neg hp, if_neg hp]
            have hlen : cs.length ≤ n := by
              simp only [List.length_cons] at hn
              omega
            rw [ih f' g' cs hlen (by simp only [List.length_cons] at hf; omega)
              (by simp only [List.length_cons] at hg; omega)]

theorem pyReplace_nil (pat rep : Str) : pyReplace pat rep [] = [] := rfl

theorem pyRepAux_eq_pyReplace (pat rep : Str) (hpat : pat ≠ []) (f : Nat) (s : Str)
    (hf : s.length ≤ f) : pyRepAux pat rep f s = pyReplace pat rep s :=
  pyRepAux_congr pat rep hpat s.length f s.length s le_rfl hf le_rfl

theorem pyReplace_pos (pat rep : Str) (c : Char) (cs : Str) (hpat : pat ≠ [])
    (h : pat.isPrefixOf (c :: cs) = true) :
    pyReplace pat rep (c :: cs) = rep ++ pyReplace pat rep ((c :: cs).drop pat.length) := by
  have hpl : 1 ≤ pat.length := by
    cases pat with
    | nil => exact absurd rfl hpat
    | cons p ps => simp
  show pyRepAux pat rep (cs.length + 1) (c :: cs) = _
  simp only [pyRepAux, if_pos h]
  rw [pyRepAux_eq_pyReplace pat rep hpat]
  rw [List.length_drop]
  simp only [List.length_cons]
  omega

theorem pyReplace_neg (pat rep : Str) (c : Char) (cs : Str) (hpat : pat ≠ [])
    (h : pat.isPrefixOf (c :: cs) = false) :
    pyReplace pat rep (c :: cs) = c :: pyReplace pat rep cs := by
  show pyRepAux pat rep (cs.length + 1) (c :: cs) = _
  simp only [pyRepAux, h, Bool.false_eq_true, if_false]
  rw [pyRepAux_eq_pyReplace pat rep hpat cs.length cs le_rfl]

theorem pyReplace_no_occur (pat rep : Str) (hpat : pat ≠ []) :
    ∀ s, hasSubstr pat s = false → pyReplace pat rep s = s
  | [], _ => rfl
  | c :: cs, h => by
    unfold hasSubstr at h
    rw [Bool.or_eq_false_iff] at h
    rw [pyReplace_neg pat rep c cs hpat h.1, pyReplace_no_occur pat rep hpat cs h.2]

theorem pyReplace_ws_prefix (pat rep : Str) (p0 : Char) (pat' : Str) (hpat : pat = p0 :: pat')
    (hp0 : isJsonWs p0 = false) :
    ∀ w s, (∀ c ∈ w, isJsonWs c = true) → pyReplace pat rep (w ++ s) = w ++ pyReplace pat rep s
  | [], s, _ => by simp
  | c :: w', s, hw => by
    have hc : isJsonWs c = true := hw c (List.mem_cons_self c w')
    have hne : pat.isPrefixOf (c :: (w' ++ s)) = false := by
      subst hpat
      simp only [List.isPrefixOf, Bool.and_eq_false_iff]
      left
      rw [beq_eq_false_iff_ne]
      intro he
      rw [he, hc] at hp0
      cases hp0
    have hcons : (c :: w') ++ s = c :: (w' ++ s) := rfl
    rw [hcons, pyReplace_neg pat rep c (w' ++ s) (by rw [hpat]; simp) hne,
      pyReplace_ws_prefix pat rep p0 pat' hpat hp0 w' s
        (fun d hd => hw d (List.mem_cons_of_mem c hd))]
    simp

theorem pyReplace_append (pat rep : Str) (p0 : Char) (pat' : Str) (hpat : pat = p0 :: pat')
    (b : Char) (q' : Str) (hb : b ∉ pat) :
    ∀ n s, s.length ≤ n →
      pyReplace pat rep (s ++ b :: q') = pyReplace pat rep s ++ pyReplace pat rep (b :: q') := by
  have hpat_ne : pat ≠ [] := by rw [hpat]; simp
  have hpl : 1 ≤ pat.length := by rw [hpat]; simp
  intro n
  induction n with
  | zero =>
    intro s h
    have : s = [] := List.eq_nil_of_length_eq_zero (Nat.le_zero.mp h)
    subst this
    simp [pyReplace_nil]
  | succ n ih =>
    intro s hs
    cases s with
    | nil => simp [pyReplace_nil]
    | cons c cs =>
      by_cases hp : pat.isPrefixOf (c :: cs) = true
      · have hext : pat.isPrefixOf ((c :: cs) ++ b :: q') = true := by
          rw [List.isPrefixOf_iff_prefix] at hp ⊢
          exact hp.trans (List.prefix_append _ _)
        have hlen : pat.length ≤ (c :: cs).length :=
          (List.isPrefixOf_iff_prefix.mp hp).length_le
        have hcons : (c :: cs) ++ b :: q' = c :: (cs ++ b :: q') := rfl
        rw [hcons, pyReplace_pos pat rep c _ hpat_ne (by rw [← hcons]; exact hext),
          pyReplace_pos pat rep c cs hpat_ne hp]
        have hdrop : (c :: (cs ++ b :: q')).drop pat.length =
            ((c :: cs).drop pat.length) ++ b :: q' := by
          rw [← hcons, List.drop_append_of_le_length hlen]
        rw [hdrop, ih _ (by
          rw [List.length_drop]
          simp only [List.length_cons] at hs ⊢
          omega)]
        rw [List.append_assoc]
      · have hext : pat.isPrefixOf ((c :: cs) ++ b :: q') = false := by
          rw [Bool.eq_false_iff]
          intro htrue
          rw [List.isPrefixOf_iff_prefix] at htrue
          by_cases hl : pat.length ≤ (c :: cs).length
          · exact hp (List.isPrefixOf_iff_prefix.mpr
              (List.prefix_of_prefix_length_le htrue (List.prefix_append _ _) hl))
          · obtain ⟨t, ht⟩ := htrue
            have h1 : pat = ((c :: cs) ++ b :: q').take pat.length := by
              rw [← ht, List.take_left']
              rfl
            have h2 : pat.length = (c :: cs).length + (pat.length - (c :: cs).length) := by
              omega
            obtain ⟨k, hk⟩ : ∃ k, pat.length - (c :: cs).length = k + 1 :=
              ⟨pat.length - (c :: cs).length - 1, by omega⟩
            have hbmem : b ∈ pat := by
              rw [h1, h2, List.take_append, hk]
              simp
            exact hb hbmem
        have hcons : (c :: cs) ++ b :: q' = c :: (cs ++ b :: q') := rfl
        rw [hcons, pyReplace_neg pat rep c _ hpat_ne (by rw [← hcons]; exact hext),
          pyReplace_neg pat rep c cs hpat_ne (Bool.eq_false_iff.mpr hp)]
        rw [ih cs (by simp only [List.length_cons] at hs; omega)]
        simp

theorem isJsonWs_isPyWs (c : Char) (h : isJsonWs c = true) : isPyWs c = true := by
  simp only [isJsonWs, Bool.or_eq_true, decide_eq_true_eq] at h
  rcases h with ((rfl | rfl) | rfl) | rfl <;> decide

theorem jsonWs_cases (c : Char) (h : isJsonWs c = true) :
    c = ' ' ∨ c = '\t' ∨ c = '\n' ∨ c = '\r' := by
  simp only [isJsonWs, Bool.or_eq_true, decide_eq_true_eq] at h
  tauto

theorem ws_not_mem_fence_json (b : Char) (hb : isJsonWs b = true) : b ∉ toL "```json" := by
  intro hm
  rcases jsonWs_cases b hb with rfl | rfl | rfl | rfl <;> revert hm <;> decide

theorem ws_not_mem_fence (b : Char) (hb : isJsonWs b = true) : b ∉ toL "```" := by
  intro hm
  rcases jsonWs_cases b hb with rfl | rfl | rfl | rfl <;> revert hm <;> decide

theorem hasSubstr_ws_false (p0 : Char) (pat' : Str) (hp0 : isJsonWs p0 = false) :
    ∀ w, (∀ c ∈ w, isJsonWs c = true) → hasSubstr (p0 :: pat') w = false
  | [], _ => by simp [hasSubstr]
  | c :: w', hw => by
    have hc : isJsonWs c = true := hw c (List.mem_cons_self c w')
    unfold hasSubstr
    rw [Bool.or_eq_false_iff]
    refine ⟨?_, hasSubstr_ws_false p0 pat' hp0 w' (fun d hd => hw d (List.mem_cons_of_mem c hd))⟩
    simp only [List.isPrefixOf, Bool.and_eq_false_iff]
    left
    rw [beq_eq_false_iff_ne]
    intro he
    rw [he, hc] at hp0
    cases hp0

theorem isPrefixOf_self_append (pat x : Str) : pat.isPrefixOf (pat ++ x) = true :=
  List.isPrefixOf_iff_prefix.mpr (List.prefix_append pat x)

theorem pyReplace_prefix_self (pat rep x : Str) (hpat : pat ≠ []) :
    pyReplace pat rep (pat ++ x) = rep ++ pyReplace pat rep x := by
  obtain ⟨p0, ps, hp⟩ : ∃ p0 ps, pat = p0 :: ps := by
    cases pat with
    | nil => exact absurd rfl hpat
    | cons a as => exact ⟨a, as, rfl⟩
  have hcons : pat ++ x = p0 :: (ps ++ x) := by rw [hp]; rfl
  rw [hcons, pyReplace_pos pat rep p0 (ps ++ x) hpat
    (by rw [← hcons]; exact isPrefixOf_self_append pat x)]
  congr 1
  rw [← hcons, List.drop_left]

theorem cleanFences_fenceWrap (t : Str) :
    cleanFences (fenceWrap t) = '\n' :: (cleanFences t ++ ['\n']) := by
  have hpat1 : toL "```json" = '`' :: toL "``json" := by decide
  have hpat2 : toL "```" = '`' :: toL "``" := by decide
  have step1 : pyReplace (toL "```json") [] (fenceWrap t) =
      '\n' :: (pyReplace (toL "```json") [] t ++ ('\n' :: toL "```")) := by
    unfold fenceWrap
    rw [pyReplace_prefix_self (toL "```json") [] _ (by decide)]
    have hw : ('\n' :: (t ++ '\n' :: toL "```")) = ['\n'] ++ (t ++ '\n' :: toL "```") := rfl
    rw [hw, pyReplace_ws_prefix (toL "```json") [] '`' (toL "``json") hpat1 (by decide)
      ['\n'] _ (by intro c hc; simp at hc; rw [hc]; rfl)]
    rw [pyReplace_append (toL "```json") [] '`' (toL "``json") hpat1 '\n' (toL "```")
      (by decide) t.length t le_rfl]
    rw [show pyReplace (toL "```json") [] ('\n' :: toL "```") = '\n' :: toL "```" from by decide]
    rfl
  unfold cleanFences
  rw [step1]
  have hw2 : ('\n' :: (pyReplace (toL "```json") [] t ++ ('\n' :: toL "```"))) =
      ['\n'] ++ (pyReplace (toL "```json") [] t ++ ('\n' :: toL "```")) := rfl
  rw [hw2, pyReplace_ws_prefix (toL "```") [] '`' (toL "``") hpat2 (by decide)
    ['\n'] _ (by intro c hc; simp at hc; rw [hc]; rfl)]
  rw [pyReplace_append (toL "```") [] '`' (toL "``") hpat2 '\n' (toL "```")
    (by decide) _ _ le_rfl]
  rw [show pyReplace (toL "```") [] ('\n' :: toL "```") = ['\n'] from by decide]
  rfl

theorem dropWhile_ws_prefix (p : Char → Bool) :
    ∀ w s, (∀ c ∈ w, p c = true) → List.dropWhile p (w ++ s) = List.dropWhile p s
  | [], s, _ => rfl
  | c :: w', s, hw => by
    have hc : p c = true := hw c (List.mem_cons_self c w')
    have : (c :: w') ++ s = c :: (w' ++ s) := rfl
    rw [this, List.dropWhile_cons, if_pos hc,
      dropWhile_ws_prefix p w' s (fun d hd => hw d (List.mem_cons_of_mem c hd))]

theorem dropWhile_all_ws (p : Char → Bool) (w : Str) (hw : ∀ c ∈ w, p c = true) :
    List.dropWhile p w = [] := by
  have := dropWhile_ws_prefix p w [] hw
  simpa using this

theorem dropEnd_ws_suffix (p : Char → Bool) (s w : Str) (hw : ∀ c ∈ w, p c = true) :
    dropEnd p (s ++ w) = dropEnd p s := by
  unfold dropEnd
  rw [List.reverse_append, dropWhile_ws_prefix p w.reverse s.reverse
    (fun c hc => hw c (List.mem_reverse.mp hc))]

theorem strip_parts (p : Char → Bool) (core : Str)
    (hcore : dropEnd p (core.dropWhile p) = core) :
    core.dropWhile p = core ∧ dropEnd p core = core := by
  have hs : core.dropWhile p <:+ core := List.dropWhile_suffix p
  have hlen1 : (core.dropWhile p).length ≤ core.length := hs.length_le
  have hlen2 : (dropEnd p (core.dropWhile p)).length ≤ (core.dropWhile p).length := by
    unfold dropEnd
    rw [List.length_reverse]
    calc ((core.dropWhile p).reverse.dropWhile p).length
        ≤ (core.dropWhile p).reverse.length := (List.dropWhile_suffix p).length_le
      _ = (core.dropWhile p).length := List.length_reverse _
  have hlc : core.length ≤ (dropEnd p (core.dropWhile p)).length := by rw [hcore]
  have heq : core.dropWhile p = core := hs.eq_of_length (by omega)
  exact ⟨heq, by rw [heq] at hcore; exact hcore⟩

theorem pyStrip_ws_affix (w1 core w2 : Str)
    (h1 : ∀ c ∈ w1, isJsonWs c = true) (h2 : ∀ c ∈ w2, isJsonWs c = true)
    (hcore : pyStrip core = core) :
    pyStrip (w1 ++ core ++ w2) = core := by
  have h1' : ∀ c ∈ w1, isPyWs c = true := fun c hc => isJsonWs_isPyWs c (h1 c hc)
  have h2' : ∀ c ∈ w2, isPyWs c = true := fun c hc => isJsonWs_isPyWs c (h2 c hc)
  obtain ⟨hdw, hde⟩ := strip_parts isPyWs core hcore
  unfold pyStrip
  rw [List.append_assoc, dropWhile_ws_prefix isPyWs w1 (core ++ w2) h1']
  cases core with
  | nil =>
    rw [List.nil_append, dropWhile_all_ws isPyWs w2 h2']
    rfl
  | cons c core' =>
    have hc : isPyWs c = false := by
      cases hcc : isPyWs c with
      | false => rfl
      | true =>
        exfalso
        rw [List.dropWhile_cons, if_pos hcc] at hdw
        have hlen : (core'.dropWhile isPyWs).length ≤ core'.length :=
          (List.dropWhile_suffix isPyWs).length_le
        rw [hdw] at hlen
        simp only [List.length_cons] at hlen
        omega
    have hcons : (c :: core') ++ w2 = c :: (core' ++ w2) := rfl
    rw [hcons, List.dropWhile_cons, if_neg (by rw [hc]; exact Bool.false_ne_true), ← hcons,
      dropEnd_ws_suffix isPyWs (c :: core') w2 h2']
    exact hde

theorem jsonTrim_pad (w1 s w2 : Str)
    (h1 : ∀ c ∈ w1, isJsonWs c = true) (h2 : ∀ c ∈ w2, isJsonWs c = true) :
    jsonTrim (w1 ++ s ++ w2) = jsonTrim s := by
  unfold jsonTrim
  rw [List.append_assoc, dropWhile_ws_prefix isJsonWs w1 (s ++ w2) h1]
  rw [List.dropWhile_append]
  cases he : (s.dropWhile isJsonWs).isEmpty with
  | true =>
    simp only [if_true]
    rw [List.isEmpty_iff] at he
    rw [dropWhile_all_ws isJsonWs w2 h2, he]
  | false =>
    simp only [Bool.false_eq_true, if_false]
    rw [dropEnd_ws_suffix isJsonWs _ w2 h2]

theorem jsonLoads_congr (x y : Str) (h : jsonTrim x = jsonTrim y) :
    jsonLoads x = jsonLoads y := by
  unfold jsonLoads
  rw [h]

theorem pyReplace_ws_suffix (pat rep : Str) (p0 : Char) (pat' : Str) (hpat : pat = p0 :: pat')
    (hp0 : isJsonWs p0 = false) (hbm : ∀ c, isJsonWs c = true → c ∉ pat) (s w : Str)
    (hw : ∀ c ∈ w, isJsonWs c = true) :
    pyReplace pat rep (s ++ w) = pyReplace pat rep s ++ w := by
  cases w with
  | nil => simp
  | cons b w' =>
    rw [pyReplace_append pat rep p0 pat' hpat b w'
      (hbm b (hw b (List.mem_cons_self b w'))) s.length s le_rfl]
    have hno : hasSubstr pat (b :: w') = false := by
      rw [hpat]
      exact hasSubstr_ws_false p0 pat' hp0 (b :: w') hw
    rw [pyReplace_no_occur pat rep (by rw [hpat]; simp) (b :: w') hno]

theorem cleanFences_ws_affix (w1 core w2 : Str)
    (h1 : ∀ c ∈ w1, isJsonWs c = true) (h2 : ∀ c ∈ w2, isJsonWs c = true) :
    cleanFences (w1 ++ core ++ w2) = w1 ++ cleanFences core ++ w2 := by
  have hpat1 : toL "```json" = '`' :: toL "``json" := by decide
  have hpat2 : toL "```" = '`' :: toL "``" := by decide
  unfold cleanFences
  rw [List.append_assoc,
    pyReplace_ws_prefix (toL "```json") [] '`' (toL "``json") hpat1 (by decide) w1 _ h1,
    pyReplace_ws_suffix (toL "```json") [] '`' (toL "``json") hpat1 (by decide)
      (fun c hc => ws_not_mem_fence_json c hc) core w2 h2,
    pyReplace_ws_prefix (toL "```") [] '`' (toL "``") hpat2 (by decide) w1 _ h1,
    pyReplace_ws_suffix (toL "```") [] '`' (toL "``") hpat2 (by decide)
      (fun c hc => ws_not_mem_fence c hc) _ w2 h2,
    ← List.append_assoc]

theorem pyStrip_fenceWrap (t : Str) : pyStrip (fenceWrap t) = fenceWrap t := by
  have hshape : fenceWrap t = '`' :: (toL "``json" ++ ('\n' :: (t ++ '\n' :: toL "```"))) := by
    unfold fenceWrap
    rfl
  have hrev : (fenceWrap t).reverse =
      '`' :: ('`' :: ('`' :: ('\n' :: (t.reverse ++ (toL "```json" ++ ['\n']).reverse)))) := by
    unfold fenceWrap
    have h1 : toL "```json" ++ '\n' :: (t ++ '\n' :: toL "```") =
        (toL "```json" ++ ['\n']) ++ (t ++ (['\n'] ++ toL "```")) := by simp
    rw [h1, List.reverse_append, List.reverse_append, List.reverse_append]
    simp only [List.reverse_cons, List.reverse_nil, List.nil_append, List.append_assoc]
    rw [show (toL "```").reverse = '`' :: ('`' :: ['`']) from by decide]
    simp
  unfold pyStrip dropEnd
  rw [hshape, List.dropWhile_cons, if_neg (by decide)]
  rw [← hshape, hrev, List.dropWhile_cons, if_neg (by decide)]
  rw [← hrev, List.reverse_reverse]

theorem strict_parse_eq (w1 core w2 : Str)
    (h1 : ∀ c ∈ w1, isJsonWs c = true) (h2 : ∀ c ∈ w2, isJsonWs c = true)
    (hcore : pyStrip core = core) :
    jsonLoads (cleanFences (pyStrip (fenceWrap (w1 ++ core ++ w2)))) =
      jsonLoads (cleanFences (pyStrip (w1 ++ core ++ w2))) := by
  rw [pyStrip_fenceWrap, pyStrip_ws_affix w1 core w2 h1 h2 hcore]
  rw [cleanFences_fenceWrap]
  apply jsonLoads_congr
  have hpad : ('\n' :: (cleanFences (w1 ++ core ++ w2) ++ ['\n'])) =
      ['\n'] ++ cleanFences (w1 ++ core ++ w2) ++ ['\n'] := by simp
  rw [hpad, jsonTrim_pad ['\n'] _ ['\n'] (by intro c hc; simp at hc; rw [hc]; rfl)
    (by intro c hc; simp at hc; rw [hc]; rfl)]
  rw [cleanFences_ws_affix w1 core w2 h1 h2]
  rw [jsonTrim_pad w1 _ w2 h1 h2]

theorem findIdxA_none_iff (p : Char → Bool) :
    ∀ s, findIdxA p s = none ↔ ∀ c ∈ s, p c = false
  | [] => by simp [findIdxA]
  | c :: cs => by
    unfold findIdxA
    by_cases hc : p c = true
    · simp [hc]
    · have hc' : p c = false := Bool.eq_false_iff.mpr hc
      simp only [hc', Bool.false_eq_true, if_false, Option.map_eq_none']
      rw [findIdxA_none_iff p cs]
      constructor
      · intro h d hd
        rcases List.mem_cons.mp hd with rfl | hd'
        · exact hc'
        · exact h d hd'
      · intro h d hd
        exact h d (List.mem_cons_of_mem c hd)

theorem findIdxA_append_allfalse (p : Char → Bool) :
    ∀ w x, (∀ c ∈ w, p c = false) →
      findIdxA p (w ++ x) = (findIdxA p x).map (· + w.length)
  | [], x, _ => by simp
  | c :: w', x, hw => by
    have hc : p c = false := hw c (List.mem_cons_self c w')
    have : (c :: w') ++ x = c :: (w' ++ x) := rfl
    rw [this]
    have hstep : findIdxA p (c :: (w' ++ x)) = (findIdxA p (w' ++ x)).map (· + 1) := by
      show (if p c = true then some 0 else (findIdxA p (w' ++ x)).map (· + 1)) = _
      rw [hc]
      simp
    rw [hstep, findIdxA_append_allfalse p w' x (fun d hd => hw d (List.mem_cons_of_mem c hd))]
    cases findIdxA p x <;> simp [Nat.add_assoc]

theorem findIdxA_append_left (p : Char → Bool) :
    ∀ x y i, findIdxA p x = some i → findIdxA p (x ++ y) = some i
  | [], _, _, h => by cases h
  | c :: cs, y, i, h => by
    have hcons : (c :: cs) ++ y = c :: (cs ++ y) := rfl
    rw [hcons]
    unfold findIdxA at h ⊢
    by_cases hc : p c = true
    · rw [if_pos hc] at h ⊢
      exact h
    · have hc' : p c = false := Bool.eq_false_iff.mpr hc
      rw [hc'] at h ⊢
      simp only [Bool.false_eq_true, if_false] at h ⊢
      cases hcs : findIdxA p cs with
      | none => rw [hcs] at h; cases h
      | some k =>
        rw [hcs] at h
        rw [findIdxA_append_left p cs y k hcs]
        exact h

theorem findIdxA_lt_length (p : Char → Bool) :
    ∀ s i, findIdxA p s = some i → i < s.length
  | [], i, h => by cases h
  | c :: cs, i, h => by
    unfold findIdxA at h
    by_cases hc : p c = true
    · rw [if_pos hc] at h
      cases h
      simp
    · have hc' : p c = false := Bool.eq_false_iff.mpr hc
      rw [hc'] at h
      simp only [Bool.false_eq_true, if_false] at h
      cases hcs : findIdxA p cs with
      | none => rw [hcs] at h; cases h
      | some k =>
        rw [hcs] at h
        simp only [Option.map_some', Option.some.injEq] at h
        have := findIdxA_lt_length p cs k hcs
        simp only [List.length_cons]
        omega

theorem ws_not_brace (c : Char) (h : isJsonWs c = true) :
    isOpenB c = false ∧ isCloseB c = false := by
  rcases jsonWs_cases c h with rfl | rfl | rfl | rfl <;> exact ⟨by decide, by decide⟩

theorem braceSub_pre (p x : Str) (hp : ∀ c ∈ p, isOpenB c = false ∧ isCloseB c = false) :
    braceSub (p ++ x) = braceSub x := by
  unfold braceSub
  cases ho : findIdxA isOpenB x with
  | none =>
    have h1 : findIdxA isOpenB (p ++ x) = none := by
      rw [findIdxA_append_allfalse isOpenB p x (fun c hc => (hp c hc).1), ho]
      rfl
    rw [h1]
  | some i =>
    have h1 : findIdxA isOpenB (p ++ x) = some (i + p.length) := by
      rw [findIdxA_append_allfalse isOpenB p x (fun c hc => (hp c hc).1), ho]
      rfl
    cases hc : findIdxA isCloseB x.reverse with
    | none =>
      have h2 : findIdxA isCloseB (p ++ x).reverse = none := by
        rw [List.reverse_append]
        rw [findIdxA_none_iff]
        intro c hcm
        rcases List.mem_append.mp hcm with hcx | hcp
        · exact (findIdxA_none_iff isCloseB x.reverse).mp hc c hcx
        · exact (hp c (List.mem_reverse.mp hcp)).2
      rw [h1, h2]
    | some jr =>
      have h2 : findIdxA isCloseB (p ++ x).reverse = some jr := by
        rw [List.reverse_append]
        exact findIdxA_append_left isCloseB x.reverse p.reverse jr hc
      rw [h1, h2]
      have hjr : jr < x.length := by
        have := findIdxA_lt_length isCloseB x.reverse jr hc
        simpa using this
      have hlen : (p ++ x).length = p.length + x.length := by simp
      have hj : (p ++ x).length - 1 - jr = p.length + (x.length - 1 - jr) := by
        rw [hlen]
        omega
      show (if i + p.length < (p ++ x).length - 1 - jr then
          some (List.take ((p ++ x).length - 1 - jr - (i + p.length) + 1)
            (List.drop (i + p.length) (p ++ x)))
        else none) =
        (if i < x.length - 1 - jr then
          some (List.take (x.length - 1 - jr - i + 1) (List.drop i x))
        else none)
      rw [hj]
      by_cases hij : i < x.length - 1 - jr
      · rw [if_pos (by omega :
          i + List.length p < List.length p + (List.length x - 1 - jr)), if_pos hij]
        have hdrop : (p ++ x).drop (i + p.length) = x.drop i := by
          rw [Nat.add_comm, List.drop_append]
        have harg : List.length p + (List.length x - 1 - jr) - (i + List.length p) + 1 =
            List.length x - 1 - jr - i + 1 := by omega
        rw [hdrop, harg]
      · rw [if_neg (by omega :
          ¬ i + List.length p < List.length p + (List.length x - 1 - jr)), if_neg hij]


theorem braceSub_post (x q : Str) (hq : ∀ c ∈ q, isOpenB c = false ∧ isCloseB c = false) :
    braceSub (x ++ q) = braceSub x := by
  unfold braceSub
  cases ho : findIdxA isOpenB x with
  | none =>
    have h1 : findIdxA isOpenB (x ++ q) = none := by
      rw [findIdxA_none_iff]
      intro c hcm
      rcases List.mem_append.mp hcm with hcx | hcq
      · exact (findIdxA_none_iff isOpenB x).mp ho c hcx
      · exact (hq c hcq).1
    rw [h1]
  | some i =>
    have h1 : findIdxA isOpenB (x ++ q) = some i := findIdxA_append_left isOpenB x q i ho
    have hi : i < x.length := findIdxA_lt_length isOpenB x i ho
    cases hc : findIdxA isCloseB x.reverse with
    | none =>
      have h2 : findIdxA isCloseB (x ++ q).reverse = none := by
        rw [List.reverse_append]
        rw [findIdxA_append_allfalse isCloseB q.reverse x.reverse
          (fun c hcm => (hq c (List.mem_reverse.mp hcm)).2), hc]
        rfl
      rw [h1, h2]
    | some jr =>
      have hjr : jr < x.length := by
        have := findIdxA_lt_length isCloseB x.reverse jr hc
        simpa using this
      have h2 : findIdxA isCloseB (x ++ q).reverse = some (jr + q.length) := by
        rw [List.reverse_append]
        rw [findIdxA_append_allfalse isCloseB q.reverse x.reverse
          (fun c hcm => (hq c (List.mem_reverse.mp hcm)).2), hc]
        simp
      rw [h1, h2]
      have hlen : (x ++ q).length = x.length + q.length := by simp
      have hj : (x ++ q).length - 1 - (jr + q.length) = x.length - 1 - jr := by
        rw [hlen]
        omega
      show (if i < (x ++ q).length - 1 - (jr + q.length) then
          some (List.take ((x ++ q).length - 1 - (jr + q.length) - i + 1)
            (List.drop i (x ++ q)))
        else none) =
        (if i < x.length - 1 - jr then
          some (List.take (x.length - 1 - jr - i + 1) (List.drop i x))
        else none)
      rw [hj]
      by_cases hij : i < x.length - 1 - jr
      · rw [if_pos hij, if_pos hij]
        have hdrop : (x ++ q).drop i = x.drop i ++ q :=
          List.drop_append_of_le_length (by omega)
        rw [hdrop, List.take_append_of_le_length (by
          rw [List.length_drop]
          omega)]
      · rw [if_neg hij, if_neg hij]

theorem braceSub_ws_affix (w1 core w2 : Str)
    (h1 : ∀ c ∈ w1, isJsonWs c = true) (h2 : ∀ c ∈ w2, isJsonWs c = true) :
    braceSub (w1 ++ core ++ w2) = braceSub core := by
  rw [List.append_assoc, braceSub_pre w1 (core ++ w2) (fun c hc => ws_not_brace c (h1 c hc)),
    braceSub_post core w2 (fun c hc => ws_not_brace c (h2 c hc))]

theorem braceSub_fenceWrap (t : Str) : braceSub (fenceWrap t) = braceSub t := by
  have hshape : fenceWrap t = (toL "```json" ++ ['\n']) ++ (t ++ ('\n' :: toL "```")) := by
    unfold fenceWrap
    simp
  rw [hshape, braceSub_pre _ _ (by decide), braceSub_post _ _ (by decide)]

theorem tripFallback_congr (rt rt' : Str) (h : braceSub rt = braceSub rt') :
    tripFallback rt = tripFallback rt' := by
  unfold tripFallback
  rw [h]

theorem extractTripInfoText_congr (t t' : Str)
    (hstrict : jsonLoads (cleanFences (pyStrip t)) = jsonLoads (cleanFences (pyStrip t')))
    (hfall : braceSub (pyStrip t) = braceSub (pyStrip t')) :
    extractTripInfoText t = extractTripInfoText t' := by
  unfold extractTripInfoText
  simp only []
  rw [hstrict, tripFallback_congr _ _ hfall]

/-! ## Claim C1 -/

/-- C1: for the trip-info schema, extraction never raises on malformed model
output: whenever the strict parse of the cleaned response text fails and the
brace-block fallback parse also fails (either no brace block exists, or the
block does not parse), `extract_trip_info` returns exactly the fixed default
record `defaultTrip` — `start_location`/`end_location`/`platform` null,
all four expense fields `0.0`, `trip_type = "ride_hailing"`, empty notes. -/
theorem extract_trip_info_default_on_failure (raw : Str)
    (h1 : jsonLoads (cleanFences (pyStrip raw)) = none)
    (h2 : ∀ sub, braceSub (pyStrip raw) = some sub → jsonLoads sub = none) :
    extract_trip_info (.ok raw) = .ok defaultTrip := by
  have hok : extract_trip_info (.ok raw) = .ok (extractTripInfoText raw) := rfl
  rw [hok, extractTripInfoText_fallback raw h1]
  unfold tripFallback
  cases hb : braceSub (pyStrip raw) with
  | none => rfl
  | some sub => simp [h2 sub hb]

/-- Witness for C1 at the concrete unparseable text `"hello"`. -/
theorem extract_trip_info_default_on_failure_witness :
    jsonLoads (cleanFences (pyStrip (toL "hello"))) = none ∧
    braceSub (pyStrip (toL "hello")) = none ∧
    extract_trip_info (.ok (toL "hello")) = .ok defaultTrip := by
  have hb : braceSub (pyStrip (toL "hello")) = none := by decide
  refine ⟨by decide, hb, extract_trip_info_default_on_failure (toL "hello") (by decide) ?_⟩
  intro sub hsub
  rw [hb] at hsub
  cases hsub

/-! ## Claim C5 -/

/-- C5: for every use case other than trip-info (vehicle image analysis,
earnings pattern, fatigue detection, financial plan), a response text whose
parse fails makes the operation propagate a failure whose message carries the
use case's name; no default record is returned. -/
theorem non_trip_parse_failure_raises (raw : Str) (h : simpleParse raw = none) :
    (∃ m, analyze_vehicle_images (.ok raw) =
      .error (toL "Vehicle image analysis failed: " ++ m)) ∧
    (∃ m, analyze_earnings_pattern (.ok raw) =
      .error (toL "Earnings pattern analysis failed: " ++ m)) ∧
    (∃ m, detect_fatigue (.ok raw) =
      .error (toL "Fatigue detection failed: " ++ m)) ∧
    (∃ m, generate_financial_plan (.ok raw) =
      .error (toL "Financial plan generation failed: " ++ m)) := by
  refine ⟨⟨jsonDecodeErrMsg, ?_⟩, ⟨jsonDecodeErrMsg, ?_⟩,
    ⟨jsonDecodeErrMsg, ?_⟩, ⟨jsonDecodeErrMsg, ?_⟩⟩ <;>
    simp [analyze_vehicle_images, analyze_earnings_pattern, detect_fatigue,
      generate_financial_plan, simpleAnalyze, h]

/-- Witness for C5 at the concrete unparseable text `"oops"`. -/
theorem non_trip_parse_failure_raises_witness :
    simpleParse (toL "oops") = none ∧
    (∃ m, detect_fatigue (.ok (toL "oops")) =
      .error (toL "Fatigue detection failed: " ++ m)) := by
  refine ⟨by decide, (non_trip_parse_failure_raises (toL "oops") (by decide)).2.2.1⟩

/-! ## Claim C8 -/

/-- C8: for every use case, a failure of the upstream call itself always
propagates to the caller as the single generic failure kind, whose message
attaches the use-case name to the underlying cause; no retry happens and no
partial result is returned (each operation is a function of the one upstream
outcome, and an upstream error yields exactly one error result). -/
theorem upstream_failure_propagates (e : Str) :
    transcribe_audio (.error e) = .error (toL "Audio transcription failed: " ++ e) ∧
    analyze_vehicle_images (.error e) = .error (toL "Vehicle image analysis failed: " ++ e) ∧
    extract_trip_info (.error e) = .error (toL "Trip info extraction failed: " ++ e) ∧
    analyze_earnings_pattern (.error e) = .error (toL "Earnings pattern analysis failed: " ++ e) ∧
    detect_fatigue (.error e) = .error (toL "Fatigue detection failed: " ++ e) ∧
    generate_financial_plan (.error e) = .error (toL "Financial plan generation failed: " ++ e) :=
  ⟨rfl, rfl, rfl, rfl, rfl, rfl⟩

/-! ## Claim C10 -/

/-- C10: for the use cases other than trip-info, a parse failure and an
upstream failure surface identically: both become the one string-carrying
error alternative (Python's single generic `Exception`), with the same
use-case prefix, differing only in the embedded message text — so a caller
cannot programmatically tell ParseFailure from UpstreamFailure. -/
theorem parse_and_upstream_failures_indistinguishable (raw e : Str)
    (h : simpleParse raw = none) :
    (∃ m1 m2,
      detect_fatigue (.ok raw) = .error (toL "Fatigue detection failed: " ++ m1) ∧
      detect_fatigue (.error e) = .error (toL "Fatigue detection failed: " ++ m2)) ∧
    (∃ m1 m2,
      analyze_vehicle_images (.ok raw) = .error (toL "Vehicle image analysis failed: " ++ m1) ∧
      analyze_vehicle_images (.error e) = .error (toL "Vehicle image analysis failed: " ++ m2)) := by
  refine ⟨⟨jsonDecodeErrMsg, e, ?_, rfl⟩, ⟨jsonDecodeErrMsg, e, ?_, rfl⟩⟩ <;>
    simp [detect_fatigue, analyze_vehicle_images, simpleAnalyze, h]

/-! ## Claim C2 -/

/-- C2 counterexample: the text `"{}"` parses successfully for the trip-info
schema, yet the returned result is the empty record — the numeric field
`earnings` is absent from the result rather than present with value `0.0`,
refuting the claim that a field absent from the parsed text is present in
the result with value `0.0`. -/
theorem numeric_field_absent_stays_absent_cex :
    extract_trip_info (.ok (toL "\x7b\x7d")) = .ok (Json.obj .nil) ∧
    lookupF (toL "earnings") JsonFields.nil = none := by
  constructor
  · decide
  · rfl

/-- C2 (amended): only the trip-info use case coerces numeric fields, and
only those present in the parsed object: a declared numeric field present
with value `v` is stored as the float `tripCoerce v` (a number keeps its
value, `null` becomes `0.0`, a parseable numeric string becomes its parsed
float, an uncoercible value becomes `0.0`); a declared numeric field absent
from the parsed object remains absent; and the other use cases return the
parsed value with no numeric coercion at all. -/
theorem numeric_field_coercion (raw : Str) (fs : JsonFields) (name : Str)
    (hp : jsonLoads (cleanFences (pyStrip raw)) = some (Json.obj fs))
    (hn : name ∈ numFieldNames) :
    extract_trip_info (.ok raw) = .ok (Json.obj (normTripObj fs)) ∧
    (∀ v, lookupF name fs = some v →
      lookupF name (normTripObj fs) = some (tripCoerce v) ∧
      isFloatNum (tripCoerce v) = true) ∧
    (lookupF name fs = none → lookupF name (normTripObj fs) = none) ∧
    (lookupF name fs = some Json.null →
      lookupF name (normTripObj fs) = some (Json.num 0 0 true)) ∧
    (∀ s m k, lookupF name fs = some (Json.str s) → pyFloatOfStr s = some (m, k) →
      lookupF name (normTripObj fs) = some (Json.num m k true)) ∧
    (∀ raw2 v, simpleParse raw2 = some v → analyze_earnings_pattern (.ok raw2) = .ok v) := by
  have hres : extract_trip_info (.ok raw) = .ok (Json.obj (normTripObj fs)) := by
    have hok : extract_trip_info (.ok raw) = .ok (extractTripInfoText raw) := rfl
    rw [hok, extractTripInfoText_strict raw _ _ hp rfl]
  refine ⟨hres, ?_, ?_, ?_, ?_, ?_⟩
  · intro v hv
    rw [lookupF_normTripObj_mem name fs hn, hv]
    exact ⟨rfl, tripCoerce_isFloat v⟩
  · intro hv
    rw [lookupF_normTripObj_mem name fs hn, hv]
    rfl
  · intro hv
    rw [lookupF_normTripObj_mem name fs hn, hv]
    rfl
  · intro s m k hv hf
    rw [lookupF_normTripObj_mem name fs hn, hv]
    simp [tripCoerce, hf]
  · intro raw2 v hv
    simp [analyze_earnings_pattern, simpleAnalyze, hv]

/-- Witness for C2 (amended) at a concrete response carrying a numeric
string, a null and an absent numeric field. -/
theorem numeric_field_coercion_witness :
    jsonLoads (cleanFences (pyStrip
        (toL "\x7b\"earnings\": \"50\", \"fuel_cost\": null\x7d"))) =
      some (Json.obj (.cons (toL "earnings") (.str (toL "50"))
        (.cons (toL "fuel_cost") .null .nil))) ∧
    toL "earnings" ∈ numFieldNames ∧
    extract_trip_info (.ok (toL "\x7b\"earnings\": \"50\", \"fuel_cost\": null\x7d")) =
      .ok (Json.obj (normTripObj (.cons (toL "earnings") (.str (toL "50"))
        (.cons (toL "fuel_cost") .null .nil)))) ∧
    lookupF (toL "toll_cost") (normTripObj (.cons (toL "earnings") (.str (toL "50"))
        (.cons (toL "fuel_cost") .null .nil))) = none := by
  have h := numeric_field_coercion
    (toL "\x7b\"earnings\": \"50\", \"fuel_cost\": null\x7d")
    (.cons (toL "earnings") (.str (toL "50")) (.cons (toL "fuel_cost") .null .nil))
    (toL "toll_cost") (by decide) (by decide)
  exact ⟨by decide, by decide, h.1, h.2.2.1 (by decide)⟩

/-! ## Claim C9 -/

/-- C9 counterexample: the text `"5"` parses successfully (to the Python int
`5`), yet `extract_trip_info` does not return the parsed value: the
membership test `'earnings' in result` raises `TypeError` on an int, the
brace fallback finds no block, and the hardcoded default record is returned
instead. -/
theorem parsed_value_not_returned_cex :
    extract_trip_info (.ok (toL "5")) = .ok defaultTrip ∧
    extract_trip_info (.ok (toL "5")) ≠ .ok (Json.num 5 0 false) := by
  constructor
  · decide
  · decide

/-- C9 (amended): no extraction operation validates the parsed result
against its schema.  The non-trip-info operations return the parsed value
itself — fields outside the schema pass through, required fields may be
missing, and a top-level array (or any non-object) is returned as is.  The
trip-info operation returns a parsed object with only the four declared
numeric coercions applied (fields outside the schema untouched, absent
fields not added), and returns a parsed array unchanged when no declared
numeric field name occurs among its elements; but a parsed number, boolean
or null makes its membership test raise, diverting to the brace fallback
(and in general to the default record) instead of returning the value. -/
theorem no_schema_validation :
    (∀ raw v, simpleParse raw = some v → detect_fatigue (.ok raw) = .ok v) ∧
    (∀ raw fs, jsonLoads (cleanFences (pyStrip raw)) = some (Json.obj fs) →
      extract_trip_info (.ok raw) = .ok (Json.obj (normTripObj fs)) ∧
      (∀ k, k ∉ numFieldNames → lookupF k (normTripObj fs) = lookupF k fs) ∧
      (∀ k, lookupF k fs = none → lookupF k (normTripObj fs) = none)) ∧
    (∀ raw xs, jsonLoads (cleanFences (pyStrip raw)) = some (Json.arr xs) →
      (numFieldNames.all fun n => !hasStrElem n xs) = true →
      extract_trip_info (.ok raw) = .ok (Json.arr xs)) ∧
    (∀ raw m k f, jsonLoads (cleanFences (pyStrip raw)) = some (Json.num m k f) →
      extract_trip_info (.ok raw) = .ok (tripFallback (pyStrip raw))) := by
  refine ⟨?_, ?_, ?_, ?_⟩
  · intro raw v hv
    simp [detect_fatigue, simpleAnalyze, hv]
  · intro raw fs hp
    have hok : extract_trip_info (.ok raw) = .ok (extractTripInfoText raw) := rfl
    refine ⟨by rw [hok, extractTripInfoText_strict raw _ _ hp rfl], ?_, ?_⟩
    · intro k hk
      exact lookupF_normTripObj_not_mem k fs hk
    · intro k hk
      by_cases hm : k ∈ numFieldNames
      · rw [lookupF_normTripObj_mem k fs hm, hk]
        rfl
      · rw [lookupF_normTripObj_not_mem k fs hm, hk]
  · intro raw xs hp hall
    have hok : extract_trip_info (.ok raw) = .ok (extractTripInfoText raw) := rfl
    rw [hok, extractTripInfoText_strict raw _ _ hp ?_]
    unfold normTrip
    have : (numFieldNames.any fun n => hasStrElem n xs) = false := by
      rw [List.all_eq_true] at hall
      rw [List.any_eq_false]
      intro n hn
      have := hall n hn
      simpa using this
    simp [this]
  · intro raw m k f hp
    have hok : extract_trip_info (.ok raw) = .ok (extractTripInfoText raw) := rfl
    rw [hok]
    unfold extractTripInfoText
    simp only [hp]
    rfl

/-- Witness for C9 (amended): an out-of-schema field and a top-level array
pass through unvalidated; a top-level number diverts to the default. -/
theorem no_schema_validation_witness :
    simpleParse (toL "[1, 2]") =
      some (Json.arr (.cons (.num 1 0 false) (.cons (.num 2 0 false) .nil))) ∧
    detect_fatigue (.ok (toL "[1, 2]")) =
      .ok (Json.arr (.cons (.num 1 0 false) (.cons (.num 2 0 false) .nil))) ∧
    jsonLoads (cleanFences (pyStrip (toL "7"))) = some (Json.num 7 0 false) ∧
    extract_trip_info (.ok (toL "7")) = .ok (tripFallback (pyStrip (toL "7"))) := by
  refine ⟨by decide, no_schema_validation.1 (toL "[1, 2]") _ (by decide), by decide,
    no_schema_validation.2.2.2 (toL "7") 7 0 false (by decide)⟩

/-! ## Claim C4 -/

/-- C4 counterexample: wrapping a response in the code-fence marker can
change the result.  For the text `"\x0b{"a": "x```y"}"` (a vertical tab —
Python whitespace but not JSON whitespace — then a block with a fence marker
inside a string), the unwrapped extraction strict-parses after `strip()` and
the interior fence marker is removed (`a = "xy"`), while the wrapped
extraction's strict parse fails on the vertical tab and the brace fallback
re-parses the block with the fence marker intact (`a = "x```y"`). -/
theorem fence_wrap_changes_result_cex :
    extractTripInfoText (Char.ofNat 0x0b :: toL "\x7b\"a\": \"x```y\"\x7d") =
      Json.obj (.cons (toL "a") (.str (toL "xy")) .nil) ∧
    extractTripInfoText (fenceWrap (Char.ofNat 0x0b :: toL "\x7b\"a\": \"x```y\"\x7d")) =
      Json.obj (.cons (toL "a") (.str (toL "x```y")) .nil) ∧
    extractTripInfoText (fenceWrap (Char.ofNat 0x0b :: toL "\x7b\"a\": \"x```y\"\x7d")) ≠
      extractTripInfoText (Char.ofNat 0x0b :: toL "\x7b\"a\": \"x```y\"\x7d") :=
  ⟨by decide, by decide, by decide⟩

set_option maxHeartbeats 1600000 in
/-- C4 (amended): for every response text whose leading and trailing
whitespace consists only of JSON whitespace (space, tab, LF, CR), extraction
of the text wrapped in the code-fence marker equals extraction of the text
without the wrapper, both for `extract_trip_info` and for the strict-parsing
use cases; and fence markers are removed wherever they occur in the text,
not only at the boundaries (third conjunct: an interior ```` ``` ```` and an
interior ```` ```json ```` are removed from a string field). -/
theorem fence_wrap_invariant (w1 core w2 : Str)
    (h1 : ∀ c ∈ w1, isJsonWs c = true) (h2 : ∀ c ∈ w2, isJsonWs c = true)
    (hcore : pyStrip core = core) :
    extract_trip_info (.ok (fenceWrap (w1 ++ core ++ w2))) =
      extract_trip_info (.ok (w1 ++ core ++ w2)) ∧
    detect_fatigue (.ok (fenceWrap (w1 ++ core ++ w2))) =
      detect_fatigue (.ok (w1 ++ core ++ w2)) ∧
    extract_trip_info (.ok (toL "\x7b\"notes\": \"a``` ```json b\"\x7d")) =
      .ok (Json.obj (.cons (toL "notes") (.str (toL "a  b")) .nil)) := by
  have hfall : braceSub (pyStrip (fenceWrap (w1 ++ core ++ w2))) =
      braceSub (pyStrip (w1 ++ core ++ w2)) := by
    rw [pyStrip_fenceWrap, pyStrip_ws_affix w1 core w2 h1 h2 hcore, braceSub_fenceWrap,
      braceSub_ws_affix w1 core w2 h1 h2]
  refine ⟨?_, ?_, by decide⟩
  · exact congrArg Except.ok (extractTripInfoText_congr _ _
      (strict_parse_eq w1 core w2 h1 h2 hcore) hfall)
  · have hsp : simpleParse (fenceWrap (w1 ++ core ++ w2)) =
        simpleParse (w1 ++ core ++ w2) := strict_parse_eq w1 core w2 h1 h2 hcore
    show (match simpleParse (fenceWrap (w1 ++ core ++ w2)) with
      | some v => Except.ok v
      | none => Except.error (toL "Fatigue detection failed: " ++ jsonDecodeErrMsg)) =
      (match simpleParse (w1 ++ core ++ w2) with
      | some v => Except.ok v
      | none => Except.error (toL "Fatigue detection failed: " ++ jsonDecodeErrMsg))
    rw [hsp]

/-- Witness for C4 (amended) at a concrete core with a trailing newline. -/
theorem fence_wrap_invariant_witness :
    (∀ c ∈ ([] : Str), isJsonWs c = true) ∧
    (∀ c ∈ ['\n'], isJsonWs c = true) ∧
    pyStrip (toL "\x7b\"earnings\": 1\x7d") = toL "\x7b\"earnings\": 1\x7d" ∧
    extract_trip_info (.ok (fenceWrap ([] ++ toL "\x7b\"earnings\": 1\x7d" ++ ['\n']))) =
      extract_trip_info (.ok ([] ++ toL "\x7b\"earnings\": 1\x7d" ++ ['\n'])) :=
  ⟨by decide, by decide, by decide,
    (fence_wrap_invariant [] (toL "\x7b\"earnings\": 1\x7d") ['\n']
      (by decide) (by decide) (by decide)).1⟩

/-! ## Claim C6 -/

theorem image_preprocessing (w h : Nat) (mode : Str) (hw : 0 < w) (hh : 0 < h) :
    preprocessSpec w h mode := by
  have hmode : (preprocessImage ⟨w, h, mode⟩).mode = toL "RGB" := by
    by_cases hm : mode = toL "RGB" <;> simp [preprocessImage, hm]
  have hfmt : (preprocessImage ⟨w, h, mode⟩).format = toL "JPEG" := rfl
  have hwidth : (preprocessImage ⟨w, h, mode⟩).width =
      (if 1024 < max w h then thumbnailSize w h else (w, h)).1 := rfl
  have hheight : (preprocessImage ⟨w, h, mode⟩).height =
      (if 1024 < max w h then thumbnailSize w h else (w, h)).2 := rfl
  refine ⟨hmode, hfmt, ?_, ?_⟩
  · intro hle
    have hcond : ¬ 1024 < max w h := by omega
    rw [hwidth, hheight, if_neg hcond]
    exact ⟨rfl, rfl⟩
  · intro hbig
    have hq : ((w : ℚ) / (h : ℚ) ≤ 1) ↔ (w ≤ h) := by
      rw [div_le_one (by positivity)]
      exact_mod_cast Iff.rfl
    have hthumb : thumbnailSize w h =
        (if (w : ℚ) / (h : ℚ) ≤ 1 then
          ((roundAspect (1024 * ((w : ℚ) / h)) (fun n => |(w : ℚ) / h - (n : ℚ) / 1024|)).toNat, 1024)
        else
          (1024, (roundAspect (1024 / ((w : ℚ) / h))
            (fun n => if n = 0 then 0 else |(w : ℚ) / h - 1024 / (n : ℚ)|)).toNat)) := by
      unfold thumbnailSize
      rw [if_neg (by omega)]
    constructor
    · intro hwh
      rw [hwidth, hheight, if_pos hbig, hthumb, if_pos (hq.mpr hwh)]
      refine ⟨rfl, ?_⟩
      have hx : (1024 : ℚ) * ((w : ℚ) / h) = (1024 * w : ℚ) / h := by
        rw [mul_div_assoc]
      unfold roundAspect
      rw [hx]
      by_cases hkey : (fun n : ℤ => |(w : ℚ) / h - (n : ℚ) / 1024|) ⌊(1024 * w : ℚ) / h⌋ ≤
          (fun n : ℤ => |(w : ℚ) / h - (n : ℚ) / 1024|) ⌈(1024 * w : ℚ) / h⌉
      · left
        rw [if_pos hkey]
      · right
        rw [if_neg hkey]
    · intro hhw
      have hgt : ¬ ((w : ℚ) / (h : ℚ) ≤ 1) := by
        rw [hq]
        omega
      rw [hwidth, hheight, if_pos hbig, hthumb, if_neg hgt]
      refine ⟨rfl, ?_⟩
      have hx : (1024 : ℚ) / ((w : ℚ) / h) = (1024 * h : ℚ) / w := by
        rw [div_div_eq_mul_div]
      unfold roundAspect
      rw [hx]
      by_cases hkey : (fun n : ℤ => if n = 0 then (0 : ℚ) else |(w : ℚ) / h - 1024 / (n : ℚ)|) ⌊(1024 * h : ℚ) / w⌋ ≤
          (fun n : ℤ => if n = 0 then (0 : ℚ) else |(w : ℚ) / h - 1024 / (n : ℚ)|) ⌈(1024 * h : ℚ) / w⌉
      · left
        rw [if_pos hkey]
      · right
        rw [if_neg hkey]

/-- C6 counterexample: for a 2047 x 2048 input, both dimensions exceed 1024
and preprocessing yields 1023 x 1024 — the longer side is exactly 1024, but
the aspect ratio 1023/1024 of the result differs from the original 2047/2048
(no integer width preserves it exactly), refuting "aspect ratio
preserved". -/
theorem image_aspect_not_exact_cex :
    preprocessImage ⟨2047, 2048, toL "RGB"⟩ = ⟨1023, 1024, toL "RGB", toL "JPEG"⟩ ∧
    (1023 : ℚ) / 1024 ≠ (2047 : ℚ) / 2048 := by
  have hthumb : thumbnailSize 2047 2048 = (1023, 1024) := by
    unfold thumbnailSize roundAspect
    rw [if_neg (by norm_num)]
    rw [if_pos (by norm_num)]
    have hfl : ⌊(1024 : ℚ) * (((2047 : ℕ) : ℚ) / ((2048 : ℕ) : ℚ))⌋ = (1023 : ℤ) := by
      rw [Int.floor_eq_iff]
      push_cast
      constructor <;> norm_num
    have hcl : ⌈(1024 : ℚ) * (((2047 : ℕ) : ℚ) / ((2048 : ℕ) : ℚ))⌉ = (1024 : ℤ) := by
      rw [Int.ceil_eq_iff]
      push_cast
      constructor <;> norm_num
    rw [hfl, hcl]
    rw [if_pos]
    · norm_num
      decide
    · push_cast
      rw [abs_of_pos (by norm_num), abs_of_neg (by norm_num)]
      norm_num
  constructor
  · show (let m := if toL "RGB" = toL "RGB" then toL "RGB" else toL "RGB"
      let size := if 1024 < max 2047 2048 then thumbnailSize 2047 2048 else (2047, 2048)
      (⟨size.1, size.2, m, toL "JPEG"⟩ : SentImage)) = ⟨1023, 1024, toL "RGB", toL "JPEG"⟩
    rw [if_pos rfl, if_pos (by norm_num), hthumb]
  · norm_num

/-- Witness for C6 (amended) at the spec's 4000 x 3000 example. -/
theorem image_preprocessing_witness :
    0 < 4000 ∧ 0 < 3000 ∧ preprocessSpec 4000 3000 (toL "L") :=
  ⟨by decide, by decide, image_preprocessing 4000 3000 (toL "L") (by decide) (by decide)⟩

/-! ## Claim C3 -/

/-- C3 counterexample: `detect_fatigue` (like every non-trip use case) has no
brace-block fallback.  On a response consisting of a well-formed block
surrounded by prose, its strict parse fails and the operation raises instead
of locating and parsing the block — refuting the claim for "every use-case
schema". -/
theorem brace_fallback_missing_elsewhere_cex :
    detect_fatigue (.ok (toL "Analysis: \x7b\"fatigue_level\": \"low\"\x7d done")) =
      .error (toL "Fatigue detection failed: " ++ jsonDecodeErrMsg) ∧
    detect_fatigue (.ok (toL "Analysis: \x7b\"fatigue_level\": \"low\"\x7d done")) ≠
      .ok (Json.obj (.cons (toL "fatigue_level") (.str (toL "low")) .nil)) := by
  constructor
  · decide
  · decide

/-- C3 (amended): only `extract_trip_info` has the fallback.  When its
strict parse fails it searches the stripped response text for the greedy
match from the first `{` to the last `}` (`braceSub`) and attempts to parse
that substring, returning its parsed and numerically coerced content when it
succeeds; in particular a well-formed block surrounded by prose parses to
the block's coerced content.  The other use cases raise on strict-parse
failure instead of searching. -/
theorem brace_fallback_trip_only :
    (∀ raw, jsonLoads (cleanFences (pyStrip raw)) = none →
      extractTripInfoText raw = tripFallback (pyStrip raw)) ∧
    (∀ rt sub v r, braceSub rt = some sub → jsonLoads sub = some v →
      normTrip v = some r → tripFallback rt = r) ∧
    extract_trip_info (.ok (toL "Sure! Here is it: \x7b\"earnings\": 12.5\x7d Thanks!")) =
      .ok (Json.obj (.cons (toL "earnings") (.num 125 1 true) .nil)) ∧
    (∀ raw, simpleParse raw = none →
      detect_fatigue (.ok raw) =
        .error (toL "Fatigue detection failed: " ++ jsonDecodeErrMsg)) := by
  refine ⟨extractTripInfoText_fallback, ?_, by decide, ?_⟩
  · intro rt sub v r h1 h2 h3
    unfold tripFallback
    simp [h1, h2, h3]
  · intro raw h
    simp [detect_fatigue, simpleAnalyze, h]

/-- Witness for C3 (amended) at a concrete prose-wrapped block. -/
theorem brace_fallback_trip_only_witness :
    jsonLoads (cleanFences (pyStrip (toL "см \x7b\"toll_cost\": \"3\"\x7d /"))) = none ∧
    extractTripInfoText (toL "см \x7b\"toll_cost\": \"3\"\x7d /") =
      tripFallback (pyStrip (toL "см \x7b\"toll_cost\": \"3\"\x7d /")) ∧
    braceSub (toL "a\x7b\"x\": 1\x7d") = some (toL "\x7b\"x\": 1\x7d") ∧
    tripFallback (toL "a\x7b\"x\": 1\x7d") = Json.obj (.cons (toL "x") (.num 1 0 false) .nil) := by
  refine ⟨by decide, brace_fallback_trip_only.1 _ (by decide), by decide, ?_⟩
  exact brace_fallback_trip_only.2.1 (toL "a\x7b\"x\": 1\x7d") (toL "\x7b\"x\": 1\x7d")
    (Json.obj (.cons (toL "x") (.num 1 0 false) .nil))
    (Json.obj (.cons (toL "x") (.num 1 0 false) .nil))
    (by decide) (by decide) (by decide)

/-- Witness for C10 at the unparseable text `"sorry!"` and upstream cause
`"quota"`. -/
theorem parse_and_upstream_failures_indistinguishable_witness :
    simpleParse (toL "no json here") = none ∧
    (∃ m1 m2,
      detect_fatigue (.ok (toL "no json here")) =
        .error (toL "Fatigue detection failed: " ++ m1) ∧
      detect_fatigue (.error (toL "quota")) =
        .error (toL "Fatigue detection failed: " ++ m2)) :=
  ⟨by decide,
    (parse_and_upstream_failures_indistinguishable (toL "no json here") (toL "quota")
      (by decide)).1⟩

theorem setF_self (key : Str) (v : Json) :
    ∀ fs : JsonFields, lookupF key fs = some v → setF key v fs = fs
  | .nil, h => by cases h
  | .cons k w fs, h => by
    unfold lookupF at h
    unfold setF
    by_cases hk : k = key
    · rw [if_pos hk] at h ⊢
      cases h
      rfl
    · rw [if_neg hk] at h ⊢
      rw [setF_self key v fs h]

theorem tripCoerce_num (v : Json) : ∃ m k, tripCoerce v = Json.num m k true := by
  cases v with
  | num m k f => exact ⟨m, k, rfl⟩
  | str s =>
    have hred : tripCoerce (Json.str s) = (match pyFloatOfStr s with
      | some (m, k) => Json.num m k true
      | none => Json.num 0 0 true) := rfl
    rw [hred]
    cases hp : pyFloatOfStr s with
    | none => exact ⟨0, 0, rfl⟩
    | some p => exact ⟨p.1, p.2, by cases p; rfl⟩
  | bool b => exact ⟨if b then 1 else 0, 0, rfl⟩
  | null => exact ⟨0, 0, rfl⟩
  | arr xs => exact ⟨0, 0, rfl⟩
  | obj fs => exact ⟨0, 0, rfl⟩

theorem tripCoerce_idem (v : Json) : tripCoerce (tripCoerce v) = tripCoerce v := by
  obtain ⟨m, k, h⟩ := tripCoerce_num v
  rw [h]
  rfl

theorem normNumField_noop (name : Str) (fs : JsonFields)
    (h : ∀ v, lookupF name fs = some v → tripCoerce v = v) :
    normNumField name fs = fs := by
  unfold normNumField
  cases hl : lookupF name fs with
  | none => rfl
  | some v =>
    show setF name (tripCoerce v) fs = fs
    rw [h v hl]
    exact setF_self name v fs hl

theorem normTripObj_idem (fs : JsonFields) : normTripObj (normTripObj fs) = normTripObj fs := by
  have hcoerced : ∀ name ∈ numFieldNames, ∀ v,
      lookupF name (normTripObj fs) = some v → tripCoerce v = v := by
    intro name hn v hv
    rw [lookupF_normTripObj_mem name fs hn] at hv
    cases hl : lookupF name fs with
    | none => rw [hl] at hv; cases hv
    | some w =>
      rw [hl] at hv
      simp only [Option.map_some', Option.some.injEq] at hv
      rw [← hv]
      exact tripCoerce_idem w
  show normNumField (toL "other_expenses") (normNumField (toL "toll_cost")
    (normNumField (toL "fuel_cost") (normNumField (toL "earnings") (normTripObj fs)))) =
    normTripObj fs
  rw [normNumField_noop _ _ (hcoerced (toL "earnings") (by simp [numFieldNames])),
    normNumField_noop _ _ (hcoerced (toL "fuel_cost") (by simp [numFieldNames])),
    normNumField_noop _ _ (hcoerced (toL "toll_cost") (by simp [numFieldNames])),
    normNumField_noop _ _ (hcoerced (toL "other_expenses") (by simp [numFieldNames]))]

theorem normTrip_idem (v r : Json) (h : normTrip v = some r) : normTrip r = some r := by
  cases v with
  | obj fs =>
    unfold normTrip at h
    cases h
    show some (Json.obj (normTripObj (normTripObj fs))) = some (Json.obj (normTripObj fs))
    rw [normTripObj_idem]
  | arr xs =>
    have h' : (if (numFieldNames.any fun n => hasStrElem n xs) = true then none
        else some (Json.arr xs)) = some r := h
    by_cases hx : (numFieldNames.any fun n => hasStrElem n xs) = true
    · rw [if_pos hx] at h'
      cases h'
    · rw [if_neg hx] at h'
      cases h'
      show (if (numFieldNames.any fun n => hasStrElem n xs) = true then none
        else some (Json.arr xs)) = some (Json.arr xs)
      rw [if_neg hx]
  | str s =>
    have h' : (if (numFieldNames.any fun n => hasSubstr n s) = true then none
        else some (Json.str s)) = some r := h
    by_cases hx : (numFieldNames.any fun n => hasSubstr n s) = true
    · rw [if_pos hx] at h'
      cases h'
    · rw [if_neg hx] at h'
      cases h'
      show (if (numFieldNames.any fun n => hasSubstr n s) = true then none
        else some (Json.str s)) = some (Json.str s)
      rw [if_neg hx]
  | num m k f => cases h
  | bool b => cases h
  | null => cases h

theorem canonAux_wf : ∀ (k : Nat) (m : Int),
    ((canonAux k m).1 = 0 → (canonAux k m).2 = 0) ∧
    ((canonAux k m).2 ≠ 0 → ¬ (10 : Int) ∣ (canonAux k m).1)
  | 0, m => ⟨fun _ => rfl, fun h => absurd rfl h⟩
  | k + 1, m => by
    unfold canonAux
    by_cases hm : m = 0
    · rw [if_pos hm]
      exact ⟨fun _ => rfl, fun h => absurd rfl h⟩
    · rw [if_neg hm]
      by_cases hd : m % 10 = 0
      · rw [if_pos hd]
        exact canonAux_wf k (m / 10)
      · rw [if_neg hd]
        refine ⟨fun h => absurd h hm, fun _ hdvd => ?_⟩
        rw [Int.dvd_iff_emod_eq_zero] at hdvd
        exact hd hdvd

theorem wfJ_num_canon (m : Int) (k : Nat) (f : Bool)
    (h1 : m = 0 → k = 0) (h2 : k ≠ 0 → ¬ (10 : Int) ∣ m) (h3 : f = false → k = 0) :
    wfJ (Json.num m k f) = true := by
  unfold wfJ
  simp only [Bool.and_eq_true, decide_eq_true_eq]
  exact ⟨⟨h1, h2⟩, h3⟩

theorem mkNum_wf_float (neg : Bool) (intDs fracDs : List Char) (e : Int) :
    wfJ (mkNum neg intDs fracDs e true) = true := by
  unfold mkNum
  by_cases he : ((fracDs.length : Int) ≤ e)
  · rw [if_pos he]
    exact wfJ_num_canon _ _ _ (fun _ => rfl) (fun h => absurd rfl h) (fun h => by cases h)
  · rw [if_neg he]
    obtain ⟨hc1, hc2⟩ := canonAux_wf (((fracDs.length : Int)) - e).toNat
      (if neg then -(digsToNat (digsToNat 0 intDs) fracDs : Int)
        else (digsToNat (digsToNat 0 intDs) fracDs : Int))
    exact wfJ_num_canon _ _ _ hc1 hc2 (fun h => by cases h)

theorem mkNum_wf_int (neg : Bool) (intDs : List Char) :
    wfJ (mkNum neg intDs [] 0 false) = true := by
  unfold mkNum
  rw [if_pos (by simp)]
  exact wfJ_num_canon _ _ _ (fun _ => rfl) (fun h => absurd rfl h) (fun _ => rfl)

theorem canon_pair_wf (K : Nat) (M m : Int) (k : Nat) (h : canonAux K M = (m, k)) :
    (m = 0 → k = 0) ∧ (k ≠ 0 → ¬ (10 : Int) ∣ m) := by
  have hwf := canonAux_wf K M
  rw [h] at hwf
  simpa using hwf

theorem pair_zero_wf (M m : Int) (k : Nat) (h : some (M, (0 : Nat)) = some (m, k)) :
    (m = 0 → k = 0) ∧ (k ≠ 0 → ¬ (10 : Int) ∣ m) := by
  injection h with h2
  injection h2 with ha hb
  subst ha
  cases hb
  exact ⟨fun _ => rfl, fun hh => absurd rfl hh⟩

theorem pyFloatOfStr_wf (s : Str) (m : Int) (k : Nat) (h : pyFloatOfStr s = some (m, k)) :
    (m = 0 → k = 0) ∧ (k ≠ 0 → ¬ (10 : Int) ∣ m) := by
  unfold pyFloatOfStr at h
  simp only [] at h
  split at h
  · cases h
  · split at h <;> (split at h <;> try cases h)
    all_goals (
      split at h
      · exact pair_zero_wf _ _ _ h
      · injection h with h2
        exact canon_pair_wf _ _ _ _ h2)

theorem tripCoerce_wf (v : Json) (hv : wfJ v = true) : wfJ (tripCoerce v) = true := by
  cases v with
  | num m k f =>
    have hred : tripCoerce (Json.num m k f) = Json.num m k true := rfl
    rw [hred]
    unfold wfJ at hv
    simp only [Bool.and_eq_true, decide_eq_true_eq] at hv
    exact wfJ_num_canon m k true hv.1.1 hv.1.2 (fun hh => by cases hh)
  | str s =>
    have hred : tripCoerce (Json.str s) = (match pyFloatOfStr s with
      | some (m, k) => Json.num m k true
      | none => Json.num 0 0 true) := rfl
    rw [hred]
    cases hp : pyFloatOfStr s with
    | none => decide
    | some p =>
      obtain ⟨m, k⟩ := p
      obtain ⟨h1, h2⟩ := pyFloatOfStr_wf s m k hp
      exact wfJ_num_canon m k true h1 h2 (fun h => by cases h)
  | bool b => cases b <;> rfl
  | null => rfl
  | arr xs => rfl
  | obj fs => rfl

theorem lookupF_wf (key : Str) (w : Json) :
    ∀ fs, wfF fs = true → lookupF key fs = some w → wfJ w = true
  | .nil, _, h => by cases h
  | .cons k v fs, hwf, h => by
    unfold wfF at hwf
    rw [Bool.and_eq_true] at hwf
    unfold lookupF at h
    by_cases hk : k = key
    · rw [if_pos hk] at h
      cases h
      exact hwf.1
    · rw [if_neg hk] at h
      exact lookupF_wf key w fs hwf.2 h

theorem wfF_eraseF (key : Str) :
    ∀ fs, wfF fs = true → wfF (eraseF key fs) = true
  | .nil, _ => rfl
  | .cons k v fs, hwf => by
    unfold wfF at hwf
    rw [Bool.and_eq_true] at hwf
    unfold eraseF
    by_cases hk : k = key
    · rw [if_pos hk]
      exact hwf.2
    · rw [if_neg hk]
      unfold wfF
      rw [Bool.and_eq_true]
      exact ⟨hwf.1, wfF_eraseF key fs hwf.2⟩

theorem hasKeyF_eraseF_other (key key' : Str) (hne : key ≠ key') :
    ∀ fs, hasKeyF key' (eraseF key fs) = hasKeyF key' fs
  | .nil => rfl
  | .cons k v fs => by
    unfold eraseF
    by_cases hk : k = key
    · rw [if_pos hk]
      have hstep : lookupF key' (JsonFields.cons k v fs) = lookupF key' fs := by
        unfold lookupF
        rw [if_neg (by rw [hk]; exact hne)]
        cases fs <;> rfl
      unfold hasKeyF
      rw [hstep]
    · rw [if_neg hk]
      have hstep : ∀ gs, lookupF key' (JsonFields.cons k v gs) =
          if k = key' then some v else lookupF key' gs := fun gs => rfl
      unfold hasKeyF
      rw [hstep, hstep]
      by_cases hk' : k = key'
      · rw [if_pos hk', if_pos hk']
      · rw [if_neg hk', if_neg hk']
        exact hasKeyF_eraseF_other key key' hne fs

theorem hasKeyF_eraseF_self (key : Str) :
    ∀ fs, keysNodup fs = true → hasKeyF key (eraseF key fs) = false
  | .nil, _ => rfl
  | .cons k v fs, hnd => by
    unfold keysNodup at hnd
    rw [Bool.and_eq_true] at hnd
    unfold eraseF
    by_cases hk : k = key
    · rw [if_pos hk]
      rw [← hk]
      cases hkk : hasKeyF k fs with
      | false => rfl
      | true => rw [hkk] at hnd; cases hnd.1
    · rw [if_neg hk]
      unfold hasKeyF lookupF
      rw [if_neg hk]
      exact hasKeyF_eraseF_self key fs hnd.2

theorem keysNodup_eraseF (key : Str) :
    ∀ fs, keysNodup fs = true → keysNodup (eraseF key fs) = true
  | .nil, _ => rfl
  | .cons k v fs, hnd => by
    unfold keysNodup at hnd
    rw [Bool.and_eq_true] at hnd
    unfold eraseF
    by_cases hk : k = key
    · rw [if_pos hk]
      exact hnd.2
    · rw [if_neg hk]
      unfold keysNodup
      rw [Bool.and_eq_true]
      refine ⟨?_, keysNodup_eraseF key fs hnd.2⟩
      rw [hasKeyF_eraseF_other key k (fun hh => hk hh.symm) fs]
      exact hnd.1

theorem consPy_wf (k : Str) (v : Json) (fs : JsonFields)
    (hnd : keysNodup fs = true) (hwf : wfF fs = true) (hv : wfJ v = true) :
    keysNodup (consPy k v fs) = true ∧ wfF (consPy k v fs) = true := by
  unfold consPy
  cases hl : lookupF k fs with
  | none =>
    constructor
    · unfold keysNodup
      rw [Bool.and_eq_true]
      exact ⟨by unfold hasKeyF; rw [hl]; rfl, hnd⟩
    · unfold wfF
      rw [Bool.and_eq_true]
      exact ⟨hv, hwf⟩
  | some w =>
    constructor
    · unfold keysNodup
      rw [Bool.and_eq_true]
      exact ⟨by rw [hasKeyF_eraseF_self k fs hnd]; rfl, keysNodup_eraseF k fs hnd⟩
    · unfold wfF
      rw [Bool.and_eq_true]
      exact ⟨lookupF_wf k w fs hwf hl, wfF_eraseF k fs hwf⟩

theorem consPy_of_not_mem (k : Str) (v : Json) (fs : JsonFields)
    (h : lookupF k fs = none) : consPy k v fs = .cons k v fs := by
  unfold consPy
  rw [h]

theorem parseNumber_wf (s : Str) (v : Json) (rest : Str)
    (h : parseNumber s = some (v, rest)) : wfJ v = true := by
  unfold parseNumber at h
  simp only [] at h
  split at h
  · split at h
    · cases h
    · split at h
      · split at h
        · injection h with hp
          injection hp with h1 _
          rw [← h1]
          exact mkNum_wf_float _ _ _ _
        · injection h with hp
          injection hp with h1 _
          rw [← h1]
          exact mkNum_wf_float _ _ _ _
      · split at h
        · injection h with hp
          injection hp with h1 _
          rw [← h1]
          exact mkNum_wf_float _ _ _ _
        · injection h with hp
          injection hp with h1 _
          rw [← h1]
          exact mkNum_wf_int _ _
  · cases h

theorem parse_wf (fuel : Nat) :
    (∀ s v rest, parseVal fuel s = some (v, rest) → wfJ v = true) ∧
    (∀ s l rest, parseElems fuel s = some (l, rest) → wfL l = true) ∧
    (∀ s fs rest, parseMembers fuel s = some (fs, rest) →
      keysNodup fs = true ∧ wfF fs = true) := by
  induction fuel with
  | zero =>
    refine ⟨?_, ?_, ?_⟩ <;>
      (intro s a rest h; cases s <;> simp [parseVal, parseElems, parseMembers] at h)
  | succ fuel ih =>
    obtain ⟨ihV, ihL, ihF⟩ := ih
    refine ⟨?_, ?_, ?_⟩
    · intro s v rest h
      cases s with
      | nil => simp [parseVal] at h
      | cons c s' =>
        simp only [parseVal] at h
        split at h
        · -- c = '{'
          split at h
          · -- empty object
            injection h with hp
            injection hp with h1 _
            rw [← h1]
            rfl
          · rw [Option.map_eq_some'] at h
            obtain ⟨⟨fs, r⟩, hp, he⟩ := h
            injection he with h1 _
            rw [← h1]
            have := ihF _ _ _ hp
            unfold wfJ
            rw [Bool.and_eq_true]
            exact this
        · split at h
          · -- c = '['
            split at h
            · -- empty array
              injection h with hp
              injection hp with h1 _
              rw [← h1]
              rfl
            · rw [Option.map_eq_some'] at h
              obtain ⟨⟨l, r⟩, hp, he⟩ := h
              injection he with h1 _
              rw [← h1]
              exact ihL _ _ _ hp
          · split at h
            · -- string
              rw [Option.map_eq_some'] at h
              obtain ⟨⟨cs, r⟩, hp, he⟩ := h
              injection he with h1 _
              rw [← h1]
              rfl
            · split at h
              · injection h with hp
                injection hp with h1 _
                rw [← h1]
                rfl
              · split at h
                · injection h with hp
                  injection hp with h1 _
                  rw [← h1]
                  rfl
                · split at h
                  · injection h with hp
                    injection hp with h1 _
                    rw [← h1]
                    rfl
                  · exact parseNumber_wf _ _ _ h
    · intro s l rest h
      cases s with
      | nil => simp [parseElems] at h
      | cons c s' =>
        simp only [parseElems] at h
        split at h
        · rename_i v r hv
          split at h
          · injection h with hp
            injection hp with h1 _
            rw [← h1]
            unfold wfL
            rw [Bool.and_eq_true]
            exact ⟨ihV _ _ _ hv, rfl⟩
          · rw [Option.map_eq_some'] at h
            obtain ⟨⟨l', r'⟩, hp, he⟩ := h
            injection he with h1 _
            rw [← h1]
            unfold wfL
            rw [Bool.and_eq_true]
            exact ⟨ihV _ _ _ hv, ihL _ _ _ hp⟩
          · cases h
        · cases h
    · intro s fs rest h
      cases s with
      | nil => simp [parseMembers] at h
      | cons c s' =>
        simp only [parseMembers] at h
        split at h
        · split at h
          · rename_i key r1 hkey
            split at h
            · split at h
              · rename_i v r3 hval
                split at h
                · injection h with hp
                  injection hp with h1 _
                  rw [← h1]
                  refine ⟨?_, ?_⟩
                  · rfl
                  · unfold wfF
                    rw [Bool.and_eq_true]
                    exact ⟨ihV _ _ _ hval, rfl⟩
                · rw [Option.map_eq_some'] at h
                  obtain ⟨⟨fs', r'⟩, hp, he⟩ := h
                  injection he with h1 _
                  rw [← h1]
                  obtain ⟨hnd, hwf⟩ := ihF _ _ _ hp
                  exact consPy_wf key v fs' hnd hwf (ihV _ _ _ hval)
                · cases h
              · cases h
            · cases h
          · cases h
        · cases h

theorem jsonLoads_wf (s : Str) (v : Json) (h : jsonLoads s = some v) : wfJ v = true := by
  unfold jsonLoads at h
  simp only [] at h
  split at h
  · rename_i heq
    injection h with h1
    rw [← h1]
    exact (parse_wf _).1 _ _ _ heq
  · cases h

theorem hasKeyF_setF (key key' : Str) (v : Json) :
    ∀ fs, hasKeyF key' (setF key v fs) = hasKeyF key' fs := by
  intro fs
  unfold hasKeyF
  by_cases hk : key = key'
  · rw [← hk, lookupF_setF_self]
    cases lookupF key fs <;> rfl
  · rw [lookupF_setF_ne key key' v hk fs]

theorem keysNodup_setF (key : Str) (v : Json) :
    ∀ fs, keysNodup fs = true → keysNodup (setF key v fs) = true
  | .nil, _ => rfl
  | .cons k w fs, hnd => by
    unfold keysNodup at hnd
    rw [Bool.and_eq_true] at hnd
    unfold setF
    by_cases hk : k = key
    · rw [if_pos hk]
      unfold keysNodup
      rw [Bool.and_eq_true]
      exact hnd
    · rw [if_neg hk]
      unfold keysNodup
      rw [Bool.and_eq_true]
      refine ⟨?_, keysNodup_setF key v fs hnd.2⟩
      rw [hasKeyF_setF key k v fs]
      exact hnd.1

theorem wfF_setF (key : Str) (v : Json) (hv : wfJ v = true) :
    ∀ fs, wfF fs = true → wfF (setF key v fs) = true
  | .nil, _ => rfl
  | .cons k w fs, hwf => by
    unfold wfF at hwf
    rw [Bool.and_eq_true] at hwf
    unfold setF
    by_cases hk : k = key
    · rw [if_pos hk]
      unfold wfF
      rw [Bool.and_eq_true]
      exact ⟨hv, hwf.2⟩
    · rw [if_neg hk]
      unfold wfF
      rw [Bool.and_eq_true]
      exact ⟨hwf.1, wfF_setF key v hv fs hwf.2⟩

theorem normNumField_wf (name : Str) (fs : JsonFields)
    (hnd : keysNodup fs = true) (hwf : wfF fs = true) :
    keysNodup (normNumField name fs) = true ∧ wfF (normNumField name fs) = true := by
  unfold normNumField
  cases hl : lookupF name fs with
  | none => exact ⟨hnd, hwf⟩
  | some w =>
    exact ⟨keysNodup_setF name _ fs hnd,
      wfF_setF name _ (tripCoerce_wf w (lookupF_wf name w fs hwf hl)) fs hwf⟩

theorem normTrip_wf (v r : Json) (hv : wfJ v = true) (h : normTrip v = some r) :
    wfJ r = true := by
  cases v with
  | obj fs =>
    unfold normTrip at h
    cases h
    unfold wfJ at hv
    rw [Bool.and_eq_true] at hv
    have h1 := normNumField_wf (toL "earnings") fs hv.1 hv.2
    have h2 := normNumField_wf (toL "fuel_cost") _ h1.1 h1.2
    have h3 := normNumField_wf (toL "toll_cost") _ h2.1 h2.2
    have h4 := normNumField_wf (toL "other_expenses") _ h3.1 h3.2
    unfold wfJ
    rw [Bool.and_eq_true]
    exact h4
  | arr xs =>
    have h' : (if (numFieldNames.any fun n => hasStrElem n xs) = true then none
        else some (Json.arr xs)) = some r := h
    by_cases hx : (numFieldNames.any fun n => hasStrElem n xs) = true
    · rw [if_pos hx] at h'
      cases h'
    · rw [if_neg hx] at h'
      cases h'
      exact hv
  | str s =>
    have h' : (if (numFieldNames.any fun n => hasSubstr n s) = true then none
        else some (Json.str s)) = some r := h
    by_cases hx : (numFieldNames.any fun n => hasSubstr n s) = true
    · rw [if_pos hx] at h'
      cases h'
    · rw [if_neg hx] at h'
      cases h'
      exact hv
  | num m k f => cases h
  | bool b => cases h
  | null => cases h

theorem digsToNat_append (ds1 : List Char) :
    ∀ (a : Nat) ds2, digsToNat a (ds1 ++ ds2) = digsToNat (digsToNat a ds1) ds2 := by
  induction ds1 with
  | nil => intro a ds2; rfl
  | cons c cs ih =>
    intro a ds2
    show digsToNat (a * 10 + digVal c) (cs ++ ds2) =
      digsToNat (digsToNat (a * 10 + digVal c) cs) ds2
    exact ih (a * 10 + digVal c) ds2

set_option maxHeartbeats 1600000 in
theorem digsToNat_zeros (j : Nat) :
    ∀ (a : Nat), digsToNat a (List.replicate j '0') = a * 10 ^ j := by
  induction j with
  | zero =>
    intro a
    show a = a * 10 ^ 0
    simp
  | succ j ih =>
    intro a
    rw [List.replicate_succ]
    show digsToNat (a * 10 + digVal '0') (List.replicate j '0') = a * 10 ^ (j + 1)
    rw [ih]
    have h0 : digVal '0' = 0 := rfl
    rw [h0]
    ring

theorem takeDigits_all :
    ∀ ds rest, (∀ c ∈ ds, isDigit c = true) →
      (rest = [] ∨ ∃ c r', rest = c :: r' ∧ isDigit c = false) →
      takeDigits (ds ++ rest) = (ds, rest)
  | [], rest, _, hr => by
    rcases hr with rfl | ⟨c, r', rfl, hc⟩
    · rfl
    · simp only [List.nil_append]
      unfold takeDigits
      rw [hc]
      rfl
  | d :: ds, rest, hd, hr => by
    have h1 : (d :: ds) ++ rest = d :: (ds ++ rest) := rfl
    rw [h1]
    unfold takeDigits
    rw [hd d (List.mem_cons_self d ds)]
    simp only [if_true]
    rw [takeDigits_all ds rest (fun c hc => hd c (List.mem_cons_of_mem d hc)) hr]

theorem digChar_digit (n : Nat) (h : n < 10) :
    isDigit (digChar n) = true ∧ digVal (digChar n) = n ∧ (n ≠ 0 → digChar n ≠ '0') := by
  match n, h with
  | 0, _ => exact ⟨by decide, by decide, fun h0 => absurd rfl h0⟩
  | 1, _ => exact ⟨by decide, by decide, fun _ => by decide⟩
  | 2, _ => exact ⟨by decide, by decide, fun _ => by decide⟩
  | 3, _ => exact ⟨by decide, by decide, fun _ => by decide⟩
  | 4, _ => exact ⟨by decide, by decide, fun _ => by decide⟩
  | 5, _ => exact ⟨by decide, by decide, fun _ => by decide⟩
  | 6, _ => exact ⟨by decide, by decide, fun _ => by decide⟩
  | 7, _ => exact ⟨by decide, by decide, fun _ => by decide⟩
  | 8, _ => exact ⟨by decide, by decide, fun _ => by decide⟩
  | 9, _ => exact ⟨by decide, by decide, fun _ => by decide⟩

theorem natStrAux_spec : ∀ f n, n < 10 ^ f → f ≠ 0 →
    (∀ c ∈ natStrAux f n, isDigit c = true) ∧ natStrAux f n ≠ [] ∧
    digsToNat 0 (natStrAux f n) = n ∧
    (n ≠ 0 → ∃ d ds, natStrAux f n = d :: ds ∧ isDigit d = true ∧ d ≠ '0')
  | 0, n, _, hf => absurd rfl hf
  | f + 1, n, hn, _ => by
    have hunf : natStrAux (f + 1) n =
        if n < 10 then [digChar n] else natStrAux f (n / 10) ++ [digChar (n % 10)] := rfl
    rw [hunf]
    by_cases h10 : n < 10
    · rw [if_pos h10]
      obtain ⟨hd1, hd2, hd3⟩ := digChar_digit n h10
      refine ⟨?_, by simp, ?_, ?_⟩
      · intro c hc
        rcases List.mem_singleton.mp hc with rfl
        exact hd1
      · show (0 * 10 + digVal (digChar n) : Nat) = n
        rw [hd2]
        omega
      · intro hn0
        exact ⟨digChar n, [], rfl, hd1, hd3 hn0⟩
    · rw [if_neg h10]
      have hf' : f ≠ 0 := by
        intro hf0
        rw [hf0] at hn
        simp at hn
        omega
      have hdiv : n / 10 < 10 ^ f := by
        rw [Nat.div_lt_iff_lt_mul (by norm_num)]
        calc n < 10 ^ (f + 1) := hn
          _ = 10 ^ f * 10 := by ring
      obtain ⟨ih1, ih2, ih3, ih4⟩ := natStrAux_spec f (n / 10) hdiv hf'
      obtain ⟨hm1, hm2, _⟩ := digChar_digit (n % 10) (Nat.mod_lt n (by norm_num))
      refine ⟨?_, by simp, ?_, ?_⟩
      · intro c hc
        rcases List.mem_append.mp hc with hc1 | hc2
        · exact ih1 c hc1
        · rcases List.mem_singleton.mp hc2 with rfl
          exact hm1
      · rw [digsToNat_append, ih3]
        show (n / 10 * 10 + digVal (digChar (n % 10)) : Nat) = n
        rw [hm2]
        omega
      · intro _
        have hq : n / 10 ≠ 0 := by omega
        obtain ⟨d, ds, hds, hdig, hne⟩ := ih4 hq
        exact ⟨d, ds ++ [digChar (n % 10)], by rw [hds]; rfl, hdig, hne⟩

theorem natStr_spec (n : Nat) :
    (∀ c ∈ natStr n, isDigit c = true) ∧ natStr n ≠ [] ∧
    digsToNat 0 (natStr n) = n ∧
    (n ≠ 0 → ∃ d ds, natStr n = d :: ds ∧ isDigit d = true ∧ d ≠ '0') := by
  unfold natStr
  refine natStrAux_spec (n + 1) n ?_ (by omega)
  calc n < 10 ^ n := Nat.lt_pow_self (by norm_num) n
    _ ≤ 10 ^ (n + 1) := Nat.pow_le_pow_right (by norm_num) (by omega)

theorem numStop_cases (s : Str) (h : numStop s = true) :
    s = [] ∨ ∃ c r', s = c :: r' ∧ isDigit c = false := by
  cases s with
  | nil => exact Or.inl rfl
  | cons c cs =>
    have h' : (!(isDigit c) && !(decide (c = '.')) && !(decide (c = 'e')) &&
        !(decide (c = 'E'))) = true := h
    refine Or.inr ⟨c, cs, rfl, ?_⟩
    cases hd : isDigit c
    · rfl
    · rw [hd] at h'
      simp at h'

theorem numStop_not_dot (s : Str) (h : numStop s = true) :
    s = [] ∨ ∃ c r', s = c :: r' ∧ c ≠ '.' ∧ c ≠ 'e' ∧ c ≠ 'E' := by
  cases s with
  | nil => exact Or.inl rfl
  | cons c cs =>
    have h' : (!(isDigit c) && !(decide (c = '.')) && !(decide (c = 'e')) &&
        !(decide (c = 'E'))) = true := h
    refine Or.inr ⟨c, cs, rfl, ?_, ?_, ?_⟩
    · intro hc
      subst hc
      simp at h'
    · intro hc
      subst hc
      simp at h'
    · intro hc
      subst hc
      simp at h'

theorem parseFrac_stop (s : Str) (h : numStop s = true) : parseFrac s = none := by
  rcases numStop_not_dot s h with rfl | ⟨c, r', rfl, hdot, _, _⟩
  · rfl
  · unfold parseFrac
    split
    · rename_i r heq
      injection heq with h1 _
      exact absurd h1 hdot
    · rfl

theorem parseExp_stop (s : Str) (h : numStop s = true) : parseExp s = none := by
  rcases numStop_not_dot s h with rfl | ⟨c, r', rfl, _, he, hE⟩
  · rfl
  · unfold parseExp
    simp [he, hE]

theorem parseFrac_digits (ds : List Char) (rest : Str) (hne : ds ≠ [])
    (hdig : ∀ c ∈ ds, isDigit c = true) (hstop : numStop rest = true) :
    parseFrac ('.' :: (ds ++ rest)) = some (ds, rest) := by
  have ht : takeDigits (ds ++ rest) = (ds, rest) :=
    takeDigits_all ds rest hdig (numStop_cases rest hstop)
  show (match takeDigits (ds ++ rest) with
    | ([], _) => none
    | (ds', r2) => some (ds', r2)) = some (ds, rest)
  rw [ht]
  cases ds with
  | nil => exact absurd rfl hne
  | cons d ds' => rfl

theorem parseNumber_neg (r : Str) : parseNumber ('-' :: r) = parseNumBody true r := rfl

theorem parseNumber_pos (c : Char) (r : Str) (hc : c ≠ '-') :
    parseNumber (c :: r) = parseNumBody false (c :: r) := by
  unfold parseNumber
  split
  rename_i p neg s1 heq
  split at heq
  · rename_i rr heq2
    injection heq2 with h1 _
    exact absurd h1 hc
  · injection heq with h1 h2
    subst h1
    subst h2
    rfl

theorem parseNumBody_intOnly (neg : Bool) (intDs : List Char) (rest : Str)
    (hdig : ∀ c ∈ intDs, isDigit c = true)
    (hlead : ∃ d t, intDs = d :: t ∧ (t = [] ∨ d ≠ '0'))
    (hstop : numStop rest = true) :
    parseNumBody neg (intDs ++ rest) = some (mkNum neg intDs [] 0 false, rest) := by
  obtain ⟨d, t, rfl, hdt⟩ := hlead
  have hd : isDigit d = true := hdig d (List.mem_cons_self d t)
  have hfrac : parseFrac rest = none := parseFrac_stop rest hstop
  have hexp : parseExp rest = none := parseExp_stop rest hstop
  rw [List.cons_append]
  simp only [parseNumBody, hd, not_true, ite_false]
  rcases hdt with rfl | hd0
  · by_cases h0 : d = '0'
    · rw [if_pos h0]
      simp only [List.nil_append, hfrac, hexp]
    · rw [if_neg h0]
      have htake : takeDigits ([] ++ rest) = ([], rest) := by
        rw [List.nil_append]
        exact takeDigits_all [] rest (by intro c hc; cases hc) (numStop_cases rest hstop)
      rw [htake]
      simp only [hfrac, hexp]
  · rw [if_neg hd0]
    have htake : takeDigits (t ++ rest) = (t, rest) :=
      takeDigits_all t rest (fun c hc => hdig c (List.mem_cons_of_mem d hc))
        (numStop_cases rest hstop)
    rw [htake]
    simp only [hfrac, hexp]

theorem parseNumBody_frac (neg : Bool) (intDs fracDs : List Char) (rest : Str)
    (hdig : ∀ c ∈ intDs, isDigit c = true)
    (hlead : ∃ d t, intDs = d :: t ∧ (t = [] ∨ d ≠ '0'))
    (hfne : fracDs ≠ []) (hfdig : ∀ c ∈ fracDs, isDigit c = true)
    (hstop : numStop rest = true) :
    parseNumBody neg (intDs ++ '.' :: (fracDs ++ rest)) =
      some (mkNum neg intDs fracDs 0 true, rest) := by
  obtain ⟨d, t, rfl, hdt⟩ := hlead
  have hd : isDigit d = true := hdig d (List.mem_cons_self d t)
  have hfrac : parseFrac ('.' :: (fracDs ++ rest)) = some (fracDs, rest) :=
    parseFrac_digits fracDs rest hfne hfdig hstop
  have hexp : parseExp rest = none := parseExp_stop rest hstop
  rw [List.cons_append]
  simp only [parseNumBody, hd, not_true, ite_false]
  rcases hdt with rfl | hd0
  · by_cases h0 : d = '0'
    · rw [if_pos h0]
      simp only [List.nil_append, hfrac, hexp]
    · rw [if_neg h0]
      have htake : takeDigits ([] ++ '.' :: (fracDs ++ rest)) =
          ([], '.' :: (fracDs ++ rest)) := by
        rw [List.nil_append]
        exact takeDigits_all [] ('.' :: (fracDs ++ rest)) (by intro c hc; cases hc)
          (Or.inr ⟨'.', fracDs ++ rest, rfl, by decide⟩)
      rw [htake]
      simp only [hfrac, hexp]
  · rw [if_neg hd0]
    have htake : takeDigits (t ++ '.' :: (fracDs ++ rest)) =
        (t, '.' :: (fracDs ++ rest)) :=
      takeDigits_all t ('.' :: (fracDs ++ rest))
        (fun c hc => hdig c (List.mem_cons_of_mem d hc))
        (Or.inr ⟨'.', fracDs ++ rest, rfl, by decide⟩)
    rw [htake]
    simp only [hfrac, hexp]

theorem mkNum_intOnly (neg : Bool) (intDs : List Char) :
    mkNum neg intDs [] 0 false =
      Json.num (if neg then -(digsToNat 0 intDs : Int) else (digsToNat 0 intDs : Int))
        0 false := by
  show Json.num
      ((if neg then -(digsToNat 0 intDs : Int) else (digsToNat 0 intDs : Int)) * 1) 0 false =
    Json.num (if neg then -(digsToNat 0 intDs : Int) else (digsToNat 0 intDs : Int)) 0 false
  rw [mul_one]

theorem canonAux_stay (k : Nat) (m : Int) (hm : m % 10 ≠ 0) :
    canonAux (k + 1) m = (m, k + 1) := by
  have hm0 : m ≠ 0 := by
    intro h
    subst h
    simp at hm
  show (if m = 0 then ((0 : Int), (0 : Nat))
    else if m % 10 = 0 then canonAux k (m / 10) else (m, k + 1)) = (m, k + 1)
  rw [if_neg hm0, if_neg hm]

theorem canonAux_one_mul10 (m : Int) : canonAux 1 (m * 10) = (m, 0) := by
  show (if m * 10 = 0 then ((0 : Int), (0 : Nat))
    else if m * 10 % 10 = 0 then canonAux 0 (m * 10 / 10) else (m * 10, 1)) = (m, 0)
  by_cases h : m * 10 = 0
  · rw [if_pos h]
    have hm : m = 0 := by
      rcases mul_eq_zero.mp h with h' | h'
      · exact h'
      · norm_num at h'
    rw [hm]
  · rw [if_neg h, if_pos (by simp : m * 10 % 10 = 0)]
    show (m * 10 / 10, (0 : Nat)) = (m, 0)
    rw [Int.mul_ediv_cancel m (by norm_num : (10 : Int) ≠ 0)]

theorem mkNum_frac0 (neg : Bool) (intDs fracDs : List Char) (hne : fracDs ≠ []) :
    mkNum neg intDs fracDs 0 true =
      Json.num
        (canonAux fracDs.length
          (if neg then -(digsToNat (digsToNat 0 intDs) fracDs : Int)
            else (digsToNat (digsToNat 0 intDs) fracDs : Int))).1
        (canonAux fracDs.length
          (if neg then -(digsToNat (digsToNat 0 intDs) fracDs : Int)
            else (digsToNat (digsToNat 0 intDs) fracDs : Int))).2 true := by
  have hlen : ¬ ((fracDs.length : Int) ≤ 0) := by
    have : 0 < fracDs.length := List.length_pos.mpr hne
    omega
  show (if ((fracDs.length : Nat) : Int) ≤ (0 : Int) then
      Json.num
        ((if neg then -(digsToNat (digsToNat 0 intDs) fracDs : Int)
          else (digsToNat (digsToNat 0 intDs) fracDs : Int)) *
          (10 : Int) ^ ((0 : Int) - (fracDs.length : Int)).toNat) 0 true
    else
      Json.num
        (canonNum
          (if neg then -(digsToNat (digsToNat 0 intDs) fracDs : Int)
            else (digsToNat (digsToNat 0 intDs) fracDs : Int))
          (((fracDs.length : Int) - 0).toNat)).1
        (canonNum
          (if neg then -(digsToNat (digsToNat 0 intDs) fracDs : Int)
            else (digsToNat (digsToNat 0 intDs) fracDs : Int))
          (((fracDs.length : Int) - 0).toNat)).2 true) = _
  rw [if_neg hlen]
  have htn : (((fracDs.length : Int) - 0).toNat) = fracDs.length := by omega
  rw [htn]
  rfl

theorem isDigit_ne_dash (c : Char) (h : isDigit c = true) : c ≠ '-' := by
  intro hc
  subst hc
  exact absurd h (by decide)

theorem natStr_lead (m : Int) :
    ∃ d t, natStr m.natAbs = d :: t ∧ isDigit d = true ∧ (t = [] ∨ d ≠ '0') := by
  obtain ⟨hdig, hne, hval, hlead⟩ := natStr_spec m.natAbs
  by_cases hm : m.natAbs = 0
  · rw [hm]
    exact ⟨'0', [], rfl, by decide, Or.inl rfl⟩
  · obtain ⟨d, t, hdt, hdd, hd0⟩ := hlead hm
    exact ⟨d, t, hdt, hdd, Or.inr hd0⟩

theorem parseNumber_int (m : Int) (rest : Str) (hstop : numStop rest = true) :
    parseNumber (dumpNum m 0 false ++ rest) = some (Json.num m 0 false, rest) := by
  obtain ⟨hdig, hne, hval, _⟩ := natStr_spec m.natAbs
  obtain ⟨d, t, hdt, hdd, hlead⟩ := natStr_lead m
  have hdump : dumpNum m 0 false = intStr m := by
    show intStr m ++ [] = intStr m
    exact List.append_nil _
  rw [hdump]
  have hbody : ∀ b : Bool, b = decide (m < 0) →
      parseNumBody b (natStr m.natAbs ++ rest) = some (Json.num m 0 false, rest) := by
    intro b hb
    rw [parseNumBody_intOnly _ _ _ hdig ⟨d, t, hdt, hlead⟩ hstop, mkNum_intOnly, hval]
    cases b
    · have hm : ¬ m < 0 := by
        intro hc
        rw [decide_eq_true hc] at hb
        cases hb
      show some (Json.num ((m.natAbs : Int)) 0 false, rest) = some (Json.num m 0 false, rest)
      have h1 : ((m.natAbs : Int)) = m := by omega
      rw [h1]
    · have hm : m < 0 := by
        by_contra hc
        rw [decide_eq_false hc] at hb
        cases hb
      show some (Json.num (-(m.natAbs : Int)) 0 false, rest) = some (Json.num m 0 false, rest)
      have h1 : -((m.natAbs : Int)) = m := by omega
      rw [h1]
  by_cases hm : m < 0
  · have hint : intStr m = '-' :: natStr m.natAbs := by
      unfold intStr
      rw [if_pos hm]
    rw [hint, List.cons_append, parseNumber_neg]
    exact hbody true (by rw [decide_eq_true hm])
  · have hint : intStr m = natStr m.natAbs := by
      unfold intStr
      rw [if_neg hm]
    rw [hint, hdt, List.cons_append,
      parseNumber_pos d (t ++ rest) (isDigit_ne_dash d hdd),
      ← List.cons_append, ← hdt]
    exact hbody false (by rw [decide_eq_false hm])

theorem parseNumber_float_k0 (m : Int) (rest : Str) (hstop : numStop rest = true) :
    parseNumber (dumpNum m 0 true ++ rest) = some (Json.num m 0 true, rest) := by
  obtain ⟨hdig, hne, hval, _⟩ := natStr_spec m.natAbs
  obtain ⟨d, t, hdt, hdd, hlead⟩ := natStr_lead m
  have hdump : dumpNum m 0 true = intStr m ++ ['.', '0'] := rfl
  rw [hdump, List.append_assoc]
  have hca : (['.', '0'] : Str) ++ rest = '.' :: ('0' :: rest) := rfl
  rw [hca]
  have hfdig : ∀ c ∈ ['0'], isDigit c = true := by
    intro c hc
    rcases List.mem_singleton.mp hc with rfl
    decide
  have hbody : ∀ b : Bool, b = decide (m < 0) →
      parseNumBody b (natStr m.natAbs ++ '.' :: ('0' :: rest)) =
        some (Json.num m 0 true, rest) := by
    intro b hb
    have hin : natStr m.natAbs ++ '.' :: ('0' :: rest) =
        natStr m.natAbs ++ '.' :: (['0'] ++ rest) := rfl
    rw [hin, parseNumBody_frac b _ _ _ hdig ⟨d, t, hdt, hlead⟩ (by decide) hfdig hstop,
      mkNum_frac0 b _ _ (by decide)]
    have hmag : digsToNat (digsToNat 0 (natStr m.natAbs)) ['0'] = m.natAbs * 10 := by
      show digsToNat 0 (natStr m.natAbs) * 10 + digVal '0' = m.natAbs * 10
      rw [hval]
      have h0 : digVal '0' = 0 := rfl
      rw [h0]
      omega
    rw [hmag]
    cases b
    · have hm : ¬ m < 0 := by
        intro hc
        rw [decide_eq_true hc] at hb
        cases hb
      show some (Json.num (canonAux 1 ((m.natAbs * 10 : Nat) : Int)).1
        (canonAux 1 ((m.natAbs * 10 : Nat) : Int)).2 true, rest) = _
      have h1 : ((m.natAbs * 10 : Nat) : Int) = m * 10 := by
        omega
      rw [h1, canonAux_one_mul10]
    · have hm : m < 0 := by
        by_contra hc
        rw [decide_eq_false hc] at hb
        cases hb
      show some (Json.num (canonAux 1 (-((m.natAbs * 10 : Nat) : Int))).1
        (canonAux 1 (-((m.natAbs * 10 : Nat) : Int))).2 true, rest) = _
      have h1 : -((m.natAbs * 10 : Nat) : Int) = m * 10 := by
        omega
      rw [h1, canonAux_one_mul10]
  by_cases hm : m < 0
  · have hint : intStr m = '-' :: natStr m.natAbs := by
      unfold intStr
      rw [if_pos hm]
    rw [hint, List.cons_append, parseNumber_neg]
    exact hbody true (by rw [decide_eq_true hm])
  · have hint : intStr m = natStr m.natAbs := by
      unfold intStr
      rw [if_neg hm]
    rw [hint, hdt, List.cons_append,
      parseNumber_pos d (t ++ ('.' :: ('0' :: rest))) (isDigit_ne_dash d hdd),
      ← List.cons_append, ← hdt]
    exact hbody false (by rw [decide_eq_false hm])

theorem parseNumber_glue (m : Int) (body : Str) (res : Json) (rest : Str)
    (hhead : ∃ d t, body = d :: t ∧ isDigit d = true)
    (hbody : ∀ b : Bool, b = decide (m < 0) →
      parseNumBody b (body ++ rest) = some (res, rest)) :
    parseNumber ((if m < 0 then ['-'] else []) ++ (body ++ rest)) = some (res, rest) := by
  obtain ⟨d, t, rfl, hdd⟩ := hhead
  by_cases hm : m < 0
  · rw [if_pos hm,
      show (['-'] : Str) ++ ((d :: t) ++ rest) = '-' :: ((d :: t) ++ rest) from rfl,
      parseNumber_neg]
    exact hbody true (by rw [decide_eq_true hm])
  · rw [if_neg hm,
      show ([] : Str) ++ ((d :: t) ++ rest) = d :: (t ++ rest) from rfl,
      parseNumber_pos d (t ++ rest) (isDigit_ne_dash d hdd)]
    exact hbody false (by rw [decide_eq_false hm])

theorem parseNumber_float_kpos (m : Int) (k' : Nat) (hm0 : m ≠ 0) (hmod : m % 10 ≠ 0)
    (rest : Str) (hstop : numStop rest = true) :
    parseNumber (dumpNum m (k' + 1) true ++ rest) = some (Json.num m (k' + 1) true, rest) := by
  obtain ⟨hdig, hne, hval, hlead0⟩ := natStr_spec m.natAbs
  have hna : m.natAbs ≠ 0 := by omega
  obtain ⟨d, t, hdt, hdd, hd0⟩ := hlead0 hna
  have hdump : dumpNum m (k' + 1) true =
      (if (natStr m.natAbs).length ≤ k' + 1 then
        (if m < 0 then ['-'] else []) ++
          ('0' :: '.' :: (List.replicate (k' + 1 - (natStr m.natAbs).length) '0' ++
            natStr m.natAbs))
      else
        (if m < 0 then ['-'] else []) ++
          ((natStr m.natAbs).take ((natStr m.natAbs).length - (k' + 1)) ++
            '.' :: (natStr m.natAbs).drop ((natStr m.natAbs).length - (k' + 1)))) := rfl
  rw [hdump]
  by_cases hLk : (natStr m.natAbs).length ≤ k' + 1
  · rw [if_pos hLk, List.append_assoc]
    have hfne : List.replicate (k' + 1 - (natStr m.natAbs).length) '0' ++
        natStr m.natAbs ≠ [] := by
      intro h
      rcases List.append_eq_nil.mp h with ⟨_, h2⟩
      exact hne h2
    have hfdig : ∀ c ∈ List.replicate (k' + 1 - (natStr m.natAbs).length) '0' ++
        natStr m.natAbs, isDigit c = true := by
      intro c hc
      rcases List.mem_append.mp hc with hc1 | hc2
      · rw [List.eq_of_mem_replicate hc1]
        decide
      · exact hdig c hc2
    refine parseNumber_glue m _ _ rest ⟨'0', _, rfl, by decide⟩ ?_
    intro b hb
    rw [show (('0' :: '.' :: (List.replicate (k' + 1 - (natStr m.natAbs).length) '0' ++
        natStr m.natAbs)) : Str) ++ rest =
      ['0'] ++ '.' :: ((List.replicate (k' + 1 - (natStr m.natAbs).length) '0' ++
        natStr m.natAbs) ++ rest) from rfl]
    rw [parseNumBody_frac b ['0'] _ rest
      (by intro c hc; rcases List.mem_singleton.mp hc with rfl; decide)
      ⟨'0', [], rfl, Or.inl rfl⟩ hfne hfdig hstop]
    rw [mkNum_frac0 b _ _ hfne]
    have hmag : digsToNat (digsToNat 0 ['0'])
        (List.replicate (k' + 1 - (natStr m.natAbs).length) '0' ++ natStr m.natAbs) =
        m.natAbs := by
      show digsToNat 0
        (List.replicate (k' + 1 - (natStr m.natAbs).length) '0' ++ natStr m.natAbs) =
        m.natAbs
      rw [digsToNat_append, digsToNat_zeros, Nat.zero_mul]
      exact hval
    have hflen : (List.replicate (k' + 1 - (natStr m.natAbs).length) '0' ++
        natStr m.natAbs).length = k' + 1 := by
      rw [List.length_append, List.length_replicate]
      omega
    rw [hmag, hflen]
    have hbm : (if b = true then -((m.natAbs : Int)) else ((m.natAbs : Int))) = m := by
      cases b
      · have hm2 : ¬ m < 0 := by
          intro hc
          rw [decide_eq_true hc] at hb
          cases hb
        show ((m.natAbs : Int)) = m
        omega
      · have hm2 : m < 0 := by
          by_contra hc
          rw [decide_eq_false hc] at hb
          cases hb
        show -((m.natAbs : Int)) = m
        omega
    rw [hbm, canonAux_stay k' m hmod]
  · rw [if_neg hLk, List.append_assoc]
    have hLgt : k' + 1 < (natStr m.natAbs).length := by omega
    obtain ⟨n', hn'⟩ : ∃ n', (natStr m.natAbs).length - (k' + 1) = n' + 1 :=
      ⟨(natStr m.natAbs).length - (k' + 1) - 1, by omega⟩
    have htk : (natStr m.natAbs).take ((natStr m.natAbs).length - (k' + 1)) =
        d :: t.take n' := by
      rw [hn', hdt, List.take_succ_cons]
    have hdrne : (natStr m.natAbs).drop ((natStr m.natAbs).length - (k' + 1)) ≠ [] := by
      intro h
      have hlen := congrArg List.length h
      rw [List.length_drop] at hlen
      simp at hlen
      omega
    have hdrdig : ∀ c ∈ (natStr m.natAbs).drop ((natStr m.natAbs).length - (k' + 1)),
        isDigit c = true := by
      intro c hc
      exact hdig c (List.drop_subset _ _ hc)
    refine parseNumber_glue m _ _ rest ⟨d, t.take n' ++
      '.' :: (natStr m.natAbs).drop ((natStr m.natAbs).length - (k' + 1)),
      by rw [htk]; rfl, hdd⟩ ?_
    intro b hb
    rw [List.append_assoc, List.cons_append]
    rw [parseNumBody_frac b _ _ rest
      (fun c hc => hdig c (List.take_subset _ _ hc))
      ⟨d, t.take n', htk, Or.inr hd0⟩ hdrne hdrdig hstop]
    rw [mkNum_frac0 b _ _ hdrne]
    have hmag : digsToNat
        (digsToNat 0 ((natStr m.natAbs).take ((natStr m.natAbs).length - (k' + 1))))
        ((natStr m.natAbs).drop ((natStr m.natAbs).length - (k' + 1))) = m.natAbs := by
      rw [← digsToNat_append, List.take_append_drop]
      exact hval
    have hflen : ((natStr m.natAbs).drop ((natStr m.natAbs).length - (k' + 1))).length =
        k' + 1 := by
      rw [List.length_drop]
      omega
    rw [hmag, hflen]
    have hbm : (if b = true then -((m.natAbs : Int)) else ((m.natAbs : Int))) = m := by
      cases b
      · have hm2 : ¬ m < 0 := by
          intro hc
          rw [decide_eq_true hc] at hb
          cases hb
        show ((m.natAbs : Int)) = m
        omega
      · have hm2 : m < 0 := by
          by_contra hc
          rw [decide_eq_false hc] at hb
          cases hb
        show -((m.natAbs : Int)) = m
        omega
    rw [hbm, canonAux_stay k' m hmod]

theorem parseNumber_dumps_num (m : Int) (k : Nat) (f : Bool)
    (hwf : wfJ (Json.num m k f) = true) (rest : Str) (hstop : numStop rest = true) :
    parseNumber (dumpNum m k f ++ rest) = some (Json.num m k f, rest) := by
  have h' : (decide (m = 0 → k = 0) && decide (k ≠ 0 → ¬ (10 : Int) ∣ m) &&
      decide (f = false → k = 0)) = true := hwf
  simp only [Bool.and_eq_true, decide_eq_true_eq] at h'
  obtain ⟨⟨h1, h2⟩, h3⟩ := h'
  cases f
  · have hk := h3 rfl
    subst hk
    exact parseNumber_int m rest hstop
  · by_cases hk : k = 0
    · subst hk
      exact parseNumber_float_k0 m rest hstop
    · obtain ⟨k', rfl⟩ : ∃ k'', k = k'' + 1 := ⟨k - 1, by omega⟩
      have hnd := h2 hk
      have hm0 : m ≠ 0 := by
        intro h0
        exact hnd (h0 ▸ dvd_zero 10)
      have hmod : m % 10 ≠ 0 := by
        intro hc
        exact hnd (Int.dvd_of_emod_eq_zero hc)
      exact parseNumber_float_kpos m k' hm0 hmod rest hstop

theorem parseStr_quote (f : Nat) (rest : Str) :
    parseStr (f + 1) ('"' :: rest) = some ([], rest) := rfl

theorem parseStr_esc_short (f : Nat) (cs : Str) :
    parseStr (f + 1) ('\\' :: '"' :: cs) =
        (parseStr f cs).map (fun p => ('"' :: p.1, p.2)) ∧
    parseStr (f + 1) ('\\' :: '\\' :: cs) =
        (parseStr f cs).map (fun p => ('\\' :: p.1, p.2)) ∧
    parseStr (f + 1) ('\\' :: '/' :: cs) =
        (parseStr f cs).map (fun p => ('/' :: p.1, p.2)) ∧
    parseStr (f + 1) ('\\' :: 'n' :: cs) =
        (parseStr f cs).map (fun p => ('\n' :: p.1, p.2)) ∧
    parseStr (f + 1) ('\\' :: 't' :: cs) =
        (parseStr f cs).map (fun p => ('\t' :: p.1, p.2)) ∧
    parseStr (f + 1) ('\\' :: 'r' :: cs) =
        (parseStr f cs).map (fun p => ('\r' :: p.1, p.2)) ∧
    parseStr (f + 1) ('\\' :: 'b' :: cs) =
        (parseStr f cs).map (fun p => (Char.ofNat 8 :: p.1, p.2)) ∧
    parseStr (f + 1) ('\\' :: 'f' :: cs) =
        (parseStr f cs).map (fun p => (Char.ofNat 12 :: p.1, p.2)) :=
  ⟨rfl, rfl, rfl, rfl, rfl, rfl, rfl, rfl⟩

theorem parseStr_step_raw (f : Nat) (c : Char) (X : Str) (hq : c ≠ '"') (hb : c ≠ '\\')
    (hc : ¬ c.toNat < 0x20) :
    parseStr (f + 1) (c :: X) = (parseStr f X).map (fun p => (c :: p.1, p.2)) := by
  show (if c = '"' then some (([] : Str), X)
    else if c = '\\' then
      match X with
      | e :: cs' =>
        if e = '"' ∨ e = '\\' ∨ e = '/' then
          (parseStr f cs').map (fun p => (e :: p.1, p.2))
        else if e = 'b' then
          (parseStr f cs').map (fun p => (Char.ofNat 8 :: p.1, p.2))
        else if e = 'f' then
          (parseStr f cs').map (fun p => (Char.ofNat 12 :: p.1, p.2))
        else if e = 'n' then
          (parseStr f cs').map (fun p => ('\n' :: p.1, p.2))
        else if e = 'r' then
          (parseStr f cs').map (fun p => ('\r' :: p.1, p.2))
        else if e = 't' then
          (parseStr f cs').map (fun p => ('\t' :: p.1, p.2))
        else if e = 'u' then
          match cs' with
          | h1 :: h2 :: h3 :: h4 :: cs'' =>
            if isHexDig h1 && isHexDig h2 && isHexDig h3 && isHexDig h4 then
              let code := ((hexVal h1 * 16 + hexVal h2) * 16 + hexVal h3) * 16 + hexVal h4
              if 0xd800 ≤ code ∧ code ≤ 0xdbff then
                match cs'' with
                | '\\' :: 'u' :: g1 :: g2 :: g3 :: g4 :: cs3 =>
                  if isHexDig g1 && isHexDig g2 && isHexDig g3 && isHexDig g4 then
                    let code2 := ((hexVal g1 * 16 + hexVal g2) * 16 + hexVal g3) * 16 + hexVal g4
                    if 0xdc00 ≤ code2 ∧ code2 ≤ 0xdfff then
                      let comb := 0x10000 + (code - 0xd800) * 0x400 + (code2 - 0xdc00)
                      (parseStr f cs3).map (fun p => (Char.ofNat comb :: p.1, p.2))
                    else (parseStr f cs'').map (fun p => (Char.ofNat code :: p.1, p.2))
                  else (parseStr f cs'').map (fun p => (Char.ofNat code :: p.1, p.2))
                | _ => (parseStr f cs'').map (fun p => (Char.ofNat code :: p.1, p.2))
              else (parseStr f cs'').map (fun p => (Char.ofNat code :: p.1, p.2))
            else none
          | _ => none
        else none
      | [] => none
    else if c.toNat < 0x20 then none
    else (parseStr f X).map (fun p => (c :: p.1, p.2))) =
    (parseStr f X).map (fun p => (c :: p.1, p.2))
  rw [if_neg hq, if_neg hb, if_neg hc]

theorem hexVal_lt16 (c : Char) (h : isHexDig c = true) : hexVal c < 16 := by
  have h' : ((48 ≤ c.toNat && c.toNat ≤ 57) || (97 ≤ c.toNat && c.toNat ≤ 102) ||
      (65 ≤ c.toNat && c.toNat ≤ 70)) = true := h
  simp only [Bool.or_eq_true, Bool.and_eq_true, decide_eq_true_eq] at h'
  unfold hexVal
  split
  · omega
  · split
    · omega
    · omega

theorem parseStr_esc_u00 (f : Nat) (hi lo : Char) (cs : Str)
    (hhi : isHexDig hi = true) (hlo : isHexDig lo = true) :
    parseStr (f + 1) ('\\' :: 'u' :: '0' :: '0' :: hi :: lo :: cs) =
      (parseStr f cs).map (fun p =>
        (Char.ofNat (((hexVal '0' * 16 + hexVal '0') * 16 + hexVal hi) * 16 + hexVal lo) ::
          p.1, p.2)) := by
  show (if isHexDig '0' && isHexDig '0' && isHexDig hi && isHexDig lo then
      let code := ((hexVal '0' * 16 + hexVal '0') * 16 + hexVal hi) * 16 + hexVal lo
      if 0xd800 ≤ code ∧ code ≤ 0xdbff then
        match cs with
        | '\\' :: 'u' :: g1 :: g2 :: g3 :: g4 :: cs3 =>
          if isHexDig g1 && isHexDig g2 && isHexDig g3 && isHexDig g4 then
            let code2 := ((hexVal g1 * 16 + hexVal g2) * 16 + hexVal g3) * 16 + hexVal g4
            if 0xdc00 ≤ code2 ∧ code2 ≤ 0xdfff then
              let comb := 0x10000 + (code - 0xd800) * 0x400 + (code2 - 0xdc00)
              (parseStr f cs3).map (fun p => (Char.ofNat comb :: p.1, p.2))
            else (parseStr f cs).map (fun p => (Char.ofNat code :: p.1, p.2))
          else (parseStr f cs).map (fun p => (Char.ofNat code :: p.1, p.2))
        | _ => (parseStr f cs).map (fun p => (Char.ofNat code :: p.1, p.2))
      else (parseStr f cs).map (fun p => (Char.ofNat code :: p.1, p.2))
    else none) =
    (parseStr f cs).map (fun p =>
      (Char.ofNat (((hexVal '0' * 16 + hexVal '0') * 16 + hexVal hi) * 16 + hexVal lo) ::
        p.1, p.2))
  rw [if_pos (by rw [hhi, hlo]; decide)]
  show (if 0xd800 ≤ ((hexVal '0' * 16 + hexVal '0') * 16 + hexVal hi) * 16 + hexVal lo ∧
      ((hexVal '0' * 16 + hexVal '0') * 16 + hexVal hi) * 16 + hexVal lo ≤ 0xdbff then _
    else (parseStr f cs).map (fun p =>
      (Char.ofNat (((hexVal '0' * 16 + hexVal '0') * 16 + hexVal hi) * 16 + hexVal lo) ::
        p.1, p.2))) = _
  rw [if_neg ?hsur]
  case hsur =>
    have h0 : hexVal '0' = 0 := rfl
    have hA := hexVal_lt16 hi hhi
    have hB := hexVal_lt16 lo hlo
    intro hcon
    obtain ⟨hc1, _⟩ := hcon
    rw [h0] at hc1
    omega

theorem isHexDig_digChar16 (n : Nat) (h : n < 16) : isHexDig (digChar16 n) = true := by
  interval_cases n <;> decide

theorem hexVal_digChar16 (n : Nat) (h : n < 16) : hexVal (digChar16 n) = n := by
  interval_cases n <;> decide

theorem escString_cons (c : Char) (cs : Str) :
    escString (c :: cs) =
      (if c = '"' then '\\' :: '"' :: escString cs
      else if c = '\\' then '\\' :: '\\' :: escString cs
      else if c = '\n' then '\\' :: 'n' :: escString cs
      else if c = '\t' then '\\' :: 't' :: escString cs
      else if c = '\r' then '\\' :: 'r' :: escString cs
      else if c.toNat < 0x20 then
        '\\' :: 'u' :: '0' :: '0' :: digChar16 (c.toNat / 16) ::
          digChar16 (c.toNat % 16) :: escString cs
      else c :: escString cs) := rfl

theorem parseStr_escString (s : Str) : ∀ (f : Nat) (rest : Str), s.length < f →
    parseStr f (escString s ++ '"' :: rest) = some (s, rest) := by
  induction s with
  | nil =>
    intro f rest h
    obtain ⟨f', rfl⟩ : ∃ f', f = f' + 1 := ⟨f - 1, by omega⟩
    show parseStr (f' + 1) ('"' :: rest) = some ([], rest)
    exact parseStr_quote f' rest
  | cons c cs ih =>
    intro f rest h
    obtain ⟨f', rfl⟩ : ∃ f', f = f' + 1 := ⟨f - 1, by omega⟩
    have hcs : cs.length < f' := by
      rw [List.length_cons] at h
      omega
    rw [escString_cons]
    by_cases h1 : c = '"'
    · subst h1
      rw [if_pos rfl,
        show (('\\' :: '"' :: escString cs) : Str) ++ '"' :: rest =
          '\\' :: '"' :: (escString cs ++ '"' :: rest) from rfl,
        (parseStr_esc_short f' (escString cs ++ '"' :: rest)).1, ih f' rest hcs]
      rfl
    · rw [if_neg h1]
      by_cases h2 : c = '\\'
      · subst h2
        rw [if_pos rfl,
          show (('\\' :: '\\' :: escString cs) : Str) ++ '"' :: rest =
            '\\' :: '\\' :: (escString cs ++ '"' :: rest) from rfl,
          (parseStr_esc_short f' (escString cs ++ '"' :: rest)).2.1, ih f' rest hcs]
        rfl
      · rw [if_neg h2]
        by_cases h3 : c = '\n'
        · subst h3
          rw [if_pos rfl,
            show (('\\' :: 'n' :: escString cs) : Str) ++ '"' :: rest =
              '\\' :: 'n' :: (escString cs ++ '"' :: rest) from rfl,
            (parseStr_esc_short f' (escString cs ++ '"' :: rest)).2.2.2.1, ih f' rest hcs]
          rfl
        · rw [if_neg h3]
          by_cases h4 : c = '\t'
          · subst h4
            rw [if_pos rfl,
              show (('\\' :: 't' :: escString cs) : Str) ++ '"' :: rest =
                '\\' :: 't' :: (escString cs ++ '"' :: rest) from rfl,
              (parseStr_esc_short f' (escString cs ++ '"' :: rest)).2.2.2.2.1,
              ih f' rest hcs]
            rfl
          · rw [if_neg h4]
            by_cases h5 : c = '\r'
            · subst h5
              rw [if_pos rfl,
                show (('\\' :: 'r' :: escString cs) : Str) ++ '"' :: rest =
                  '\\' :: 'r' :: (escString cs ++ '"' :: rest) from rfl,
                (parseStr_esc_short f' (escString cs ++ '"' :: rest)).2.2.2.2.2.1,
                ih f' rest hcs]
              rfl
            · rw [if_neg h5]
              by_cases h6 : c.toNat < 0x20
              · rw [if_pos h6,
                  show (('\\' :: 'u' :: '0' :: '0' :: digChar16 (c.toNat / 16) ::
                      digChar16 (c.toNat % 16) :: escString cs) : Str) ++ '"' :: rest =
                    '\\' :: 'u' :: '0' :: '0' :: digChar16 (c.toNat / 16) ::
                      digChar16 (c.toNat % 16) :: (escString cs ++ '"' :: rest) from rfl,
                  parseStr_esc_u00 f' _ _ _ (isHexDig_digChar16 _ (by omega))
                    (isHexDig_digChar16 _ (by omega)), ih f' rest hcs]
                simp only [Option.map_some']
                have hcode : ((hexVal '0' * 16 + hexVal '0') * 16 +
                    hexVal (digChar16 (c.toNat / 16))) * 16 +
                    hexVal (digChar16 (c.toNat % 16)) = c.toNat := by
                  rw [hexVal_digChar16 _ (by omega), hexVal_digChar16 _ (by omega)]
                  have h0 : hexVal '0' = 0 := rfl
                  rw [h0]
                  omega
                rw [hcode, Char.ofNat_toNat]
              · rw [if_neg h6,
                  show ((c :: escString cs) : Str) ++ '"' :: rest =
                    c :: (escString cs ++ '"' :: rest) from rfl,
                  parseStr_step_raw f' c _ h1 h2 h6, ih f' rest hcs]
                rfl

theorem escString_len_ge : ∀ s : Str, s.length ≤ (escString s).length
  | [] => Nat.le_refl 0
  | c :: cs => by
    have ih := escString_len_ge cs
    rw [escString_cons]
    repeat' split
    all_goals simp only [List.length_cons, List.length_nil]
    all_goals omega

theorem parseVal_null (f : Nat) (rest : Str) :
    parseVal (f + 1) (toL "null" ++ rest) = some (Json.null, rest) := by
  cases rest <;> rfl

theorem parseVal_true (f : Nat) (rest : Str) :
    parseVal (f + 1) (toL "true" ++ rest) = some (Json.bool true, rest) := by
  cases rest <;> rfl

theorem parseVal_false (f : Nat) (rest : Str) :
    parseVal (f + 1) (toL "false" ++ rest) = some (Json.bool false, rest) := by
  cases rest <;> rfl

theorem parseVal_arrnil (f : Nat) (rest : Str) :
    parseVal (f + 1) (toL "[]" ++ rest) = some (Json.arr .nil, rest) := rfl

theorem parseVal_objnil (f : Nat) (rest : Str) :
    parseVal (f + 1) (dumps (Json.obj .nil) ++ rest) = some (Json.obj .nil, rest) := by
  cases rest <;> rfl

theorem parseVal_str (f : Nat) (X : Str) :
    parseVal (f + 1) ('"' :: X) = (parseStr f X).map (fun p => (Json.str p.1, p.2)) := rfl

theorem dumps_arr_cons (x : Json) (xs : JsonList) :
    dumps (Json.arr (.cons x xs)) = '[' :: (dumps x ++ dumpsArrTail xs ++ [']']) := rfl

theorem dumps_obj_cons (k : Str) (v : Json) (fs : JsonFields) :
    dumps (Json.obj (.cons k v fs)) =
      Char.ofNat 0x7b :: (dumpPair k v ++ dumpsObjTail fs ++ [Char.ofNat 0x7d]) := rfl

theorem dumpsArrTail_cons (x : Json) (xs : JsonList) :
    dumpsArrTail (.cons x xs) = ',' :: ' ' :: (dumps x ++ dumpsArrTail xs) := rfl

theorem dumpsObjTail_cons (k : Str) (v : Json) (fs : JsonFields) :
    dumpsObjTail (.cons k v fs) = ',' :: ' ' :: (dumpPair k v ++ dumpsObjTail fs) := rfl

theorem parseVal_arr (f : Nat) (s : Str) :
    parseVal (f + 1) ('[' :: s) =
      (match skipWs s with
      | ']' :: r => some (Json.arr .nil, r)
      | s1 => (parseElems f s1).map (fun p => (Json.arr p.1, p.2))) := rfl

theorem parseVal_obj (f : Nat) (s : Str) :
    parseVal (f + 1) (Char.ofNat 0x7b :: s) =
      (match skipWs s with
      | '}' :: r => some (Json.obj .nil, r)
      | s1 => (parseMembers f s1).map (fun p => (Json.obj p.1, p.2))) := rfl

theorem parseVal_other (f : Nat) (c : Char) (s : Str) (h1 : c ≠ '{') (h2 : c ≠ '[')
    (h3 : c ≠ '"') (h4 : c ≠ 't') (h5 : c ≠ 'f') (h6 : c ≠ 'n') :
    parseVal (f + 1) (c :: s) = parseNumber (c :: s) := by
  have ht : (toL "true").isPrefixOf (c :: s) = false := by
    show ('t' == c && List.isPrefixOf ['r', 'u', 'e'] s) = false
    rw [beq_eq_false_iff_ne.mpr (Ne.symm h4), Bool.false_and]
  have hf : (toL "false").isPrefixOf (c :: s) = false := by
    show ('f' == c && List.isPrefixOf ['a', 'l', 's', 'e'] s) = false
    rw [beq_eq_false_iff_ne.mpr (Ne.symm h5), Bool.false_and]
  have hn : (toL "null").isPrefixOf (c :: s) = false := by
    show ('n' == c && List.isPrefixOf ['u', 'l', 'l'] s) = false
    rw [beq_eq_false_iff_ne.mpr (Ne.symm h6), Bool.false_and]
  simp only [parseVal]
  rw [if_neg h1, if_neg h2, if_neg h3,
    if_neg (by intro hcon; rw [ht] at hcon; exact Bool.noConfusion hcon),
    if_neg (by intro hcon; rw [hf] at hcon; exact Bool.noConfusion hcon),
    if_neg (by intro hcon; rw [hn] at hcon; exact Bool.noConfusion hcon)]

theorem skipWs_cons_nws (c : Char) (s : Str) (h : isJsonWs c = false) :
    skipWs (c :: s) = c :: s := by
  show (if isJsonWs c = true then skipWs s else c :: s) = c :: s
  rw [h]
  rw [if_neg Bool.false_ne_true]

theorem isDigit_not_ws (c : Char) (h : isDigit c = true) : isJsonWs c = false := by
  by_contra hcon
  have hw : isJsonWs c = true := by
    revert hcon
    cases isJsonWs c <;> simp
  have h' : (decide (c = ' ') || decide (c = '\t') || decide (c = '\n') ||
      decide (c = '\r')) = true := hw
  simp only [Bool.or_eq_true, decide_eq_true_eq] at h'
  rcases h' with ((rfl | rfl) | rfl) | rfl <;> exact absurd h (by decide)

theorem isDigit_ne_rbrack (c : Char) (h : isDigit c = true) : c ≠ ']' := by
  intro hc
  subst hc
  exact absurd h (by decide)

theorem isDigit_ne_rbrace (c : Char) (h : isDigit c = true) : c ≠ '}' := by
  intro hc
  subst hc
  exact absurd h (by decide)

theorem dumpNum_head (m : Int) (k : Nat) (f : Bool) :
    ∃ d t, dumpNum m k f = d :: t ∧ (isDigit d = true ∨ d = '-') := by
  obtain ⟨d0, t0, hdt, hdd, _⟩ := natStr_lead m
  by_cases hk : k = 0
  · subst hk
    show ∃ d t, intStr m ++ (if f = true then toL ".0" else []) = d :: t ∧
      (isDigit d = true ∨ d = '-')
    by_cases hm : m < 0
    · refine ⟨'-', natStr m.natAbs ++ (if f = true then toL ".0" else []), ?_, Or.inr rfl⟩
      rw [show intStr m = '-' :: natStr m.natAbs from by unfold intStr; rw [if_pos hm],
        List.cons_append]
    · refine ⟨d0, t0 ++ (if f = true then toL ".0" else []), ?_, Or.inl hdd⟩
      rw [show intStr m = natStr m.natAbs from by unfold intStr; rw [if_neg hm], hdt,
        List.cons_append]
  · obtain ⟨k', rfl⟩ : ∃ k'', k = k'' + 1 := ⟨k - 1, by omega⟩
    have hdump : dumpNum m (k' + 1) f =
        (if (natStr m.natAbs).length ≤ k' + 1 then
          (if m < 0 then ['-'] else []) ++
            ('0' :: '.' :: (List.replicate (k' + 1 - (natStr m.natAbs).length) '0' ++
              natStr m.natAbs))
        else
          (if m < 0 then ['-'] else []) ++
            ((natStr m.natAbs).take ((natStr m.natAbs).length - (k' + 1)) ++
              '.' :: (natStr m.natAbs).drop ((natStr m.natAbs).length - (k' + 1)))) := rfl
    rw [hdump]
    by_cases hL : (natStr m.natAbs).length ≤ k' + 1
    · rw [if_pos hL]
      by_cases hm : m < 0
      · rw [if_pos hm]
        exact ⟨'-', _, rfl, Or.inr rfl⟩
      · rw [if_neg hm]
        exact ⟨'0', _, rfl, Or.inl (by decide)⟩
    · rw [if_neg hL]
      by_cases hm : m < 0
      · rw [if_pos hm]
        exact ⟨'-', _, rfl, Or.inr rfl⟩
      · rw [if_neg hm]
        obtain ⟨n', hn'⟩ : ∃ n', (natStr m.natAbs).length - (k' + 1) = n' + 1 :=
          ⟨(natStr m.natAbs).length - (k' + 1) - 1, by omega⟩
        rw [hn', hdt, List.take_succ_cons]
        exact ⟨d0, List.take n' t0 ++ '.' :: List.drop (n' + 1) (d0 :: t0), rfl,
          Or.inl hdd⟩

theorem dumps_head (v : Json) :
    ∃ d t, dumps v = d :: t ∧ isJsonWs d = false ∧ d ≠ ']' ∧ d ≠ '}' := by
  cases v with
  | null => exact ⟨'n', ['u', 'l', 'l'], rfl, by decide, by decide, by decide⟩
  | bool b =>
    cases b
    · exact ⟨'f', ['a', 'l', 's', 'e'], rfl, by decide, by decide, by decide⟩
    · exact ⟨'t', ['r', 'u', 'e'], rfl, by decide, by decide, by decide⟩
  | num m k f =>
    obtain ⟨d, t, hdt, hd⟩ := dumpNum_head m k f
    refine ⟨d, t, hdt, ?_, ?_, ?_⟩
    · rcases hd with hdig | rfl
      · exact isDigit_not_ws d hdig
      · decide
    · rcases hd with hdig | rfl
      · exact isDigit_ne_rbrack d hdig
      · decide
    · rcases hd with hdig | rfl
      · exact isDigit_ne_rbrace d hdig
      · decide
  | str s => exact ⟨'"', escString s ++ ['"'], rfl, by decide, by decide, by decide⟩
  | arr xs =>
    cases xs with
    | nil => exact ⟨'[', [']'], rfl, by decide, by decide, by decide⟩
    | cons x xs' =>
      exact ⟨'[', dumps x ++ dumpsArrTail xs' ++ [']'], rfl, by decide, by decide, by decide⟩
  | obj fs =>
    cases fs with
    | nil => exact ⟨Char.ofNat 0x7b, [Char.ofNat 0x7d], rfl, by decide, by decide, by decide⟩
    | cons k v fs' =>
      exact ⟨Char.ofNat 0x7b, dumpPair k v ++ dumpsObjTail fs' ++ [Char.ofNat 0x7d], rfl,
        by decide, by decide, by decide⟩

theorem skipWs_dumps (v : Json) (X : Str) : skipWs (dumps v ++ X) = dumps v ++ X := by
  obtain ⟨d, t, hdt, hws, _, _⟩ := dumps_head v
  rw [hdt, List.cons_append, skipWs_cons_nws d _ hws]

theorem skipWs_cons_ws (c : Char) (s : Str) (h : isJsonWs c = true) :
    skipWs (c :: s) = skipWs s := by
  show (if isJsonWs c = true then skipWs s else c :: s) = skipWs s
  rw [if_pos h]

theorem dumps_len_pos (v : Json) : 0 < (dumps v).length := by
  obtain ⟨d, t, hdt, _⟩ := dumps_head v
  rw [hdt]
  simp

theorem notKey_of_nodup (k : Str) (v : Json) (fs : JsonFields)
    (h : keysNodup (.cons k v fs) = true) : lookupF k fs = none := by
  have h' : (!(hasKeyF k fs) && keysNodup fs) = true := h
  simp only [Bool.and_eq_true, Bool.not_eq_true'] at h'
  have h2 : (lookupF k fs).isSome = false := h'.1
  cases hl : lookupF k fs
  · rfl
  · rw [hl] at h2
    cases h2

theorem match_arr_branch (f : Nat) (d : Char) (t : Str) (hd : d ≠ ']') :
    (match (d :: t : Str) with
    | ']' :: r => some (Json.arr .nil, r)
    | s1 => (parseElems f s1).map (fun p => (Json.arr p.1, p.2))) =
      (parseElems f (d :: t)).map (fun p => (Json.arr p.1, p.2)) := by
  split
  · rename_i r heq
    injection heq with h1 _
    exact absurd h1 hd
  · rfl

theorem match_obj_branch (f : Nat) (d : Char) (t : Str) (hd : d ≠ '}') :
    (match (d :: t : Str) with
    | '}' :: r => some (Json.obj .nil, r)
    | s1 => (parseMembers f s1).map (fun p => (Json.obj p.1, p.2))) =
      (parseMembers f (d :: t)).map (fun p => (Json.obj p.1, p.2)) := by
  split
  · rename_i r heq
    injection heq with h1 _
    exact absurd h1 hd
  · rfl

theorem num_head_conds (d : Char) (hd : isDigit d = true ∨ d = '-') :
    d ≠ '{' ∧ d ≠ '[' ∧ d ≠ '"' ∧ d ≠ 't' ∧ d ≠ 'f' ∧ d ≠ 'n' := by
  rcases hd with hdig | rfl
  · refine ⟨?_, ?_, ?_, ?_, ?_, ?_⟩ <;>
      (intro hc; subst hc; exact absurd hdig (by decide))
  · refine ⟨by decide, by decide, by decide, by decide, by decide, by decide⟩

theorem dumpPair_len (k : Str) (v : Json) :
    (dumpPair k v).length = (escString k).length + (dumps v).length + 4 := by
  show ('"' :: (escString k ++ '"' :: ':' :: ' ' :: dumps v)).length = _
  simp only [List.length_cons, List.length_append]
  omega

theorem parse_dumps_rt (fuel : Nat) :
    (∀ v rest, wfJ v = true → numStop rest = true → (dumps v).length < fuel →
      parseVal fuel (dumps v ++ rest) = some (v, rest)) ∧
    (∀ x xs rest, wfJ x = true → wfL xs = true → numStop rest = true →
      (dumps x ++ dumpsArrTail xs).length + 1 < fuel →
      parseElems fuel (dumps x ++ (dumpsArrTail xs ++ ']' :: rest)) =
        some (JsonList.cons x xs, rest)) ∧
    (∀ k v fs rest, keysNodup (JsonFields.cons k v fs) = true →
      wfF (JsonFields.cons k v fs) = true → numStop rest = true →
      (dumpPair k v ++ dumpsObjTail fs).length + 1 < fuel →
      parseMembers fuel (dumpPair k v ++ (dumpsObjTail fs ++ Char.ofNat 0x7d :: rest)) =
        some (JsonFields.cons k v fs, rest)) := by
  induction fuel with
  | zero =>
    refine ⟨?_, ?_, ?_⟩
    · intro v rest _ _ hf
      omega
    · intro x xs rest _ _ _ hf
      omega
    · intro k v fs rest _ _ _ hf
      omega
  | succ f ih =>
    obtain ⟨ihV, ihL, ihF⟩ := ih
    have hV : ∀ v rest, wfJ v = true → numStop rest = true →
        (dumps v).length < f + 1 →
        parseVal (f + 1) (dumps v ++ rest) = some (v, rest) := by
      intro v rest hwf hstop hfuel
      cases v with
      | null => exact parseVal_null f rest
      | bool b =>
        cases b
        · exact parseVal_false f rest
        · exact parseVal_true f rest
      | num m k fb =>
        obtain ⟨d, t, hdt, hd⟩ := dumpNum_head m k fb
        obtain ⟨c1, c2, c3, c4, c5, c6⟩ := num_head_conds d hd
        rw [show dumps (Json.num m k fb) = dumpNum m k fb from rfl, hdt, List.cons_append,
          parseVal_other f d _ c1 c2 c3 c4 c5 c6, ← List.cons_append, ← hdt]
        exact parseNumber_dumps_num m k fb hwf rest hstop
      | str s =>
        rw [show dumps (Json.str s) = '"' :: (escString s ++ ['"']) from rfl,
          List.cons_append, parseVal_str, List.append_assoc,
          show (['"'] : Str) ++ rest = '"' :: rest from rfl]
        have hlen : s.length < f := by
          have h1 : (dumps (Json.str s)).length = (escString s).length + 2 := by
            show ('"' :: (escString s ++ ['"'])).length = _
            simp [List.length_cons, List.length_append]
          have h2 := escString_len_ge s
          omega
        rw [parseStr_escString s f rest hlen]
        rfl
      | arr xs =>
        cases xs with
        | nil => exact parseVal_arrnil f rest
        | cons x xs' =>
          have hwf' : (wfJ x && wfL xs') = true := hwf
          simp only [Bool.and_eq_true] at hwf'
          obtain ⟨hx, hxs⟩ := hwf'
          rw [dumps_arr_cons, List.cons_append, parseVal_arr]
          have hs : (dumps x ++ dumpsArrTail xs' ++ [']']) ++ rest =
              dumps x ++ (dumpsArrTail xs' ++ ']' :: rest) := by
            simp only [List.append_assoc, List.singleton_append]
          rw [hs, skipWs_dumps x (dumpsArrTail xs' ++ ']' :: rest)]
          obtain ⟨dx, tx, hdx, _, hdxne, _⟩ := dumps_head x
          have hfuel2 : (dumps x ++ dumpsArrTail xs').length + 1 < f := by
            have h1 : (dumps (Json.arr (JsonList.cons x xs'))).length =
                (dumps x ++ dumpsArrTail xs').length + 2 := by
              rw [dumps_arr_cons]
              simp [List.length_cons, List.length_append]
              omega
            omega
          rw [hdx, List.cons_append]
          split
          · rename_i r heq
            injection heq with h1 _
            exact absurd h1 hdxne
          · rw [← List.cons_append, ← hdx, ihL x xs' rest hx hxs hstop hfuel2]
            rfl
      | obj fs =>
        cases fs with
        | nil => exact parseVal_objnil f rest
        | cons k v fs' =>
          have hwf' : (keysNodup (JsonFields.cons k v fs') &&
              wfF (JsonFields.cons k v fs')) = true := hwf
          simp only [Bool.and_eq_true] at hwf'
          obtain ⟨hnd, hwff⟩ := hwf'
          rw [dumps_obj_cons, List.cons_append, parseVal_obj]
          have hs : (dumpPair k v ++ dumpsObjTail fs' ++ [Char.ofNat 0x7d]) ++ rest =
              dumpPair k v ++ (dumpsObjTail fs' ++ Char.ofNat 0x7d :: rest) := by
            simp only [List.append_assoc, List.singleton_append]
          rw [hs]
          have hdpr : dumpPair k v ++ (dumpsObjTail fs' ++ Char.ofNat 0x7d :: rest) =
              '"' :: ((escString k ++ '"' :: ':' :: ' ' :: dumps v) ++
                (dumpsObjTail fs' ++ Char.ofNat 0x7d :: rest)) := rfl
          have hfuel2 : (dumpPair k v ++ dumpsObjTail fs').length + 1 < f := by
            have h1 : (dumps (Json.obj (JsonFields.cons k v fs'))).length =
                (dumpPair k v ++ dumpsObjTail fs').length + 2 := by
              rw [dumps_obj_cons]
              simp [List.length_cons, List.length_append]
              omega
            omega
          rw [hdpr, skipWs_cons_nws '"' _ (by decide)]
          split
          · rename_i r heq
            injection heq with h1 _
            exact absurd h1 (by decide)
          · rw [← hdpr, ihF k v fs' rest hnd hwff hstop hfuel2]
            rfl
    refine ⟨hV, ?_, ?_⟩
    · intro x xs rest hx hxs hstop hfuel
      obtain ⟨dx, tx, hdx, _, _, _⟩ := dumps_head x
      have hfx : (dumps x).length < f := by
        have := List.length_append (dumps x) (dumpsArrTail xs)
        omega
      cases xs with
      | nil =>
        rw [show dumpsArrTail JsonList.nil ++ ']' :: rest = ']' :: rest from rfl]
        rw [hdx, List.cons_append]
        simp only [parseElems]
        rw [← List.cons_append, ← hdx]
        rw [ihV x (']' :: rest) hx (by rfl) (by omega)]
        rfl
      | cons y ys =>
        have hy : wfJ y = true := by
          have h' : (wfJ y && wfL ys) = true := hxs
          simp only [Bool.and_eq_true] at h'
          exact h'.1
        have hys : wfL ys = true := by
          have h' : (wfJ y && wfL ys) = true := hxs
          simp only [Bool.and_eq_true] at h'
          exact h'.2
        have hR : dumpsArrTail (JsonList.cons y ys) ++ ']' :: rest =
            ',' :: ' ' :: (dumps y ++ (dumpsArrTail ys ++ ']' :: rest)) := by
          rw [dumpsArrTail_cons]
          simp only [List.cons_append, List.append_assoc]
        rw [hR]
        rw [hdx, List.cons_append]
        simp only [parseElems]
        rw [← List.cons_append, ← hdx]
        rw [ihV x _ hx (by rfl) (by omega)]
        show (match skipWs (',' :: ' ' :: (dumps y ++ (dumpsArrTail ys ++ ']' :: rest))) with
          | ']' :: r => some (JsonList.cons x JsonList.nil, r)
          | ',' :: r => (parseElems f (skipWs r)).map (fun p => (JsonList.cons x p.1, p.2))
          | _ => none) = some (JsonList.cons x (JsonList.cons y ys), rest)
        rw [skipWs_cons_nws ',' _ (by decide)]
        show (parseElems f (skipWs (' ' :: (dumps y ++ (dumpsArrTail ys ++ ']' :: rest))))).map
            (fun p => (JsonList.cons x p.1, p.2)) =
          some (JsonList.cons x (JsonList.cons y ys), rest)
        rw [skipWs_cons_ws ' ' _ (by decide), skipWs_dumps y _]
        have hfy : (dumps y ++ dumpsArrTail ys).length + 1 < f := by
          have h1 := List.length_append (dumps x) (dumpsArrTail (JsonList.cons y ys))
          have h2 : (dumpsArrTail (JsonList.cons y ys)).length =
              (dumps y ++ dumpsArrTail ys).length + 2 := by
            rw [dumpsArrTail_cons]
            simp [List.length_cons]
          have h3 := dumps_len_pos x
          omega
        rw [ihL y ys rest hy hys hstop hfy]
        rfl
    · intro k v fs rest hnd hwff hstop hfuel
      have hv : wfJ v = true := by
        have h' : (wfJ v && wfF fs) = true := hwff
        simp only [Bool.and_eq_true] at h'
        exact h'.1
      have hwffs : wfF fs = true := by
        have h' : (wfJ v && wfF fs) = true := hwff
        simp only [Bool.and_eq_true] at h'
        exact h'.2
      have hklen : k.length < f := by
        have h1 := dumpPair_len k v
        have h2 := escString_len_ge k
        have h3 := List.length_append (dumpPair k v) (dumpsObjTail fs)
        omega
      have hdpr : dumpPair k v ++ (dumpsObjTail fs ++ Char.ofNat 0x7d :: rest) =
          '"' :: (escString k ++ '"' ::
            (':' :: ' ' :: (dumps v ++ (dumpsObjTail fs ++ Char.ofNat 0x7d :: rest)))) := by
        show '"' :: ((escString k ++ '"' :: ':' :: ' ' :: dumps v) ++
          (dumpsObjTail fs ++ Char.ofNat 0x7d :: rest)) = _
        simp only [List.append_assoc, List.cons_append]
      rw [hdpr]
      simp only [parseMembers, if_true]
      rw [parseStr_escString k f _ hklen]
      show (match skipWs (':' :: ' ' :: (dumps v ++ (dumpsObjTail fs ++
          Char.ofNat 0x7d :: rest))) with
        | ':' :: r2 =>
          (match parseVal f (skipWs r2) with
          | some (w, r3) =>
            (match skipWs r3 with
            | '}' :: r4 => some (JsonFields.cons k w JsonFields.nil, r4)
            | ',' :: r4 =>
              (parseMembers f (skipWs r4)).map (fun p => (consPy k w p.1, p.2))
            | _ => none)
          | none => none)
        | _ => none) = some (JsonFields.cons k v fs, rest)
      rw [skipWs_cons_nws ':' _ (by decide)]
      show (match parseVal f (skipWs (' ' :: (dumps v ++ (dumpsObjTail fs ++
          Char.ofNat 0x7d :: rest)))) with
        | some (w, r3) =>
          (match skipWs r3 with
          | '}' :: r4 => some (JsonFields.cons k w JsonFields.nil, r4)
          | ',' :: r4 =>
            (parseMembers f (skipWs r4)).map (fun p => (consPy k w p.1, p.2))
          | _ => none)
        | none => none) = some (JsonFields.cons k v fs, rest)
      rw [skipWs_cons_ws ' ' _ (by decide), skipWs_dumps v _]
      have hfv : (dumps v).length < f := by
        have h1 := dumpPair_len k v
        have h2 := List.length_append (dumpPair k v) (dumpsObjTail fs)
        omega
      have hnums : ∀ gs : JsonFields,
          numStop (dumpsObjTail gs ++ Char.ofNat 0x7d :: rest) = true := by
        intro gs
        cases gs <;> rfl
      rw [ihV v _ hv (hnums fs) (by omega)]
      cases fs with
      | nil =>
        show (match skipWs (dumpsObjTail JsonFields.nil ++ Char.ofNat 0x7d :: rest) with
          | '}' :: r4 => some (JsonFields.cons k v JsonFields.nil, r4)
          | ',' :: r4 =>
            (parseMembers f (skipWs r4)).map (fun p => (consPy k v p.1, p.2))
          | _ => none) = some (JsonFields.cons k v JsonFields.nil, rest)
        rw [show dumpsObjTail JsonFields.nil ++ Char.ofNat 0x7d :: rest =
          Char.ofNat 0x7d :: rest from rfl]
        rw [skipWs_cons_nws (Char.ofNat 0x7d) _ (by decide)]
        rfl
      | cons k2 v2 fs2 =>
        have hnd2 : keysNodup (JsonFields.cons k2 v2 fs2) = true := by
          have h' : (!(hasKeyF k (JsonFields.cons k2 v2 fs2)) &&
              keysNodup (JsonFields.cons k2 v2 fs2)) = true := hnd
          simp only [Bool.and_eq_true] at h'
          exact h'.2
        have hlook : lookupF k (JsonFields.cons k2 v2 fs2) = none :=
          notKey_of_nodup k v _ hnd
        have hwff2 : wfF (JsonFields.cons k2 v2 fs2) = true := hwffs
        have hR : dumpsObjTail (JsonFields.cons k2 v2 fs2) ++ Char.ofNat 0x7d :: rest =
            ',' :: ' ' :: (dumpPair k2 v2 ++ (dumpsObjTail fs2 ++
              Char.ofNat 0x7d :: rest)) := by
          rw [dumpsObjTail_cons]
          simp only [List.cons_append, List.append_assoc]
        show (match skipWs (dumpsObjTail (JsonFields.cons k2 v2 fs2) ++
            Char.ofNat 0x7d :: rest) with
          | '}' :: r4 => some (JsonFields.cons k v JsonFields.nil, r4)
          | ',' :: r4 =>
            (parseMembers f (skipWs r4)).map (fun p => (consPy k v p.1, p.2))
          | _ => none) = some (JsonFields.cons k v (JsonFields.cons k2 v2 fs2), rest)
        rw [hR, skipWs_cons_nws ',' _ (by decide)]
        show (parseMembers f (skipWs (' ' :: (dumpPair k2 v2 ++ (dumpsObjTail fs2 ++
            Char.ofNat 0x7d :: rest))))).map (fun p => (consPy k v p.1, p.2)) =
          some (JsonFields.cons k v (JsonFields.cons k2 v2 fs2), rest)
        have hdp_head : dumpPair k2 v2 ++ (dumpsObjTail fs2 ++ Char.ofNat 0x7d :: rest) =
            '"' :: ((escString k2 ++ '"' :: ':' :: ' ' :: dumps v2) ++
              (dumpsObjTail fs2 ++ Char.ofNat 0x7d :: rest)) := rfl
        rw [skipWs_cons_ws ' ' _ (by decide), hdp_head,
          skipWs_cons_nws '"' _ (by decide), ← hdp_head]
        have hff : (dumpPair k2 v2 ++ dumpsObjTail fs2).length + 1 < f := by
          have h1 := List.length_append (dumpPair k v) (dumpsObjTail (JsonFields.cons k2 v2 fs2))
          have h2 : (dumpsObjTail (JsonFields.cons k2 v2 fs2)).length =
              (dumpPair k2 v2 ++ dumpsObjTail fs2).length + 2 := by
            rw [dumpsObjTail_cons]
            simp [List.length_cons]
          have h3 := dumpPair_len k v
          omega
        rw [ihF k2 v2 fs2 rest hnd2 hwff2 hstop hff]
        show some (consPy k v (JsonFields.cons k2 v2 fs2), rest) =
          some (JsonFields.cons k v (JsonFields.cons k2 v2 fs2), rest)
        rw [consPy_of_not_mem k v _ hlook]

theorem dropEnd_last_nws (p : Char → Bool) (s : Str) (e : Char) (he : p e = false) :
    dropEnd p (s ++ [e]) = s ++ [e] := by
  unfold dropEnd
  rw [List.reverse_append,
    show ([e] : Str).reverse ++ s.reverse = e :: s.reverse from rfl,
    List.dropWhile_cons, if_neg (by rw [he]; exact Bool.false_ne_true),
    ← show ([e] : Str).reverse ++ s.reverse = e :: s.reverse from rfl,
    ← List.reverse_append, List.reverse_reverse]

theorem dumpNum_last (m : Int) (k : Nat) (f : Bool) :
    ∃ s e, dumpNum m k f = s ++ [e] ∧ isDigit e = true := by
  obtain ⟨hdig, hne, _, _⟩ := natStr_spec m.natAbs
  obtain ⟨dl, e, hds, hed⟩ : ∃ dl e, natStr m.natAbs = dl ++ [e] ∧ isDigit e = true :=
    ⟨_, _, (List.dropLast_append_getLast hne).symm,
      hdig _ (List.getLast_mem hne)⟩
  by_cases hk : k = 0
  · subst hk
    cases f
    · have hd0 : dumpNum m 0 false = intStr m := by
        show intStr m ++ [] = intStr m
        exact List.append_nil _
      rw [hd0]
      by_cases hm : m < 0
      · refine ⟨'-' :: dl, e, ?_, hed⟩
        rw [show intStr m = '-' :: natStr m.natAbs from by unfold intStr; rw [if_pos hm],
          hds]
        rfl
      · refine ⟨dl, e, ?_, hed⟩
        rw [show intStr m = natStr m.natAbs from by unfold intStr; rw [if_neg hm], hds]
    · refine ⟨intStr m ++ ['.'], '0', ?_, by decide⟩
      show intStr m ++ ['.', '0'] = (intStr m ++ ['.']) ++ ['0']
      rw [List.append_assoc]
      rfl
  · obtain ⟨k', rfl⟩ : ∃ k'', k = k'' + 1 := ⟨k - 1, by omega⟩
    have hdump : dumpNum m (k' + 1) f =
        (if (natStr m.natAbs).length ≤ k' + 1 then
          (if m < 0 then ['-'] else []) ++
            ('0' :: '.' :: (List.replicate (k' + 1 - (natStr m.natAbs).length) '0' ++
              natStr m.natAbs))
        else
          (if m < 0 then ['-'] else []) ++
            ((natStr m.natAbs).take ((natStr m.natAbs).length - (k' + 1)) ++
              '.' :: (natStr m.natAbs).drop ((natStr m.natAbs).length - (k' + 1)))) := rfl
    rw [hdump]
    by_cases hL : (natStr m.natAbs).length ≤ k' + 1
    · rw [if_pos hL]
      refine ⟨(if m < 0 then ['-'] else []) ++
        ('0' :: '.' :: (List.replicate (k' + 1 - (natStr m.natAbs).length) '0' ++ dl)),
        e, ?_, hed⟩
      rw [hds]
      simp [List.append_assoc, List.cons_append]
    · rw [if_neg hL]
      have hdrne : (natStr m.natAbs).drop ((natStr m.natAbs).length - (k' + 1)) ≠ [] := by
        intro h
        have hlen := congrArg List.length h
        rw [List.length_drop] at hlen
        simp at hlen
        omega
      obtain ⟨dl2, e2, hds2, hed2⟩ : ∃ dl2 e2,
          (natStr m.natAbs).drop ((natStr m.natAbs).length - (k' + 1)) = dl2 ++ [e2] ∧
          isDigit e2 = true :=
        ⟨_, _, (List.dropLast_append_getLast hdrne).symm,
          hdig _ (List.drop_subset _ _ (List.getLast_mem hdrne))⟩
      refine ⟨(if m < 0 then ['-'] else []) ++
        ((natStr m.natAbs).take ((natStr m.natAbs).length - (k' + 1)) ++ '.' :: dl2),
        e2, ?_, hed2⟩
      rw [hds2]
      simp [List.append_assoc, List.cons_append]

theorem isDigit_not_pyws (c : Char) (h : isDigit c = true) : isPyWs c = false := by
  have h' : (48 ≤ c.toNat && c.toNat ≤ 57) = true := h
  simp only [Bool.and_eq_true, decide_eq_true_eq] at h'
  by_contra hcon
  have hpw : isPyWs c = true := by
    revert hcon
    cases isPyWs c <;> simp
  unfold isPyWs at hpw
  simp only [Bool.or_eq_true, Bool.and_eq_true, decide_eq_true_eq] at hpw
  omega

theorem dumps_head_pyws (v : Json) : ∃ d t, dumps v = d :: t ∧ isPyWs d = false := by
  cases v with
  | null => exact ⟨'n', ['u', 'l', 'l'], rfl, by decide⟩
  | bool b =>
    cases b
    · exact ⟨'f', ['a', 'l', 's', 'e'], rfl, by decide⟩
    · exact ⟨'t', ['r', 'u', 'e'], rfl, by decide⟩
  | num m k f =>
    obtain ⟨d, t, hdt, hd⟩ := dumpNum_head m k f
    refine ⟨d, t, hdt, ?_⟩
    rcases hd with hdig | rfl
    · exact isDigit_not_pyws d hdig
    · decide
  | str s => exact ⟨'"', escString s ++ ['"'], rfl, by decide⟩
  | arr xs =>
    cases xs with
    | nil => exact ⟨'[', [']'], rfl, by decide⟩
    | cons x xs' => exact ⟨'[', dumps x ++ dumpsArrTail xs' ++ [']'], rfl, by decide⟩
  | obj fs =>
    cases fs with
    | nil => exact ⟨Char.ofNat 0x7b, [Char.ofNat 0x7d], rfl, by decide⟩
    | cons k v fs' =>
      exact ⟨Char.ofNat 0x7b, dumpPair k v ++ dumpsObjTail fs' ++ [Char.ofNat 0x7d], rfl,
        by decide⟩

theorem dumps_last (v : Json) :
    ∃ s e, dumps v = s ++ [e] ∧ isJsonWs e = false ∧ isPyWs e = false := by
  cases v with
  | null => exact ⟨['n', 'u', 'l'], 'l', rfl, by decide, by decide⟩
  | bool b =>
    cases b
    · exact ⟨['f', 'a', 'l', 's'], 'e', rfl, by decide, by decide⟩
    · exact ⟨['t', 'r', 'u'], 'e', rfl, by decide, by decide⟩
  | num m k f =>
    obtain ⟨s, e, hse, he⟩ := dumpNum_last m k f
    exact ⟨s, e, hse, isDigit_not_ws e he, isDigit_not_pyws e he⟩
  | str s =>
    exact ⟨'"' :: escString s, '"', rfl, by decide, by decide⟩
  | arr xs =>
    cases xs with
    | nil => exact ⟨['['], ']', rfl, by decide, by decide⟩
    | cons x xs' =>
      refine ⟨'[' :: (dumps x ++ dumpsArrTail xs'), ']', ?_, by decide, by decide⟩
      show '[' :: ((dumps x ++ dumpsArrTail xs') ++ [']']) = _
      rfl
  | obj fs =>
    cases fs with
    | nil => exact ⟨[Char.ofNat 0x7b], Char.ofNat 0x7d, rfl, by decide, by decide⟩
    | cons k v fs' =>
      refine ⟨Char.ofNat 0x7b :: (dumpPair k v ++ dumpsObjTail fs'), Char.ofNat 0x7d, ?_,
        by decide, by decide⟩
      show Char.ofNat 0x7b :: ((dumpPair k v ++ dumpsObjTail fs') ++ [Char.ofNat 0x7d]) = _
      rfl

theorem pyStrip_dumps (v : Json) : pyStrip (dumps v) = dumps v := by
  obtain ⟨d, t, hdt, hpd⟩ := dumps_head_pyws v
  obtain ⟨s0, e, hse, _, hpe⟩ := dumps_last v
  unfold pyStrip
  rw [hdt, List.dropWhile_cons, if_neg (by rw [hpd]; exact Bool.false_ne_true), ← hdt, hse,
    dropEnd_last_nws isPyWs s0 e hpe]

theorem jsonTrim_dumps (v : Json) : jsonTrim (dumps v) = dumps v := by
  obtain ⟨d, t, hdt, hwd, _, _⟩ := dumps_head v
  obtain ⟨s0, e, hse, hwe, _⟩ := dumps_last v
  unfold jsonTrim
  rw [hdt, List.dropWhile_cons, if_neg (by rw [hwd]; exact Bool.false_ne_true), ← hdt, hse,
    dropEnd_last_nws isJsonWs s0 e hwe]

theorem hasSubstr_prefix_mono (p q : Str) (hpq : p <+: q) :
    ∀ s, hasSubstr q s = true → hasSubstr p s = true
  | [], h => by
    have hq : q.isEmpty = true := h
    rw [List.isEmpty_iff] at hq
    subst hq
    have hp : p = [] := List.prefix_nil.mp hpq
    subst hp
    rfl
  | c :: cs, h => by
    have h' : (q.isPrefixOf (c :: cs) || hasSubstr q cs) = true := h
    simp only [Bool.or_eq_true] at h'
    show (p.isPrefixOf (c :: cs) || hasSubstr p cs) = true
    simp only [Bool.or_eq_true]
    rcases h' with h1 | h2
    · exact Or.inl (List.isPrefixOf_iff_prefix.mpr
        (hpq.trans (List.isPrefixOf_iff_prefix.mp h1)))
    · exact Or.inr (hasSubstr_prefix_mono p q hpq cs h2)

theorem cleanFences_noFence (s : Str) (h : hasSubstr (toL "```") s = false) :
    cleanFences s = s := by
  have hj : hasSubstr (toL "```json") s = false := by
    cases hc : hasSubstr (toL "```json") s
    · rfl
    · have hcon := hasSubstr_prefix_mono (toL "```") (toL "```json") (by decide) s hc
      rw [h] at hcon
      cases hcon
  unfold cleanFences
  rw [pyReplace_no_occur _ _ (by decide) s hj, pyReplace_no_occur _ _ (by decide) s h]

theorem jsonLoads_dumps (v : Json) (hwf : wfJ v = true) : jsonLoads (dumps v) = some v := by
  have hp : parseVal (parseFuel (dumps v)) (dumps v) = some (v, []) := by
    have h0 := (parse_dumps_rt (parseFuel (dumps v))).1 v [] hwf rfl
      (show (dumps v).length < 2 * (dumps v).length + 4 from by omega)
    rw [List.append_nil] at h0
    exact h0
  show (match parseVal (parseFuel (jsonTrim (dumps v))) (jsonTrim (dumps v)) with
    | some (w, []) => some w
    | _ => none) = some v
  rw [jsonTrim_dumps, hp]

theorem fallback_ok_norm (rt : Str) (hok : fallbackOk rt = true) :
    wfJ (tripFallback rt) = true ∧
    normTrip (tripFallback rt) = some (tripFallback rt) := by
  unfold fallbackOk at hok
  split at hok
  · rename_i sub heq
    split at hok
    · rename_i v heq2
      cases hnr : normTrip v with
      | none =>
        rw [hnr] at hok
        cases hok
      | some r =>
        have hg : tripFallback rt = r := by
          unfold tripFallback
          split
          · rename_i sub' heq'
            rw [heq] at heq'
            injection heq' with hsub
            subst hsub
            split
            · rename_i v' heq2'
              rw [heq2] at heq2'
              injection heq2' with hv
              subst hv
              split
              · rename_i r' hnr'
                rw [hnr] at hnr'
                injection hnr' with hr
                exact hr.symm
              · rename_i hnr'
                rw [hnr] at hnr'
                cases hnr'
            · rename_i heq2'
              rw [heq2] at heq2'
              cases heq2'
          · rename_i heq'
            rw [heq] at heq'
            cases heq'
        rw [hg]
        have hwv := jsonLoads_wf sub v heq2
        exact ⟨normTrip_wf v r hwv hnr, normTrip_idem v r hnr⟩
    · cases hok
  · cases hok

theorem extract_ok_norm (raw : Str) (hok : tripParsedOk raw = true) :
    wfJ (extractTripInfoText raw) = true ∧
    normTrip (extractTripInfoText raw) = some (extractTripInfoText raw) := by
  unfold tripParsedOk at hok
  split at hok
  · rename_i v heq
    split at hok
    · rename_i r heq2
      have hg : extractTripInfoText raw = r := by
        simp only [extractTripInfoText]
        split
        · rename_i v' heq'
          rw [heq] at heq'
          injection heq' with hv
          subst hv
          split
          · rename_i r' heq2'
            rw [heq2] at heq2'
            injection heq2' with hr
            exact hr.symm
          · rename_i heq2'
            rw [heq2] at heq2'
            cases heq2'
        · rename_i heq'
          rw [heq] at heq'
          cases heq'
      rw [hg]
      have hwv := jsonLoads_wf _ v heq
      exact ⟨normTrip_wf v r hwv heq2, normTrip_idem v r heq2⟩
    · rename_i heq2
      have hg : extractTripInfoText raw = tripFallback (pyStrip raw) := by
        simp only [extractTripInfoText]
        split
        · rename_i v' heq'
          rw [heq] at heq'
          injection heq' with hv
          subst hv
          split
          · rename_i r' heq2'
            rw [heq2] at heq2'
            cases heq2'
          · rfl
        · rfl
      rw [hg]
      exact fallback_ok_norm _ hok
  · rename_i heq
    have hg : extractTripInfoText raw = tripFallback (pyStrip raw) := by
      simp only [extractTripInfoText]
      split
      · rename_i v' heq'
        rw [heq] at heq'
        cases heq'
      · rfl
    rw [hg]
    exact fallback_ok_norm _ hok

/-! ## Claim C7 -/

/-- C7 (amended): for every response text that `extract_trip_info` parses
successfully (strictly or through the brace fallback), provided the
serialization of the returned result contains no occurrence of the fence
marker, re-running the extraction on that serialization returns a result
equal to the original.  (Without the proviso the claim fails: the fallback
path parses the brace block of the raw text with the fence markers still in
place, so the result can contain a string with a fence marker inside, which
the second run's marker removal deletes — see the counterexample.) -/
theorem trip_roundtrip (raw : Str) (hok : tripParsedOk raw = true)
    (hfence : hasSubstr (toL "```") (dumps (extractTripInfoText raw)) = false) :
    extractTripInfoText (dumps (extractTripInfoText raw)) = extractTripInfoText raw := by
  obtain ⟨hwf, hnorm⟩ := extract_ok_norm raw hok
  revert hwf hnorm hfence
  generalize extractTripInfoText raw = r
  intro hfence hwf hnorm
  have h1 : pyStrip (dumps r) = dumps r := pyStrip_dumps r
  have h2 : cleanFences (dumps r) = dumps r := cleanFences_noFence _ hfence
  have h3 : jsonLoads (dumps r) = some r := jsonLoads_dumps r hwf
  simp only [extractTripInfoText]
  rw [h1, h2, h3]
  show (match normTrip r with
    | some r' => r'
    | none => tripFallback (dumps r)) = r
  rw [hnorm]

set_option maxHeartbeats 1600000 in
/-- C7 counterexample: the raw text `x {"notes": "a` `` `b"}` (a prose prefix
before a brace block whose string value contains the fence marker) parses
successfully via the brace fallback, but re-running the extraction on the
serialization of its result gives a different result: the second run's
fence-marker removal deletes the marker inside the string value. -/
theorem trip_roundtrip_cex :
    tripParsedOk (toL "x \x7b\"notes\": \"a```b\"\x7d") = true ∧
    extractTripInfoText (dumps (extractTripInfoText (toL "x \x7b\"notes\": \"a```b\"\x7d"))) ≠
      extractTripInfoText (toL "x \x7b\"notes\": \"a```b\"\x7d") := by
  constructor
  · decide
  · decide

set_option maxHeartbeats 1600000 in
/-- Witness for C7 (amended) at a concrete well-formed response. -/
theorem trip_roundtrip_witness :
    tripParsedOk (toL "\x7b\"notes\": \"hi\"\x7d") = true ∧
    extractTripInfoText (dumps (extractTripInfoText (toL "\x7b\"notes\": \"hi\"\x7d"))) =
      extractTripInfoText (toL "\x7b\"notes\": \"hi\"\x7d") :=
  ⟨by decide, trip_roundtrip _ (by decide) (by decide)⟩

end Sarathi
